import Mathlib

/-! The gx manifest layer (gxutil/pkgfile.go).

A shallow embedding of the manifest schema, the dependency accessors
(FindDep, ForEachDep) and the load / merge / save protocol, with the
properties the specification states about them.

Modelling conventions
* Go strings are Lean strings (valid UTF-8 only).
* A Go pointer that may be nil is an Option; dereferencing nil is the
  outcome panicked.
* A Go error value is a GoError; os.IsNotExist is GoError.isNotExist.
* External collaborators (the Resolver LoadPackage, the callback handed to
  ForEachDep) are parameters that thread an abstract world state; every call
  made to them is recorded in an event trace so that call counts and call
  order can be stated.  Logging is left out.
* A file is modelled by what its bytes parse to: a JSON document tree, or
  bytes that are not JSON.  Layout (indentation, newlines) is not part of
  the tree.  Objects of a document keep their members in document order.
* Where the bytes themselves matter (the end of a written file), the text
  writeJson writes is modelled with the indented layout of a document as a
  parameter and the white space around it explicit.
* encoding/json is modelled on these trees: decoding into interface{} turns
  objects into maps (kept sorted by key, last member of a key wins); decoding
  into the structs matches keys to fields exactly or up to case, leaves a
  field alone on null, and reports a type error on a value of the wrong
  kind; encoding writes struct fields in declaration order under the
  omitempty rule and map keys in sorted order.
* mergeMaps is not among the sources and is modelled from the specification.
* I/O failures of a write are a parameter (Faults).
-/

namespace Gx

/-! ## Errors and outcomes -/

/-- Go error values, as far as this package distinguishes them. -/
inductive GoError where
  /-- an error for which os.IsNotExist reports true -/
  | notExist (detail : String)
  /-- any other I/O or Resolver failure -/
  | failure (detail : String)
  /-- json.SyntaxError: the bytes are not valid JSON -/
  | syntaxError
  /-- json.UnmarshalTypeError: a JSON value does not fit the Go target -/
  | typeError (target : String)
  /-- json.MarshalerError: a RawMessage holding invalid JSON -/
  | marshalError
  /-- a value built by fmt.Errorf -/
  | errorf (msg : String)
deriving DecidableEq, Repr

/-- The test os.IsNotExist(err). -/
def GoError.isNotExist : GoError → Bool
  | .notExist _ => true
  | _ => false
deriving instance DecidableEq for Except

/-- How a Go call ends: it returns a value, or it panics. -/
inductive Outcome (α : Type) where
  | returned (v : α)
  | panicked
deriving DecidableEq, Repr

/-! ## JSON values

A JSON document as a tree.  Objects keep their members as a key / value list
in document order.  A number stands for the finite float64 that Go decodes
the literal to, carried as the rational it denotes. -/

/-- JSON syntax trees. -/
inductive JSON where
  | null
  | bool (b : Bool)
  | num (n : ℚ)
  | str (s : String)
  | arr (elems : List JSON)
  | obj (members : List (String × JSON))

namespace JSON

mutual
/-- Decidable equality of JSON trees. -/
def decEq : (a b : JSON) → Decidable (a = b)
  | null, null => isTrue rfl
  | bool x, bool y =>
    if h : x = y then isTrue (by rw [h]) else isFalse (fun e => h (by cases e; rfl))
  | num x, num y =>
    if h : x = y then isTrue (by rw [h]) else isFalse (fun e => h (by cases e; rfl))
  | str x, str y =>
    if h : x = y then isTrue (by rw [h]) else isFalse (fun e => h (by cases e; rfl))
  | arr x, arr y =>
    match decEqList x y with
    | isTrue h => isTrue (by rw [h])
    | isFalse h => isFalse (fun e => h (by cases e; rfl))
  | obj x, obj y =>
    match decEqMembers x y with
    | isTrue h => isTrue (by rw [h])
    | isFalse h => isFalse (fun e => h (by cases e; rfl))
  | null, bool _ | null, num _ | null, str _ | null, arr _ | null, obj _ => isFalse nofun
  | bool _, null | bool _, num _ | bool _, str _ | bool _, arr _ | bool _, obj _ => isFalse nofun
  | num _, null | num _, bool _ | num _, str _ | num _, arr _ | num _, obj _ => isFalse nofun
  | str _, null | str _, bool _ | str _, num _ | str _, arr _ | str _, obj _ => isFalse nofun
  | arr _, null | arr _, bool _ | arr _, num _ | arr _, str _ | arr _, obj _ => isFalse nofun
  | obj _, null | obj _, bool _ | obj _, num _ | obj _, str _ | obj _, arr _ => isFalse nofun
/-- Decidable equality of lists of JSON trees. -/
def decEqList : (a b : List JSON) → Decidable (a = b)
  | [], [] => isTrue rfl
  | [], _ :: _ => isFalse nofun
  | _ :: _, [] => isFalse nofun
  | x :: xs, y :: ys =>
    match decEq x y, decEqList xs ys with
    | isTrue h1, isTrue h2 => isTrue (by rw [h1, h2])
    | isFalse h, _ => isFalse (fun e => h (by cases e; rfl))
    | _, isFalse h => isFalse (fun e => h (by cases e; rfl))
/-- Decidable equality of member lists. -/
def decEqMembers : (a b : List (String × JSON)) → Decidable (a = b)
  | [], [] => isTrue rfl
  | [], _ :: _ => isFalse nofun
  | _ :: _, [] => isFalse nofun
  | (k1, x) :: xs, (k2, y) :: ys =>
    if hk : k1 = k2 then
      match decEq x y, decEqMembers xs ys with
      | isTrue h1, isTrue h2 => isTrue (by rw [hk, h1, h2])
      | isFalse h, _ => isFalse (fun e => h (by cases e; rfl))
      | _, isFalse h => isFalse (fun e => h (by cases e; rfl))
    else isFalse (fun e => hk (by cases e; rfl))
end

instance : DecidableEq JSON := decEq

end JSON

/-! ## Manifest schema -/

/-- The struct Dependency. -/
structure Dependency where
  Author : String := ""
  Name : String := ""
  Hash : String := ""
  Version : String := ""
deriving DecidableEq

/-- The struct BugsObj. -/
structure BugsObj where
  Url : String := ""
deriving DecidableEq

/-- A json.RawMessage: a byte span that is empty (nil or of length 0), holds
one valid JSON text, or holds bytes that are not valid JSON. -/
inductive RawMessage where
  | empty
  | valid (v : JSON)
  | invalid (bytes : String)
deriving DecidableEq

/-- The struct PackageBase.  Dependencies is a slice of pointers, so an entry
may be nil. -/
structure PackageBase where
  Name : String := ""
  Author : String := ""
  Description : String := ""
  Keywords : List String := []
  Version : String := ""
  Dependencies : List (Option Dependency) := []
  Bin : String := ""
  Build : String := ""
  Test : String := ""
  ReleaseCmd : String := ""
  TagCmd : String := ""
  SubtoolRequired : Bool := false
  Language : String := ""
  License : String := ""
  Bugs : BugsObj := {}
  GxVersion : String := ""
deriving DecidableEq

/-- The struct Package: PackageBase embedded, plus the raw gx payload. -/
structure Package extends PackageBase where
  Gx : RawMessage := .empty
deriving DecidableEq

/-! ## Dependency accessor -/

/-- The loop of FindDep over the dependency slice: the first entry whose hash
or name is ref; reading a nil entry panics. -/
def findDepLoop (ref : String) : List (Option Dependency) → Outcome (Option Dependency)
  | [] => .returned none
  | none :: _ => .panicked
  | some d :: rest =>
    if d.Hash = ref ∨ d.Name = ref then .returned (some d) else findDepLoop ref rest

/-- The method PackageBase.FindDep. -/
def FindDep (pkg : PackageBase) (ref : String) : Outcome (Option Dependency) :=
  findDepLoop ref pkg.Dependencies

/-- The external Resolver LoadPackage(out, language, hash): from a world state
it yields the loaded manifest or an error, and the next world state. -/
abbrev LoadPackageFn (σ : Type) := σ → String → String → Except GoError Package × σ

/-- The callback handed to ForEachDep: from a world state, a dependency and
its manifest it yields nil or an error, and the next world state. -/
abbrev DepCallback (σ : Type) := σ → Dependency → Package → Option GoError × σ

/-- One call made by ForEachDep to a collaborator, with what it returned. -/
inductive Event where
  | resolve (language hash : String) (result : Except GoError Package)
  | callback (dep : Dependency) (pkg : Package) (result : Option GoError)

/-- The end of a ForEachDep run: what it returned, the world state reached and
the calls it made, in order. -/
structure Run (σ : Type) where
  result : Outcome (Option GoError)
  world : σ
  trace : List Event

/-- The loop of ForEachDep over the dependency slice. -/
def forEachDepLoop {σ : Type} (loadPackage : LoadPackageFn σ) (cb : DepCallback σ)
    (language : String) : List (Option Dependency) → σ → Run σ
  | [], s => ⟨.returned none, s, []⟩
  | none :: _, s => ⟨.panicked, s, []⟩
  | some dep :: rest, s =>
    match loadPackage s language dep.Hash with
    | (.error err, s1) =>
      if err.isNotExist then
        ⟨.returned (some (.errorf ("package " ++ dep.Name ++ " (" ++ dep.Hash ++ ") not found"))),
          s1, [.resolve language dep.Hash (.error err)]⟩
      else
        ⟨.returned (some err), s1, [.resolve language dep.Hash (.error err)]⟩
    | (.ok cpkg, s1) =>
      match cb s1 dep cpkg with
      | (some err, s2) =>
        ⟨.returned (some err), s2,
          [.resolve language dep.Hash (.ok cpkg), .callback dep cpkg (some err)]⟩
      | (none, s2) =>
        let r := forEachDepLoop loadPackage cb language rest s2
        ⟨r.result, r.world,
          .resolve language dep.Hash (.ok cpkg) :: .callback dep cpkg none :: r.trace⟩

/-- The method PackageBase.ForEachDep, run from world state s. -/
def ForEachDep {σ : Type} (loadPackage : LoadPackageFn σ) (pkg : PackageBase)
    (cb : DepCallback σ) (s : σ) : Run σ :=
  forEachDepLoop loadPackage cb pkg.Language pkg.Dependencies s

/-- The callback invocations of a trace, in order: dependency and manifest. -/
def callbackArgs : List Event → List (Dependency × Package)
  | [] => []
  | .callback d p _ :: rest => (d, p) :: callbackArgs rest
  | .resolve _ _ _ :: rest => callbackArgs rest

/-- The Resolver calls of a trace, in order: language tag and hash. -/
def resolveArgs : List Event → List (String × String)
  | [] => []
  | .resolve l h _ :: rest => (l, h) :: resolveArgs rest
  | .callback _ _ _ :: rest => resolveArgs rest

/-- Resolver and callback both succeed on every entry of a dependency slice,
taking the world from s to s2 and producing the manifests pkgs. -/
inductive AllSucceed {σ : Type} (loadPackage : LoadPackageFn σ) (cb : DepCallback σ)
    (language : String) : List (Option Dependency) → σ → σ → List Package → Prop where
  | nil (s : σ) : AllSucceed loadPackage cb language [] s s []
  | cons {d : Dependency} {rest : List (Option Dependency)} {s s1 s2 s3 : σ} {p : Package}
      {ps : List Package} (hload : loadPackage s language d.Hash = (.ok p, s1))
      (hcb : cb s1 d p = (none, s2)) (hrest : AllSucceed loadPackage cb language rest s2 s3 ps) :
      AllSucceed loadPackage cb language (some d :: rest) s s3 (p :: ps)

/-! ## Go maps of JSON values

A value of type map[string]interface{} is kept as its member list sorted by
key (byte order, which is the order encoding/json writes map keys in), with
one member per key. -/

/-- Member lists of JSON objects. -/
abbrev Members := List (String × JSON)

/-- Lexicographic order on code lists. -/
def ltCodes : List Nat → List Nat → Bool
  | [], [] => false
  | [], _ :: _ => true
  | _ :: _, [] => false
  | a :: as, b :: bs => if a < b then true else if b < a then false else ltCodes as bs

/-- The code points of a key. -/
def keyCodes (s : String) : List Nat := s.toList.map Char.toNat

/-- The order in which encoding/json sorts map keys: byte order of the UTF-8
text, which is code point order. -/
def keyLt (a b : String) : Bool := ltCodes (keyCodes a) (keyCodes b)

/-- The map read m[k]. -/
def objLookup (k : String) : Members → Option JSON
  | [] => none
  | (k1, v1) :: rest => if k = k1 then some v1 else objLookup k rest

/-- The map write m[k] = v. -/
def objInsert (k : String) (v : JSON) : Members → Members
  | [] => [(k, v)]
  | (k1, v1) :: rest =>
    if k = k1 then (k, v) :: rest
    else if keyLt k k1 then (k, v) :: (k1, v1) :: rest
    else (k1, v1) :: objInsert k v rest

mutual
/-- What json.Unmarshal stores into an interface{} target: objects become
maps, in which the last of several members with one key wins. -/
def generic : JSON → JSON
  | .null => .null
  | .bool b => .bool b
  | .num n => .num n
  | .str s => .str s
  | .arr xs => .arr (genericList xs)
  | .obj ms => .obj (genericMembers ms [])
/-- The function generic along an array. -/
def genericList : List JSON → List JSON
  | [] => []
  | x :: xs => generic x :: genericList xs
/-- The function generic along the members of an object, written one after the
other into the map acc. -/
def genericMembers : Members → Members → Members
  | [], acc => acc
  | (k, v) :: rest, acc => genericMembers rest (objInsert k (generic v) acc)
end

/-! ## Typed decoding (json.Unmarshal into the manifest structs) -/

/-- Case folding of one rune as far as it can reach an ASCII letter: upper
case ASCII, the Kelvin sign (for k) and the long s (for s). -/
def foldRune (c : Char) : Char :=
  if 65 ≤ c.toNat ∧ c.toNat ≤ 90 then Char.ofNat (c.toNat + 32)
  else if c.toNat = 0x212A then Char.ofNat 107
  else if c.toNat = 0x17F then Char.ofNat 115
  else c

/-- The case-insensitive key match of encoding/json, for a field name made of
ASCII letters. -/
def equalFold (fieldName key : String) : Bool :=
  fieldName.toList.map foldRune == key.toList.map foldRune

/-- The struct field a JSON key is decoded into: the field whose name is the
key exactly, else the first field whose name is the key up to case. -/
def findField {φ : Type} (fields : List (String × φ)) (key : String) : Option φ :=
  match fields.find? (fun f => f.1 == key) with
  | some f => some f.2
  | none => (fields.find? (fun f => equalFold f.1 key)).map (fun f => f.2)

/-- Decoding into a string: null leaves the target as it is. -/
def decodeString (v : JSON) (old : String) : Except GoError String :=
  match v with
  | .null => .ok old
  | .str s => .ok s
  | _ => .error (.typeError "string")

/-- Decoding into a bool: null leaves the target as it is. -/
def decodeBool (v : JSON) (old : Bool) : Except GoError Bool :=
  match v with
  | .null => .ok old
  | .bool b => .ok b
  | _ => .error (.typeError "bool")

/-- Decoding the elements of an array into a string slice: element i is decoded
into the element the slice already has at i, or into an empty string when the
slice is shorter. -/
def decodeStringElems : List JSON → List String → Except GoError (List String)
  | [], _ => .ok []
  | x :: xs, old =>
    match decodeString x (old.headD "") with
    | .error e => .error e
    | .ok s =>
      match decodeStringElems xs old.tail with
      | .error e => .error e
      | .ok rest => .ok (s :: rest)

/-- Decoding into a string slice: null makes it nil. -/
def decodeStrings (v : JSON) (old : List String) : Except GoError (List String) :=
  match v with
  | .null => .ok []
  | .arr xs => decodeStringElems xs old
  | _ => .error (.typeError "[]string")

/-- The fields of Dependency. -/
inductive DepField where
  | author | name | hash | version
deriving DecidableEq

/-- The JSON names of the fields of Dependency, in declaration order. -/
def depFields : List (String × DepField) :=
  [("author", .author), ("name", .name), ("hash", .hash), ("version", .version)]

/-- Decoding one value into one field of a Dependency. -/
def setDepField (f : DepField) (v : JSON) (d : Dependency) : Except GoError Dependency :=
  match f with
  | .author => (decodeString v d.Author).map (fun x => { d with Author := x })
  | .name => (decodeString v d.Name).map (fun x => { d with Name := x })
  | .hash => (decodeString v d.Hash).map (fun x => { d with Hash := x })
  | .version => (decodeString v d.Version).map (fun x => { d with Version := x })

/-- Decoding the members of an object into a Dependency, in document order;
members with an unknown key are skipped. -/
def decodeDepMembers : Members → Dependency → Except GoError Dependency
  | [], d => .ok d
  | (k, v) :: rest, d =>
    match findField depFields k with
    | none => decodeDepMembers rest d
    | some f =>
      match setDepField f v d with
      | .error e => .error e
      | .ok d1 => decodeDepMembers rest d1

/-- Decoding into a pointer to Dependency: null makes it nil, an object is
decoded into the Dependency pointed to, or into a new one if the pointer is
nil. -/
def decodeDepPtr (v : JSON) (old : Option Dependency) : Except GoError (Option Dependency) :=
  match v with
  | .null => .ok none
  | .obj ms => (decodeDepMembers ms (old.getD {})).map some
  | _ => .error (.typeError "Dependency")

/-- Decoding the elements of an array into a slice of Dependency pointers. -/
def decodeDepElems : List JSON → List (Option Dependency) →
    Except GoError (List (Option Dependency))
  | [], _ => .ok []
  | x :: xs, old =>
    match decodeDepPtr x (old.headD none) with
    | .error e => .error e
    | .ok d =>
      match decodeDepElems xs old.tail with
      | .error e => .error e
      | .ok rest => .ok (d :: rest)

/-- Decoding into a slice of Dependency pointers: null makes it nil. -/
def decodeDeps (v : JSON) (old : List (Option Dependency)) :
    Except GoError (List (Option Dependency)) :=
  match v with
  | .null => .ok []
  | .arr xs => decodeDepElems xs old
  | _ => .error (.typeError "[]*Dependency")

/-- The JSON names of the fields of BugsObj. -/
def bugsFields : List (String × Unit) := [("url", ())]

/-- Decoding the members of an object into a BugsObj, in document order. -/
def decodeBugsMembers : Members → BugsObj → Except GoError BugsObj
  | [], b => .ok b
  | (k, v) :: rest, b =>
    match findField bugsFields k with
    | none => decodeBugsMembers rest b
    | some _ =>
      match decodeString v b.Url with
      | .error e => .error e
      | .ok u => decodeBugsMembers rest { b with Url := u }

/-- Decoding into a BugsObj: null leaves the target as it is. -/
def decodeBugs (v : JSON) (old : BugsObj) : Except GoError BugsObj :=
  match v with
  | .null => .ok old
  | .obj ms => decodeBugsMembers ms old
  | _ => .error (.typeError "BugsObj")

/-- The fields of Package: those of the embedded PackageBase, then Gx. -/
inductive PkgField where
  | name | author | description | keywords | version | gxDependencies | bin | build | test
  | releaseCmd | tagCmd | subtoolRequired | language | license | bugs | gxVersion | gx
deriving DecidableEq

/-- The JSON names of the fields of Package, in declaration order. -/
def packageFields : List (String × PkgField) :=
  [("name", .name), ("author", .author), ("description", .description),
   ("keywords", .keywords), ("version", .version), ("gxDependencies", .gxDependencies),
   ("bin", .bin), ("build", .build), ("test", .test), ("releaseCmd", .releaseCmd),
   ("tagCmd", .tagCmd), ("subtoolRequired", .subtoolRequired), ("language", .language),
   ("license", .license), ("bugs", .bugs), ("gxVersion", .gxVersion), ("gx", .gx)]

/-- Decoding one value into one field of a Package.  The field Gx is a
RawMessage and takes the text of any value, null included. -/
def setField (f : PkgField) (v : JSON) (p : Package) : Except GoError Package :=
  match f with
  | .name => (decodeString v p.Name).map (fun x => { p with Name := x })
  | .author => (decodeString v p.Author).map (fun x => { p with Author := x })
  | .description => (decodeString v p.Description).map (fun x => { p with Description := x })
  | .keywords => (decodeStrings v p.Keywords).map (fun x => { p with Keywords := x })
  | .version => (decodeString v p.Version).map (fun x => { p with Version := x })
  | .gxDependencies =>
    (decodeDeps v p.Dependencies).map (fun x => { p with Dependencies := x })
  | .bin => (decodeString v p.Bin).map (fun x => { p with Bin := x })
  | .build => (decodeString v p.Build).map (fun x => { p with Build := x })
  | .test => (decodeString v p.Test).map (fun x => { p with Test := x })
  | .releaseCmd => (decodeString v p.ReleaseCmd).map (fun x => { p with ReleaseCmd := x })
  | .tagCmd => (decodeString v p.TagCmd).map (fun x => { p with TagCmd := x })
  | .subtoolRequired =>
    (decodeBool v p.SubtoolRequired).map (fun x => { p with SubtoolRequired := x })
  | .language => (decodeString v p.Language).map (fun x => { p with Language := x })
  | .license => (decodeString v p.License).map (fun x => { p with License := x })
  | .bugs => (decodeBugs v p.Bugs).map (fun x => { p with Bugs := x })
  | .gxVersion => (decodeString v p.GxVersion).map (fun x => { p with GxVersion := x })
  | .gx => .ok { p with Gx := .valid v }

/-- Decoding the members of an object into a Package, in document order;
members with an unknown key are skipped. -/
def decodeMembers : Members → Package → Except GoError Package
  | [], p => .ok p
  | (k, v) :: rest, p =>
    match findField packageFields k with
    | none => decodeMembers rest p
    | some f =>
      match setField f v p with
      | .error e => .error e
      | .ok p1 => decodeMembers rest p1

/-! ## Encoding (json.Encoder on a Package) -/

/-- A string field tagged omitempty. -/
def optString (key : String) (s : String) : Members :=
  if s = "" then [] else [(key, .str s)]

/-- The JSON form of a Dependency. -/
def encodeDependency (d : Dependency) : JSON :=
  .obj (optString "author" d.Author ++ optString "name" d.Name ++ [("hash", .str d.Hash)] ++
    optString "version" d.Version)

/-- The JSON form of a pointer to Dependency. -/
def encodeDepPtr : Option Dependency → JSON
  | none => .null
  | some d => encodeDependency d

/-- The JSON form of a BugsObj. -/
def encodeBugs (b : BugsObj) : JSON := .obj (optString "url" b.Url)

/-- The member written for the field Gx: none when the span is empty, the
JSON text itself when it is valid, an error otherwise. -/
def encodeRaw : RawMessage → Except GoError Members
  | .empty => .ok []
  | .valid v => .ok [("gx", v)]
  | .invalid _ => .error .marshalError

/-- The members written for PackageBase, in field order. -/
def encodeBase (p : PackageBase) : Members :=
  optString "name" p.Name ++ optString "author" p.Author ++
  optString "description" p.Description ++
  (if p.Keywords = [] then [] else [("keywords", .arr (p.Keywords.map .str))]) ++
  optString "version" p.Version ++
  (if p.Dependencies = [] then []
    else [("gxDependencies", .arr (p.Dependencies.map encodeDepPtr))]) ++
  optString "bin" p.Bin ++ optString "build" p.Build ++ optString "test" p.Test ++
  optString "releaseCmd" p.ReleaseCmd ++ optString "tagCmd" p.TagCmd ++
  (if p.SubtoolRequired then [("subtoolRequired", .bool true)] else []) ++
  optString "language" p.Language ++
  [("license", .str p.License), ("bugs", encodeBugs p.Bugs), ("gxVersion", .str p.GxVersion)]

/-- The document json.Encoder writes for a Package. -/
def encodePackage (p : Package) : Except GoError JSON :=
  match encodeRaw p.Gx with
  | .error e => .error e
  | .ok gx => .ok (.obj (encodeBase p.toPackageBase ++ gx))

/-! ## Files -/

/-- The bytes of a file: the text of one JSON document (in any layout), or
bytes that are not valid JSON. -/
inductive FileData where
  | json (doc : JSON)
  | malformed (bytes : String)
deriving DecidableEq

/-- What a location of the file system holds: no file, something that cannot
be read (the error ReadFile gives is not a not-exist error), or a file. -/
inductive Slot where
  | absent
  | unreadable (detail : String)
  | file (data : FileData)
deriving DecidableEq

/-- The I/O failures a write may meet: os.Create failing with an error, and
File.Write failing with an error after leaving the given bytes in the file. -/
structure Faults where
  create : Option GoError := none
  write : Option (GoError × FileData) := none

/-- The call ioutil.ReadFile. -/
def readFile : Slot → Except GoError FileData
  | .absent => .error (.notExist "open: no such file or directory")
  | .unreadable detail => .error (.failure detail)
  | .file data => .ok data

/-- The call json.Unmarshal(data, &m) for a nil m of type
map[string]interface{}: the text null leaves m nil. -/
def unmarshalMap : FileData → Except GoError (Option Members)
  | .malformed _ => .error .syntaxError
  | .json .null => .ok none
  | .json (.obj ms) => .ok (some (genericMembers ms []))
  | .json _ => .error (.typeError "map[string]interface {}")

/-- The call json.Unmarshal(data, pkg) for pkg pointing to a Package: the text
null leaves the Package as it is. -/
def unmarshalPackage (data : FileData) (pkg : Package) : Except GoError Package :=
  match data with
  | .malformed _ => .error .syntaxError
  | .json .null => .ok pkg
  | .json (.obj ms) => decodeMembers ms pkg
  | .json _ => .error (.typeError "Package")

/-- Lines 61 to 70 of LoadPackageFile: when pkgmap["bugs"] is a string, the map
with bugs rewritten to an object is marshalled (keys sorted) and replaces the
bytes read. -/
def migrateBugs (data : FileData) (pkgmap : Option Members) : FileData :=
  match objLookup "bugs" (pkgmap.getD []) with
  | some (.str url) =>
    .json (.obj (objInsert "bugs" (.obj [("url", .str url)]) (pkgmap.getD [])))
  | _ => data

/-- The function LoadPackageFile, for pkg pointing to the Package given; on
success the Package as decoded. -/
def LoadPackageFile (pkg : Package) (slot : Slot) : Except GoError Package :=
  match readFile slot with
  | .error err => .error err
  | .ok data =>
    match unmarshalMap data with
    | .error err => .error err
    | .ok pkgmap => unmarshalPackage (migrateBugs data pkgmap) pkg

mutual
/-- Modelled from the spec: mergeMaps is called by SavePackageFile and its
source is not among the files.  Deep merge of incoming over current: a key of
incoming overwrites that key of current, except that two objects under one
key are merged recursively; keys of current alone are kept. -/
def mergeMaps (current : Members) : Members → Members
  | [] => current
  | (k, v) :: rest => mergeMaps (objInsert k (mergeValue (objLookup k current) v) current) rest
/-- Modelled from the spec: the value mergeMaps stores under a key that
incoming has, given what current has under it. -/
def mergeValue (cur : Option JSON) : JSON → JSON
  | .obj b =>
    match cur with
    | some (.obj a) => .obj (mergeMaps a b)
    | _ => .obj b
  | .null => .null
  | .bool x => .bool x
  | .num x => .num x
  | .str x => .str x
  | .arr x => .arr x
end

/-- The Go values writeJson is called with. -/
inductive Encodable where
  | package (pkg : Package)
  | map (m : Members)

/-- The document json.Encoder writes for a value. -/
def encode : Encodable → Except GoError JSON
  | .package pkg => encodePackage pkg
  | .map m => .ok (.obj m)

/-- The function writeJson: os.Create truncates the file before anything is
encoded; json.Indent cannot fail on what the encoder wrote. -/
def writeJson (io : Faults) (i : Encodable) (slot : Slot) : Option GoError × Slot :=
  match io.create with
  | some err => (some err, slot)
  | none =>
    match encode i with
    | .error err => (some err, .file (.malformed ""))
    | .ok doc =>
      match io.write with
      | some (err, left) => (some err, .file left)
      | none => (none, .file (.json doc))

/-- Lines 89 to 99 of SavePackageFile: the Package is encoded and the text is
decoded again, into a map. -/
def serializedMap (pkg : Package) : Except GoError (Option Members) :=
  match encodePackage pkg with
  | .error err => .error err
  | .ok doc => unmarshalMap (.json doc)

/-- The function SavePackageFile, for pkg pointing to the Package given: the
error returned (none for nil) and what the location holds afterwards.  A nil
map (from a file whose text is null) is passed to the merge as an empty
map. -/
def SavePackageFile (io : Faults) (pkg : Package) (slot : Slot) : Option GoError × Slot :=
  match readFile slot with
  | .error err => if err.isNotExist then writeJson io (.package pkg) slot else (some err, slot)
  | .ok data =>
    match unmarshalMap data with
    | .error err => (some err, slot)
    | .ok current =>
      match serializedMap pkg with
      | .error err => (some err, slot)
      | .ok modified =>
        writeJson io (.map (mergeMaps (current.getD []) (modified.getD []))) slot

/-- The decoded JSON content of a location: the generic value its file
decodes to, if it holds a file of valid JSON. -/
def decodedContent : Slot → Option JSON
  | .file (.json doc) => some (generic doc)
  | _ => none

/-! ### The bytes written -/

/-- A JSON text in a buffer: the value it denotes and the white space that
follows the value. -/
structure JSONText where
  doc : JSON
  trailing : String

/-- The call Encoder.Encode into an empty buffer: the JSON text of the value,
followed by a newline character. -/
def encoderEncode (i : Encodable) : Except GoError JSONText :=
  match encode i with
  | .error err => .error err
  | .ok doc => .ok { doc := doc, trailing := "\n" }

/-- The call json.Indent(out, src, "", "  ") on a valid text: the value is laid
out afresh, which layout stands for, and the white space after the value is
copied as it is. -/
def jsonIndent (layout : JSON → String) (src : JSONText) : String :=
  layout src.doc ++ src.trailing

/-- The function writeJson at the level of bytes: what the file holds after a
call that returns nil, that is out.Bytes() and then the string written by
fi.WriteString (whose result the code does not look at; it is taken to
succeed when fi.Write did). -/
def writeJsonBytes (layout : JSON → String) (io : Faults) (i : Encodable) : Option String :=
  match io.create with
  | some _ => none
  | none =>
    match encoderEncode i with
    | .error _ => none
    | .ok buf =>
      match io.write with
      | some _ => none
      | none => some (jsonIndent layout buf ++ "\n")

/-- The function SavePackageFile at the level of bytes: what the file holds
after a call that returns nil. -/
def SavePackageFileBytes (layout : JSON → String) (io : Faults) (pkg : Package)
    (slot : Slot) : Option String :=
  match readFile slot with
  | .error err => if err.isNotExist then writeJsonBytes layout io (.package pkg) else none
  | .ok data =>
    match unmarshalMap data with
    | .error _ => none
    | .ok current =>
      match serializedMap pkg with
      | .error _ => none
      | .ok modified =>
        writeJsonBytes layout io (.map (mergeMaps (current.getD []) (modified.getD [])))

/-! ## Notions used in the statements -/

/-- The trace of a run in which every step succeeds: per dependency one
Resolver call and then one callback call with the manifest it produced. -/
def successTrace (language : String) : List Dependency → List Package → List Event
  | d :: ds, p :: ps =>
    .resolve language d.Hash (.ok p) :: .callback d p none :: successTrace language ds ps
  | _, _ => []

/-- Keys strictly increasing along a member list. -/
def KeySorted (ms : Members) : Prop := ms.Pairwise (fun x y => keyLt x.1 y.1 = true)

mutual
/-- A value as Go holds it after decoding into interface{}: every object in it
is a map, its keys strictly increasing. -/
def Normal : JSON → Prop
  | .null => True
  | .bool _ => True
  | .num _ => True
  | .str _ => True
  | .arr xs => NormalList xs
  | .obj ms => KeySorted ms ∧ NormalMembers ms
/-- Every element is Normal. -/
def NormalList : List JSON → Prop
  | [] => True
  | x :: xs => Normal x ∧ NormalList xs
/-- Every member value is Normal. -/
def NormalMembers : Members → Prop
  | [] => True
  | (_, v) :: rest => Normal v ∧ NormalMembers rest
end

/-- The last value a member list gives for a key. -/
def lastValue (k : String) : Members → Option JSON
  | [] => none
  | (k1, v1) :: rest =>
    match lastValue k rest with
    | some v => some v
    | none => if k = k1 then some v1 else none

/-- The top-level keys of the manifest schema. -/
def schemaKeys : List String := packageFields.map (fun f => f.1)

/-- A value a string target takes. -/
def fitsString : JSON → Bool
  | .null => true
  | .str _ => true
  | _ => false

/-- A value a bool target takes. -/
def fitsBool : JSON → Bool
  | .null => true
  | .bool _ => true
  | _ => false

/-- A value a string slice takes. -/
def fitsStrings : JSON → Bool
  | .null => true
  | .arr xs => xs.all fitsString
  | _ => false

/-- Members a Dependency takes: each member that names a field has a value
that field takes. -/
def fitsDepMembers (ms : Members) : Bool :=
  ms.all (fun kv => match findField depFields kv.1 with
    | none => true
    | some _ => fitsString kv.2)

/-- A value a pointer to Dependency takes. -/
def fitsDepPtr : JSON → Bool
  | .null => true
  | .obj ms => fitsDepMembers ms
  | _ => false

/-- A value a slice of Dependency pointers takes. -/
def fitsDeps : JSON → Bool
  | .null => true
  | .arr xs => xs.all fitsDepPtr
  | _ => false

/-- A value a BugsObj takes. -/
def fitsBugs : JSON → Bool
  | .null => true
  | .obj ms => ms.all (fun kv => match findField bugsFields kv.1 with
    | none => true
    | some _ => fitsString kv.2)
  | _ => false

/-- A value a field of Package takes. -/
def fitsField : PkgField → JSON → Bool
  | .keywords, v => fitsStrings v
  | .gxDependencies, v => fitsDeps v
  | .subtoolRequired, v => fitsBool v
  | .bugs, v => fitsBugs v
  | .gx, _ => true
  | _, v => fitsString v

/-- A member fits the schema: its key names no field of Package, or its value
is one that field takes. -/
def memberFits (kv : String × JSON) : Bool :=
  match findField packageFields kv.1 with
  | none => true
  | some f => fitsField f kv.2

/-- The JSON name of a field of Package. -/
def fieldName : PkgField → String
  | .name => "name"
  | .author => "author"
  | .description => "description"
  | .keywords => "keywords"
  | .version => "version"
  | .gxDependencies => "gxDependencies"
  | .bin => "bin"
  | .build => "build"
  | .test => "test"
  | .releaseCmd => "releaseCmd"
  | .tagCmd => "tagCmd"
  | .subtoolRequired => "subtoolRequired"
  | .language => "language"
  | .license => "license"
  | .bugs => "bugs"
  | .gxVersion => "gxVersion"
  | .gx => "gx"

/-- Two Packages hold the same value in one field. -/
def sameAt : PkgField → Package → Package → Prop
  | .name, p, q => p.Name = q.Name
  | .author, p, q => p.Author = q.Author
  | .description, p, q => p.Description = q.Description
  | .keywords, p, q => p.Keywords = q.Keywords
  | .version, p, q => p.Version = q.Version
  | .gxDependencies, p, q => p.Dependencies = q.Dependencies
  | .bin, p, q => p.Bin = q.Bin
  | .build, p, q => p.Build = q.Build
  | .test, p, q => p.Test = q.Test
  | .releaseCmd, p, q => p.ReleaseCmd = q.ReleaseCmd
  | .tagCmd, p, q => p.TagCmd = q.TagCmd
  | .subtoolRequired, p, q => p.SubtoolRequired = q.SubtoolRequired
  | .language, p, q => p.Language = q.Language
  | .license, p, q => p.License = q.License
  | .bugs, p, q => p.Bugs = q.Bugs
  | .gxVersion, p, q => p.GxVersion = q.GxVersion
  | .gx, p, q => p.Gx = q.Gx

/-- The value the encoder writes for a field of a Package, if it writes the
field at all. -/
def encodedField : PkgField → Package → Option JSON
  | .name, p => if p.Name = "" then none else some (.str p.Name)
  | .author, p => if p.Author = "" then none else some (.str p.Author)
  | .description, p => if p.Description = "" then none else some (.str p.Description)
  | .keywords, p => if p.Keywords = [] then none else some (.arr (p.Keywords.map .str))
  | .version, p => if p.Version = "" then none else some (.str p.Version)
  | .gxDependencies, p =>
    if p.Dependencies = [] then none else some (.arr (p.Dependencies.map encodeDepPtr))
  | .bin, p => if p.Bin = "" then none else some (.str p.Bin)
  | .build, p => if p.Build = "" then none else some (.str p.Build)
  | .test, p => if p.Test = "" then none else some (.str p.Test)
  | .releaseCmd, p => if p.ReleaseCmd = "" then none else some (.str p.ReleaseCmd)
  | .tagCmd, p => if p.TagCmd = "" then none else some (.str p.TagCmd)
  | .subtoolRequired, p => if p.SubtoolRequired then some (.bool true) else none
  | .language, p => if p.Language = "" then none else some (.str p.Language)
  | .license, p => some (.str p.License)
  | .bugs, p => some (encodeBugs p.Bugs)
  | .gxVersion, p => some (.str p.GxVersion)
  | .gx, p =>
    match p.Gx with
    | .valid v => some v
    | _ => none

/-- The member the encoder writes for one field: none when the field is
omitted. -/
def encodedMember (f : PkgField) (p : Package) : Members :=
  match encodedField f p with
  | none => []
  | some v => [(fieldName f, v)]

/-- The members the encoder writes for a list of fields, in order. -/
def encodeFields (p : Package) : List PkgField → Members
  | [] => []
  | f :: fs => encodedMember f p ++ encodeFields p fs

/-- The fields of Package in declaration order. -/
def allFields : List PkgField :=
  [.name, .author, .description, .keywords, .version, .gxDependencies, .bin, .build, .test,
   .releaseCmd, .tagCmd, .subtoolRequired, .language, .license, .bugs, .gxVersion, .gx]

/-- The raw payload as it is read back: the text written for it, passed
through t. -/
def reloadedGx (t : JSON → JSON) : RawMessage → RawMessage
  | .valid v => .valid (t v)
  | r => r

/-- The Package read back from what the encoder wrote for p. -/
def reloaded (t : JSON → JSON) (p : Package) : Package :=
  { p with Gx := reloadedGx t p.Gx }

/-- The members LoadPackageFile hands to the strict decode, for a file holding
the object ms: ms itself, or the map with bugs rewritten when bugs is a
string. -/
def loadedMembers (ms : Members) : Members :=
  match objLookup "bugs" (genericMembers ms []) with
  | some (.str url) => objInsert "bugs" (.obj [("url", .str url)]) (genericMembers ms [])
  | _ => ms

/-! ## Example inputs -/

/-- The manifest of the FindDep example: dependencies a (H1) and b (H2). -/
def exampleDeps : PackageBase :=
  { Dependencies := [some { Name := "a", Hash := "H1" }, some { Name := "b", Hash := "H2" }] }

/-- A manifest in which the name of the first dependency is the hash of the
second. -/
def collidingDeps : PackageBase :=
  { Dependencies := [some { Name := "X", Hash := "H1" }, some { Name := "b", Hash := "X" }] }

/-- A Resolver over a counter world: hash H2 is not found, hash H3 fails
otherwise, every other hash loads a manifest named after the hash. -/
def exampleResolver : LoadPackageFn Nat := fun n _ hash =>
  if hash = "H2" then (.error (.notExist "no such file"), n + 1)
  else if hash = "H3" then (.error (.failure "connection reset"), n + 1)
  else (.ok { Name := hash }, n + 1)

/-- A callback over a counter world that fails on the dependency named bad. -/
def exampleCallback : DepCallback Nat := fun n d _ =>
  if d.Name = "bad" then (some (.failure "callback failed"), n + 10) else (none, n + 10)

/-- A manifest of language go with dependencies a (H1), b (H2), c (H4). -/
def threeDeps : PackageBase :=
  { Language := "go",
    Dependencies := [some { Name := "a", Hash := "H1" }, some { Name := "b", Hash := "H2" },
      some { Name := "c", Hash := "H4" }] }

/-- A manifest of language go with dependencies a (H1), bad (H5), c (H4). -/
def badCallbackDeps : PackageBase :=
  { Language := "go",
    Dependencies := [some { Name := "a", Hash := "H1" }, some { Name := "bad", Hash := "H5" },
      some { Name := "c", Hash := "H4" }] }

/-- A manifest of language go in which two dependencies share the hash H1. -/
def diamondDeps : PackageBase :=
  { Language := "go",
    Dependencies := [some { Name := "a", Hash := "H1" }, some { Name := "c", Hash := "H1" }] }

/-- A file with a key the schema does not know. -/
def extraFile : Slot :=
  .file (.json (.obj [("name", .str "pkg"), ("version", .str "1.0.0"),
    ("extra", .obj [("x", .num 1)]), ("license", .str "MIT"), ("bugs", .obj []),
    ("gxVersion", .str "0.12.1")]))

/-- The manifest of extraFile with only the version changed. -/
def extraEdited : Package :=
  { Name := "pkg", Version := "1.0.1", License := "MIT", GxVersion := "0.12.1" }

/-- A file holding only a license. -/
def licenseFile : Slot := .file (.json (.obj [("license", .str "MIT")]))

/-- A legacy file: bugs is a bare string. -/
def legacyFile : Slot :=
  .file (.json (.obj [("name", .str "pkg"), ("bugs", .str "http://example.com"),
    ("license", .str "MIT"), ("gxVersion", .str "0.12.1")]))

/-- A file with one dependency that has a name and no hash. -/
def noHashFile : Slot :=
  .file (.json (.obj [("name", .str "pkg"),
    ("gxDependencies", .arr [.obj [("name", .str "a"), ("version", .str "1.0.0")]]),
    ("license", .str "MIT"), ("gxVersion", .str "0.12.1")]))

/-- A valid manifest file without a bugs key. -/
def noBugsFile : Slot :=
  .file (.json (.obj [("name", .str "pkg"), ("license", .str "MIT"),
    ("gxVersion", .str "0.12.1")]))

/-- A file holding only a key the schema does not know. -/
def unknownOnlyFile : Slot := .file (.json (.obj [("extra", .obj [("x", .num 1)])]))

/-- A legacy file with a second member whose key is bugs written with the
long s. -/
def aliasFile : Slot :=
  .file (.json (.obj [("bugs", .str "http://example.com"),
    ("bug\u017f", .obj [("url", .str "http://other.example")])]))

/-- A file whose text is the JSON value null. -/
def nullFile : Slot := .file (.json .null)

/-- A file that is not JSON. -/
def corruptFile : Slot := .file (.malformed "\x7b\"name\": ")

/-- A write that fails after part of the text has reached the file. -/
def diskFull : Faults :=
  { write := some (.failure "write: no space left on device", .malformed "\x7b\n  \"bugs\":") }

/-- A file with two dependencies. -/
def depsFile : Slot :=
  .file (.json (.obj [("name", .str "pkg"),
    ("gxDependencies", .arr [.obj [("hash", .str "H1"), ("name", .str "a")],
      .obj [("hash", .str "H2"), ("name", .str "b")]]),
    ("license", .str "MIT"), ("bugs", .obj []), ("gxVersion", .str "0.12.1")]))

/-- A manifest without dependencies. -/
def noDepsManifest : Package :=
  { Name := "pkg", License := "MIT", GxVersion := "0.12.1" }

/-- A legacy file whose bugs string is empty. -/
def emptyBugsFile : Slot :=
  .file (.json (.obj [("name", .str "pkg"), ("bugs", .str ""), ("license", .str "MIT"),
    ("gxVersion", .str "0.12.1")]))

/-- A legacy file with a nested gx payload. -/
def legacyGxFile : Slot :=
  .file (.json (.obj [("name", .str "pkg"), ("bugs", .str "http://example.com"),
    ("license", .str "MIT"), ("gxVersion", .str "0.12.1"),
    ("gx", .obj [("dvcsimport", .str "example.com/pkg"),
      ("extra", .arr [.num 1, .null, .obj [("b", .bool true), ("a", .str "x")]])])]))

/-- A file in the current form with a gx payload. -/
def currentGxFile : Slot :=
  .file (.json (.obj [("name", .str "pkg"), ("bugs", .obj [("url", .str "http://example.com")]),
    ("license", .str "MIT"), ("gxVersion", .str "0.12.1"),
    ("gx", .obj [("dvcsimport", .str "example.com/pkg")])]))

/-- The gx payload of legacyGxFile as Go holds it after decoding. -/
def gxPayload : JSON :=
  .obj [("dvcsimport", .str "example.com/pkg"),
    ("extra", .arr [.num 1, .null, .obj [("a", .str "x"), ("b", .bool true)]])]

/-- The manifest LoadPackageFile gives for legacyGxFile. -/
def legacyGxLoaded : Package :=
  { Name := "pkg", License := "MIT", Bugs := { Url := "http://example.com" },
    GxVersion := "0.12.1", Gx := .valid gxPayload }

/-- The manifest LoadPackageFile gives for currentGxFile. -/
def currentGxLoaded : Package :=
  { Name := "pkg", License := "MIT", Bugs := { Url := "http://example.com" },
    GxVersion := "0.12.1", Gx := .valid (.obj [("dvcsimport", .str "example.com/pkg")]) }

/-! # Lemmas -/

/-! ## FindDep -/

theorem findDepLoop_skip (ref : String) (pre : List (Option Dependency))
    (rest : List (Option Dependency))
    (hnil : ∀ e ∈ pre, e ≠ none)
    (hno : ∀ d0, some d0 ∈ pre → ¬(d0.Hash = ref ∨ d0.Name = ref)) :
    findDepLoop ref (pre ++ rest) = findDepLoop ref rest := by
  induction pre with
  | nil => rfl
  | cons e pre ih =>
    cases e with
    | none => exact absurd rfl (hnil none (List.mem_cons_self _ _))
    | some d =>
      have hd : ¬(d.Hash = ref ∨ d.Name = ref) := hno d (List.mem_cons_self _ _)
      have ih1 := ih (fun e he => hnil e (List.mem_cons_of_mem _ he))
        (fun d0 h0 => hno d0 (List.mem_cons_of_mem _ h0))
      show findDepLoop ref (some d :: (pre ++ rest)) = findDepLoop ref rest
      simp only [findDepLoop, if_neg hd, ih1]

theorem findDepLoop_none (ref : String) (deps : List (Option Dependency))
    (hnil : ∀ e ∈ deps, e ≠ none)
    (hno : ∀ d0, some d0 ∈ deps → ¬(d0.Hash = ref ∨ d0.Name = ref)) :
    findDepLoop ref deps = .returned none := by
  have h := findDepLoop_skip ref deps [] hnil hno
  rw [List.append_nil] at h
  rw [h]; rfl

/-- Every non-nil dependency slice either has no entry matching ref, or splits
at its first matching entry. -/
theorem split_first_match (ref : String) (deps : List (Option Dependency))
    (hnil : ∀ e ∈ deps, e ≠ none) :
    (∀ d0, some d0 ∈ deps → ¬(d0.Hash = ref ∨ d0.Name = ref)) ∨
    ∃ pre d post, deps = pre ++ some d :: post ∧ (d.Hash = ref ∨ d.Name = ref) ∧
      (∀ e ∈ pre, e ≠ none) ∧ ∀ d0, some d0 ∈ pre → ¬(d0.Hash = ref ∨ d0.Name = ref) := by
  induction deps with
  | nil => left; intro d0 h; cases h
  | cons e deps ih =>
    cases e with
    | none => exact absurd rfl (hnil none (List.mem_cons_self _ _))
    | some d =>
      by_cases hd : d.Hash = ref ∨ d.Name = ref
      · right
        exact ⟨[], d, deps, rfl, hd, (by intro e he; cases he), (by intro d0 h0; cases h0)⟩
      · rcases ih (fun e he => hnil e (List.mem_cons_of_mem _ he)) with hno | ⟨pre, d1, post, he, hm, hn, hno⟩
        · left
          intro d0 h0
          rcases List.mem_cons.1 h0 with h1 | h1
          · cases h1; exact hd
          · exact hno d0 h1
        · right
          refine ⟨some d :: pre, d1, post, by rw [he]; rfl, hm, ?_, ?_⟩
          · intro e he
            rcases List.mem_cons.1 he with h1 | h1
            · rw [h1]; simp
            · exact hn e h1
          · intro d0 h0
            rcases List.mem_cons.1 h0 with h1 | h1
            · cases h1; exact hd
            · exact hno d0 h1

/-! ## ForEachDep -/

/-- A run over a slice whose leading entries all succeed: the loop behaves on
the whole slice as on the remainder, after the trace of the successful
steps. -/
theorem forEachDepLoop_after_success {σ : Type} (loadPackage : LoadPackageFn σ)
    (cb : DepCallback σ) (language : String) (pre : List Dependency)
    (rest : List (Option Dependency)) (s s1 : σ) (pkgs : List Package)
    (h : AllSucceed loadPackage cb language (pre.map some) s s1 pkgs) :
    pkgs.length = pre.length ∧
    forEachDepLoop loadPackage cb language (pre.map some ++ rest) s =
      ⟨(forEachDepLoop loadPackage cb language rest s1).result,
       (forEachDepLoop loadPackage cb language rest s1).world,
       successTrace language pre pkgs ++ (forEachDepLoop loadPackage cb language rest s1).trace⟩ := by
  induction pre generalizing s pkgs with
  | nil =>
    cases h
    exact ⟨rfl, rfl⟩
  | cons d pre ih =>
    cases h with
    | cons hload hcb hrest =>
      have ih1 := ih _ _ hrest
      refine ⟨by simp [ih1.1], ?_⟩
      show forEachDepLoop loadPackage cb language (some d :: (pre.map some ++ rest)) s = _
      simp only [forEachDepLoop, hload, hcb, ih1.2, successTrace, List.cons_append]

theorem callbackArgs_append (xs ys : List Event) :
    callbackArgs (xs ++ ys) = callbackArgs xs ++ callbackArgs ys := by
  induction xs with
  | nil => rfl
  | cons e xs ih => cases e <;> simp [callbackArgs, ih]

theorem resolveArgs_append (xs ys : List Event) :
    resolveArgs (xs ++ ys) = resolveArgs xs ++ resolveArgs ys := by
  induction xs with
  | nil => rfl
  | cons e xs ih => cases e <;> simp [resolveArgs, ih]

theorem callbackArgs_successTrace (language : String) (ds : List Dependency)
    (pkgs : List Package) :
    callbackArgs (successTrace language ds pkgs) = ds.zip pkgs := by
  induction ds generalizing pkgs with
  | nil => cases pkgs <;> rfl
  | cons d ds ih =>
    cases pkgs with
    | nil => rfl
    | cons p ps => simp [successTrace, callbackArgs, ih]

theorem resolveArgs_successTrace (language : String) (ds : List Dependency)
    (pkgs : List Package) (hlen : pkgs.length = ds.length) :
    resolveArgs (successTrace language ds pkgs) = ds.map (fun d => (language, d.Hash)) := by
  induction ds generalizing pkgs with
  | nil => cases pkgs <;> rfl
  | cons d ds ih =>
    cases pkgs with
    | nil => simp at hlen
    | cons p ps =>
      have hl : ps.length = ds.length := by simpa using hlen
      simp [successTrace, resolveArgs, ih ps hl]

theorem ltCodes_irrefl (a : List Nat) : ltCodes a a = false := by
  induction a with
  | nil => rfl
  | cons x xs ih => simp [ltCodes, ih]

theorem ltCodes_trans : ∀ (a b c : List Nat), ltCodes a b = true → ltCodes b c = true →
    ltCodes a c = true
  | [], [], _, h, _ => by simp [ltCodes] at h
  | [], _ :: _, [], _, h => by simp [ltCodes] at h
  | [], _ :: _, _ :: _, _, _ => by simp [ltCodes]
  | _ :: _, [], _, h, _ => by simp [ltCodes] at h
  | _ :: _, _ :: _, [], _, h => by simp [ltCodes] at h
  | x :: xs, y :: ys, z :: zs, h1, h2 => by
    simp only [ltCodes] at h1 h2 ⊢
    by_cases hxy : x < y
    · by_cases hyz : y < z
      · have : x < z := lt_trans hxy hyz
        simp [this]
      · by_cases hzy : z < y
        · simp [hyz, hzy] at h2
        · have hyz2 : y = z := by omega
          subst hyz2
          simp [hxy]
    · by_cases hyx : y < x
      · simp [hxy, hyx] at h1
      · have hxy2 : x = y := by omega
        subst hxy2
        simp only [hxy, if_false] at h1
        by_cases hxz : x < z
        · simp [hxz]
        · by_cases hzx : z < x
          · simp [hxz, hzx] at h2
          · simp only [hxz, hzx, if_false] at h2 ⊢
            exact ltCodes_trans xs ys zs h1 h2

theorem ltCodes_connex : ∀ (a b : List Nat), a ≠ b → ltCodes a b = true ∨ ltCodes b a = true
  | [], [], h => absurd rfl h
  | [], _ :: _, _ => by simp [ltCodes]
  | _ :: _, [], _ => by simp [ltCodes]
  | x :: xs, y :: ys, h => by
    simp only [ltCodes]
    by_cases hxy : x < y
    · simp [hxy]
    · by_cases hyx : y < x
      · simp [hyx]
      · have hxy2 : x = y := by omega
        subst hxy2
        simp only [hxy, if_false]
        exact ltCodes_connex xs ys (fun e => h (by rw [e]))

theorem keyCodes_injective (a b : String) (h : keyCodes a = keyCodes b) : a = b := by
  unfold keyCodes at h
  have hinj : Function.Injective Char.toNat := by
    intro x y hxy
    exact Char.ext (UInt32.ext hxy)
  have := List.map_injective_iff.2 hinj h
  exact String.ext this

theorem keyLt_irrefl (a : String) : keyLt a a = false := ltCodes_irrefl _

theorem keyLt_trans {a b c : String} (h1 : keyLt a b = true) (h2 : keyLt b c = true) :
    keyLt a c = true := ltCodes_trans _ _ _ h1 h2

theorem keyLt_connex {a b : String} (h : a ≠ b) : keyLt a b = true ∨ keyLt b a = true :=
  ltCodes_connex _ _ (fun e => h (keyCodes_injective a b e))

theorem keyLt_ne {a b : String} (h : keyLt a b = true) : a ≠ b := by
  intro e
  rw [e, keyLt_irrefl] at h
  cases h

theorem keyLt_asymm {a b : String} (h : keyLt a b = true) : keyLt b a = false := by
  cases hba : keyLt b a with
  | false => rfl
  | true =>
    have := keyLt_trans h hba
    rw [keyLt_irrefl] at this
    cases this

/-! ### Map reads and writes -/

theorem objLookup_objInsert_self (k : String) (v : JSON) (m : Members) :
    objLookup k (objInsert k v m) = some v := by
  induction m with
  | nil => simp [objInsert, objLookup]
  | cons kv rest ih =>
    obtain ⟨k1, v1⟩ := kv
    by_cases h : k = k1
    · simp [objInsert, objLookup, h]
    · by_cases hl : keyLt k k1 = true
      · simp [objInsert, objLookup, h, hl]
      · simp [objInsert, objLookup, h, hl, ih]

theorem objLookup_objInsert_other {k k2 : String} (v : JSON) (m : Members) (hne : k2 ≠ k) :
    objLookup k2 (objInsert k v m) = objLookup k2 m := by
  induction m with
  | nil => simp [objInsert, objLookup, hne]
  | cons kv rest ih =>
    obtain ⟨k1, v1⟩ := kv
    by_cases h : k = k1
    · subst h
      simp [objInsert, objLookup, hne]
    · by_cases hl : keyLt k k1 = true
      · simp [objInsert, objLookup, h, hl, hne]
      · simp [objInsert, objLookup, h, hl, ih]

theorem mem_objInsert {k : String} {v : JSON} {m : Members} {x : String × JSON}
    (hx : x ∈ objInsert k v m) : x = (k, v) ∨ x ∈ m := by
  induction m with
  | nil => simpa [objInsert] using hx
  | cons kv rest ih =>
    obtain ⟨k1, v1⟩ := kv
    by_cases h : k = k1
    · rw [objInsert, if_pos h] at hx
      rcases List.mem_cons.1 hx with hx1 | hx1
      · exact Or.inl hx1
      · exact Or.inr (List.mem_cons_of_mem _ hx1)
    · by_cases hl : keyLt k k1 = true
      · rw [objInsert, if_neg h, if_pos hl] at hx
        rcases List.mem_cons.1 hx with hx1 | hx1
        · exact Or.inl hx1
        · exact Or.inr hx1
      · rw [objInsert, if_neg h, if_neg hl] at hx
        rcases List.mem_cons.1 hx with hx1 | hx1
        · exact Or.inr (by rw [hx1]; exact List.mem_cons_self _ _)
        · rcases ih hx1 with h1 | h1
          · exact Or.inl h1
          · exact Or.inr (List.mem_cons_of_mem _ h1)

theorem keySorted_nil : KeySorted [] := List.Pairwise.nil

theorem keySorted_cons {kv : String × JSON} {rest : Members} :
    KeySorted (kv :: rest) ↔ (∀ x ∈ rest, keyLt kv.1 x.1 = true) ∧ KeySorted rest :=
  List.pairwise_cons

theorem objInsert_sorted (k : String) (v : JSON) (m : Members) (hm : KeySorted m) :
    KeySorted (objInsert k v m) := by
  induction m with
  | nil => simp [objInsert, KeySorted]
  | cons kv rest ih =>
    obtain ⟨k1, v1⟩ := kv
    rw [keySorted_cons] at hm
    by_cases h : k = k1
    · subst h
      simp only [objInsert, if_true]
      exact keySorted_cons.2 ⟨hm.1, hm.2⟩
    · by_cases hl : keyLt k k1 = true
      · simp only [objInsert, h, hl, if_true, if_false]
        refine keySorted_cons.2 ⟨?_, keySorted_cons.2 hm⟩
        intro x hx
        rcases List.mem_cons.1 hx with hx | hx
        · rw [hx]; exact hl
        · exact keyLt_trans hl (hm.1 x hx)
      · simp only [objInsert, h, hl, if_false]
        refine keySorted_cons.2 ⟨?_, ih hm.2⟩
        intro x hx
        rcases mem_objInsert hx with hx | hx
        · rw [hx]
          rcases keyLt_connex h with h1 | h1
          · exact absurd h1 hl
          · exact h1
        · exact hm.1 x hx

theorem objLookup_of_mem {k : String} {v : JSON} {m : Members} (hm : KeySorted m)
    (h : (k, v) ∈ m) : objLookup k m = some v := by
  induction m with
  | nil => cases h
  | cons kv rest ih =>
    obtain ⟨k1, v1⟩ := kv
    rw [keySorted_cons] at hm
    rcases List.mem_cons.1 h with h1 | h1
    · cases h1
      simp [objLookup]
    · have hlt := hm.1 (k, v) h1
      have hne : k ≠ k1 := fun e => keyLt_ne hlt e.symm
      simp [objLookup, hne, ih hm.2 h1]

theorem mem_of_objLookup {k : String} {v : JSON} {m : Members}
    (h : objLookup k m = some v) : (k, v) ∈ m := by
  induction m with
  | nil => simp [objLookup] at h
  | cons kv rest ih =>
    obtain ⟨k1, v1⟩ := kv
    by_cases hk : k = k1
    · subst hk
      simp only [objLookup, if_true, Option.some.injEq] at h
      subst h
      exact List.mem_cons_self _ _
    · simp only [objLookup, hk, if_false] at h
      exact List.mem_cons_of_mem _ (ih h)

theorem objLookup_none_of_lt {k : String} {m : Members}
    (h : ∀ x ∈ m, keyLt k x.1 = true) : objLookup k m = none := by
  induction m with
  | nil => rfl
  | cons kv rest ih =>
    obtain ⟨k1, v1⟩ := kv
    have h1 := h (k1, v1) (List.mem_cons_self _ _)
    have hne : k ≠ k1 := keyLt_ne h1
    simp [objLookup, hne, ih (fun x hx => h x (List.mem_cons_of_mem _ hx))]

/-- Two maps with the same reads are the same map. -/
theorem members_ext {a b : Members} (ha : KeySorted a) (hb : KeySorted b)
    (h : ∀ k, objLookup k a = objLookup k b) : a = b := by
  induction a generalizing b with
  | nil =>
    cases b with
    | nil => rfl
    | cons kv rest =>
      obtain ⟨k1, v1⟩ := kv
      have := h k1
      simp [objLookup] at this
  | cons kv rest ih =>
    obtain ⟨k1, v1⟩ := kv
    cases b with
    | nil =>
      have := h k1
      simp [objLookup] at this
    | cons kv2 rest2 =>
      obtain ⟨k2, v2⟩ := kv2
      rw [keySorted_cons] at ha hb
      have hk : k1 = k2 := by
        by_contra hne
        rcases keyLt_connex hne with hl | hl
        · have h1 := h k1
          have hnone : objLookup k1 ((k2, v2) :: rest2) = none := by
            apply objLookup_none_of_lt
            intro x hx
            rcases List.mem_cons.1 hx with hx | hx
            · rw [hx]; exact hl
            · exact keyLt_trans hl (hb.1 x hx)
          rw [hnone] at h1
          simp [objLookup] at h1
        · have h1 := h k2
          have hnone : objLookup k2 ((k1, v1) :: rest) = none := by
            apply objLookup_none_of_lt
            intro x hx
            rcases List.mem_cons.1 hx with hx | hx
            · rw [hx]; exact hl
            · exact keyLt_trans hl (ha.1 x hx)
          rw [hnone] at h1
          simp [objLookup] at h1
      subst hk
      have hv : v1 = v2 := by
        have h1 := h k1
        simpa [objLookup] using h1
      subst hv
      have hrest : rest = rest2 := by
        apply ih ha.2 hb.2
        intro k
        by_cases hk : k = k1
        · subst hk
          rw [objLookup_none_of_lt ha.1, objLookup_none_of_lt hb.1]
        · have h1 := h k
          simpa [objLookup, hk] using h1
      rw [hrest]

/-! ### Decoding into interface{} -/

theorem genericMembers_sorted (ms acc : Members) (hacc : KeySorted acc) :
    KeySorted (genericMembers ms acc) := by
  induction ms generalizing acc with
  | nil => simpa [genericMembers] using hacc
  | cons kv rest ih =>
    obtain ⟨k, v⟩ := kv
    rw [genericMembers]
    exact ih _ (objInsert_sorted k _ acc hacc)

theorem objLookup_genericMembers (k : String) (ms acc : Members) :
    objLookup k (genericMembers ms acc) =
      match lastValue k ms with
      | some v => some (generic v)
      | none => objLookup k acc := by
  induction ms generalizing acc with
  | nil => simp [genericMembers, lastValue]
  | cons kv rest ih =>
    obtain ⟨k1, v1⟩ := kv
    rw [genericMembers, ih, lastValue]
    cases hl : lastValue k rest with
    | some v => rfl
    | none =>
      by_cases hk : k = k1
      · subst hk
        simp [objLookup_objInsert_self]
      · simp [hk, objLookup_objInsert_other _ _ hk]

theorem normalMembers_nil : NormalMembers [] := by simp [NormalMembers]

theorem normalMembers_iff (ms : Members) : NormalMembers ms ↔ ∀ x ∈ ms, Normal x.2 := by
  induction ms with
  | nil => simp [NormalMembers]
  | cons kv rest ih =>
    obtain ⟨k, v⟩ := kv
    simp [NormalMembers, ih]

theorem normalMembers_objInsert {k : String} {v : JSON} {m : Members} (hv : Normal v)
    (hm : NormalMembers m) : NormalMembers (objInsert k v m) := by
  rw [normalMembers_iff] at hm ⊢
  intro x hx
  rcases mem_objInsert hx with h | h
  · rw [h]; exact hv
  · exact hm x h

mutual
theorem generic_normal : ∀ v : JSON, Normal (generic v)
  | .null => by simp [generic, Normal]
  | .bool _ => by simp [generic, Normal]
  | .num _ => by simp [generic, Normal]
  | .str _ => by simp [generic, Normal]
  | .arr xs => by
    rw [generic, Normal]
    exact genericList_normal xs
  | .obj ms => by
    rw [generic, Normal]
    exact ⟨genericMembers_sorted ms [] keySorted_nil,
      genericMembers_normal ms [] (by simp [NormalMembers])⟩
theorem genericList_normal : ∀ xs : List JSON, NormalList (genericList xs)
  | [] => by simp [genericList, NormalList]
  | x :: xs => by
    rw [genericList, NormalList]
    exact ⟨generic_normal x, genericList_normal xs⟩
theorem genericMembers_normal : ∀ (ms acc : Members), NormalMembers acc →
    NormalMembers (genericMembers ms acc)
  | [], acc, h => by simpa [genericMembers] using h
  | (k, v) :: rest, acc, h => by
    rw [genericMembers]
    exact genericMembers_normal rest _ (normalMembers_objInsert (generic_normal v) h)
end

theorem generic_members_wf (ms : Members) :
    KeySorted (genericMembers ms []) ∧ NormalMembers (genericMembers ms []) :=
  ⟨genericMembers_sorted ms [] keySorted_nil, genericMembers_normal ms [] normalMembers_nil⟩

theorem objInsert_last {k : String} {v : JSON} {acc : Members}
    (h : ∀ x ∈ acc, keyLt x.1 k = true) : objInsert k v acc = acc ++ [(k, v)] := by
  induction acc with
  | nil => rfl
  | cons kv rest ih =>
    obtain ⟨k1, v1⟩ := kv
    have h1 := h (k1, v1) (List.mem_cons_self _ _)
    have hne : k ≠ k1 := fun e => keyLt_ne h1 e.symm
    have hnl : ¬ keyLt k k1 = true := by rw [keyLt_asymm h1]; simp
    rw [objInsert, if_neg hne, if_neg hnl, ih (fun x hx => h x (List.mem_cons_of_mem _ hx))]
    rfl

mutual
theorem generic_of_normal : ∀ v : JSON, Normal v → generic v = v
  | .null, _ => rfl
  | .bool _, _ => rfl
  | .num _, _ => rfl
  | .str _, _ => rfl
  | .arr xs, h => by
    rw [Normal] at h
    rw [generic, genericList_of_normal xs h]
  | .obj ms, h => by
    rw [Normal] at h
    rw [generic, genericMembers_of_normal ms [] h.2 (by simpa using h.1)]
    rfl
theorem genericList_of_normal : ∀ xs : List JSON, NormalList xs → genericList xs = xs
  | [], _ => rfl
  | x :: xs, h => by
    rw [NormalList] at h
    rw [genericList, generic_of_normal x h.1, genericList_of_normal xs h.2]
theorem genericMembers_of_normal : ∀ (ms acc : Members), NormalMembers ms →
    KeySorted (acc ++ ms) → genericMembers ms acc = acc ++ ms
  | [], acc, _, _ => by simp [genericMembers]
  | (k, v) :: rest, acc, h, hs => by
    rw [NormalMembers] at h
    have hlt : ∀ x ∈ acc, keyLt x.1 k = true := by
      intro x hx
      have := List.pairwise_append.1 hs
      exact this.2.2 x hx (k, v) (List.mem_cons_self _ _)
    rw [genericMembers, generic_of_normal v h.1, objInsert_last hlt]
    have hs2 : KeySorted ((acc ++ [(k, v)]) ++ rest) := by simpa using hs
    rw [genericMembers_of_normal rest _ h.2 hs2]
    simp
end

/-! ### mergeMaps -/

theorem objLookup_mergeMaps_absent (k : String) (inc cur : Members)
    (h : ∀ x ∈ inc, x.1 ≠ k) : objLookup k (mergeMaps cur inc) = objLookup k cur := by
  induction inc generalizing cur with
  | nil => rfl
  | cons kv rest ih =>
    obtain ⟨k1, v1⟩ := kv
    have hne : k ≠ k1 := fun e => h (k1, v1) (List.mem_cons_self _ _) e.symm
    rw [mergeMaps, ih _ (fun x hx => h x (List.mem_cons_of_mem _ hx)),
      objLookup_objInsert_other _ _ hne]

theorem objLookup_mergeMaps (k : String) (inc cur : Members) (hinc : KeySorted inc) :
    objLookup k (mergeMaps cur inc) =
      match objLookup k inc with
      | some v => some (mergeValue (objLookup k cur) v)
      | none => objLookup k cur := by
  induction inc generalizing cur with
  | nil => rfl
  | cons kv rest ih =>
    obtain ⟨k1, v1⟩ := kv
    rw [keySorted_cons] at hinc
    by_cases hk : k = k1
    · subst hk
      have hnone : ∀ x ∈ rest, x.1 ≠ k := fun x hx e => keyLt_ne (hinc.1 x hx) e.symm
      rw [mergeMaps, objLookup_mergeMaps_absent k rest _ hnone, objLookup_objInsert_self]
      simp [objLookup]
    · rw [mergeMaps, ih _ hinc.2, objLookup_objInsert_other _ _ hk]
      simp [objLookup, hk]

mutual
theorem mergeMaps_normal : ∀ (inc cur : Members), NormalMembers inc → KeySorted cur →
    NormalMembers cur → KeySorted (mergeMaps cur inc) ∧ NormalMembers (mergeMaps cur inc)
  | [], cur, _, hs, hn => ⟨hs, hn⟩
  | (k, v) :: rest, cur, hinc, hs, hn => by
    rw [NormalMembers] at hinc
    rw [mergeMaps]
    refine mergeMaps_normal rest _ hinc.2 (objInsert_sorted _ _ _ hs)
      (normalMembers_objInsert (mergeValue_normal v (objLookup k cur) hinc.1 ?_) hn)
    intro c hc
    exact (normalMembers_iff cur).1 hn (k, c) (mem_of_objLookup hc)
theorem mergeValue_normal : ∀ (v : JSON) (c : Option JSON), Normal v →
    (∀ x, c = some x → Normal x) → Normal (mergeValue c v)
  | .null, _, _, _ => by simp [mergeValue, Normal]
  | .bool _, _, _, _ => by simp [mergeValue, Normal]
  | .num _, _, _, _ => by simp [mergeValue, Normal]
  | .str _, _, _, _ => by simp [mergeValue, Normal]
  | .arr xs, _, h, _ => by simpa [mergeValue] using h
  | .obj b, c, h, hc => by
    cases c with
    | none => simpa [mergeValue] using h
    | some x =>
      cases x with
      | obj a =>
        have ha := hc (.obj a) rfl
        rw [Normal] at ha h
        rw [mergeValue, Normal]
        exact mergeMaps_normal b a h.2 ha.1 ha.2
      | null => simpa [mergeValue] using h
      | bool _ => simpa [mergeValue] using h
      | num _ => simpa [mergeValue] using h
      | str _ => simpa [mergeValue] using h
      | arr _ => simpa [mergeValue] using h
end

/-! ### The serialized manifest -/

theorem key_of_mem_genericMembers {x : String × JSON} (ms acc : Members)
    (hx : x ∈ genericMembers ms acc) : (∃ y ∈ ms, y.1 = x.1) ∨ x ∈ acc := by
  induction ms generalizing acc with
  | nil => right; simpa [genericMembers] using hx
  | cons kv rest ih =>
    obtain ⟨k, v⟩ := kv
    rw [genericMembers] at hx
    rcases ih _ hx with ⟨y, hy, hxy⟩ | h
    · exact Or.inl ⟨y, List.mem_cons_of_mem _ hy, hxy⟩
    · rcases mem_objInsert h with h1 | h1
      · left
        exact ⟨(k, v), List.mem_cons_self _ _, by rw [h1]⟩
      · exact Or.inr h1

theorem key_of_mem_optString {key s : String} {x : String × JSON}
    (hx : x ∈ optString key s) : x.1 = key := by
  unfold optString at hx
  split at hx
  · cases hx
  · rw [List.mem_singleton] at hx
    rw [hx]

theorem key_of_mem_encodeBase (p : PackageBase) {x : String × JSON}
    (hx : x ∈ encodeBase p) : x.1 ∈ schemaKeys := by
  unfold encodeBase at hx
  simp only [List.mem_append] at hx
  rcases hx with ((((((((((((h | h) | h) | h) | h) | h) | h) | h) | h) | h) | h) | h) | h) | h
  · rw [key_of_mem_optString h]; decide
  · rw [key_of_mem_optString h]; decide
  · rw [key_of_mem_optString h]; decide
  · split at h
    · cases h
    · rw [List.mem_singleton] at h; rw [h]; exact (by decide : "keywords" ∈ schemaKeys)
  · rw [key_of_mem_optString h]; decide
  · split at h
    · cases h
    · rw [List.mem_singleton] at h; rw [h]; exact (by decide : "gxDependencies" ∈ schemaKeys)
  · rw [key_of_mem_optString h]; decide
  · rw [key_of_mem_optString h]; decide
  · rw [key_of_mem_optString h]; decide
  · rw [key_of_mem_optString h]; decide
  · rw [key_of_mem_optString h]; decide
  · split at h
    · rw [List.mem_singleton] at h; rw [h]; exact (by decide : "subtoolRequired" ∈ schemaKeys)
    · cases h
  · rw [key_of_mem_optString h]; decide
  · simp only [List.mem_cons, List.mem_singleton, List.not_mem_nil, or_false] at h
    rcases h with h | h | h
    · rw [h]; exact (by decide : "license" ∈ schemaKeys)
    · rw [h]; exact (by decide : "bugs" ∈ schemaKeys)
    · rw [h]; exact (by decide : "gxVersion" ∈ schemaKeys)

theorem key_of_mem_encodeRaw {r : RawMessage} {gx : Members} (h : encodeRaw r = .ok gx)
    {x : String × JSON} (hx : x ∈ gx) : x.1 ∈ schemaKeys := by
  cases r with
  | empty =>
    simp only [encodeRaw, Except.ok.injEq] at h
    rw [← h] at hx
    cases hx
  | valid v =>
    simp only [encodeRaw, Except.ok.injEq] at h
    rw [← h, List.mem_singleton] at hx
    rw [hx]; exact (by decide : "gx" ∈ schemaKeys)
  | invalid b => simp [encodeRaw] at h

theorem serializedMap_ok {pkg : Package} {m : Option Members}
    (h : serializedMap pkg = .ok m) :
    ∃ gx, encodeRaw pkg.Gx = .ok gx ∧
      m = some (genericMembers (encodeBase pkg.toPackageBase ++ gx) []) := by
  unfold serializedMap encodePackage at h
  cases hg : encodeRaw pkg.Gx with
  | error e => simp [hg] at h
  | ok gx =>
    simp only [hg, unmarshalMap, Except.ok.injEq] at h
    exact ⟨gx, rfl, h.symm⟩

theorem serializedMap_keys {pkg : Package} {inc : Members}
    (h : serializedMap pkg = .ok (some inc)) {x : String × JSON} (hx : x ∈ inc) :
    x.1 ∈ schemaKeys := by
  obtain ⟨gx, hgx, hm⟩ := serializedMap_ok h
  simp only [Option.some.injEq] at hm
  rw [hm] at hx
  rcases key_of_mem_genericMembers _ _ hx with ⟨y, hy, hxy⟩ | h1
  · rw [← hxy]
    rcases List.mem_append.1 hy with h2 | h2
    · exact key_of_mem_encodeBase _ h2
    · exact key_of_mem_encodeRaw hgx h2
  · cases h1

theorem serializedMap_normal {pkg : Package} {inc : Members}
    (h : serializedMap pkg = .ok (some inc)) : KeySorted inc ∧ NormalMembers inc := by
  obtain ⟨gx, _, hm⟩ := serializedMap_ok h
  simp only [Option.some.injEq] at hm
  rw [hm]
  exact generic_members_wf _

/-! ### SavePackageFile over an existing JSON object -/

theorem decodedContent_obj {slot : Slot} {cur : Members}
    (h : decodedContent slot = some (.obj cur)) :
    ∃ ms, slot = .file (.json (.obj ms)) ∧ cur = genericMembers ms [] := by
  cases slot with
  | absent => simp [decodedContent] at h
  | unreadable d => simp [decodedContent] at h
  | file data =>
    cases data with
    | malformed b => simp [decodedContent] at h
    | json doc =>
      cases doc with
      | obj ms =>
        simp only [decodedContent, generic, Option.some.injEq, JSON.obj.injEq] at h
        exact ⟨ms, rfl, h.symm⟩
      | null => simp [decodedContent, generic] at h
      | bool _ => simp [decodedContent, generic] at h
      | num _ => simp [decodedContent, generic] at h
      | str _ => simp [decodedContent, generic] at h
      | arr _ => simp [decodedContent, generic] at h

/-- A successful save over a file holding a JSON object: nothing failed, and
the file now holds the merge of the manifest's map over the file's map. -/
theorem SavePackageFile_merge_ok {io : Faults} {pkg : Package} {slot : Slot} {cur : Members}
    (hcur : decodedContent slot = some (.obj cur))
    (hsave : (SavePackageFile io pkg slot).1 = none) :
    ∃ inc, serializedMap pkg = .ok (some inc) ∧
      (SavePackageFile io pkg slot).2 = .file (.json (.obj (mergeMaps cur inc))) ∧
      decodedContent (SavePackageFile io pkg slot).2 = some (.obj (mergeMaps cur inc)) := by
  obtain ⟨ms, hslot, hms⟩ := decodedContent_obj hcur
  subst hslot
  cases hser : serializedMap pkg with
  | error e =>
    simp [SavePackageFile, readFile, unmarshalMap, hser] at hsave
  | ok m =>
    obtain ⟨gx, hgx, hm⟩ := serializedMap_ok hser
    generalize genericMembers (encodeBase pkg.toPackageBase ++ gx) [] = inc at hm
    subst hm
    have hnorm := serializedMap_normal hser
    have hcn : KeySorted cur ∧ NormalMembers cur := by
      rw [hms]
      exact generic_members_wf ms
    have hmerged := mergeMaps_normal inc cur hnorm.2 hcn.1 hcn.2
    refine ⟨inc, rfl, ?_⟩
    simp only [SavePackageFile, readFile, unmarshalMap, hser, Option.getD_some, writeJson,
      encode] at hsave ⊢
    cases hc : io.create with
    | some e => simp [hc] at hsave
    | none =>
      cases hw : io.write with
      | some e => simp [hc, hw] at hsave
      | none =>
        simp only [← hms, true_and, decodedContent]
        rw [generic_of_normal _ (by rw [Normal]; exact hmerged)]

theorem decodeString_ok {v : JSON} (h : fitsString v = true) (old : String) :
    ∃ s, decodeString v old = .ok s := by
  cases v <;> simp [fitsString] at h <;> simp [decodeString]

theorem decodeBool_ok {v : JSON} (h : fitsBool v = true) (old : Bool) :
    ∃ s, decodeBool v old = .ok s := by
  cases v <;> simp [fitsBool] at h <;> simp [decodeBool]

theorem decodeStringElems_ok (xs : List JSON) (h : ∀ x ∈ xs, fitsString x = true)
    (old : List String) : ∃ r, decodeStringElems xs old = .ok r := by
  induction xs generalizing old with
  | nil => exact ⟨[], rfl⟩
  | cons x xs ih =>
    obtain ⟨s, hs⟩ := decodeString_ok (h x (List.mem_cons_self _ _)) (old.headD "")
    obtain ⟨r, hr⟩ := ih (fun y hy => h y (List.mem_cons_of_mem _ hy)) old.tail
    exact ⟨s :: r, by rw [decodeStringElems, hs, hr]⟩

theorem decodeStrings_ok {v : JSON} (h : fitsStrings v = true) (old : List String) :
    ∃ r, decodeStrings v old = .ok r := by
  cases v with
  | null => exact ⟨[], rfl⟩
  | arr xs =>
    simp only [fitsStrings, List.all_eq_true] at h
    exact decodeStringElems_ok xs h old
  | bool _ => simp [fitsStrings] at h
  | num _ => simp [fitsStrings] at h
  | str _ => simp [fitsStrings] at h
  | obj _ => simp [fitsStrings] at h

theorem setDepField_ok (f : DepField) {v : JSON} (h : fitsString v = true) (d : Dependency) :
    ∃ d1, setDepField f v d = .ok d1 := by
  cases f <;> simp only [setDepField]
  · obtain ⟨s, hs⟩ := decodeString_ok h d.Author
    exact ⟨_, by rw [hs]; rfl⟩
  · obtain ⟨s, hs⟩ := decodeString_ok h d.Name
    exact ⟨_, by rw [hs]; rfl⟩
  · obtain ⟨s, hs⟩ := decodeString_ok h d.Hash
    exact ⟨_, by rw [hs]; rfl⟩
  · obtain ⟨s, hs⟩ := decodeString_ok h d.Version
    exact ⟨_, by rw [hs]; rfl⟩

theorem decodeDepMembers_ok (ms : Members) (h : fitsDepMembers ms = true) (d : Dependency) :
    ∃ d1, decodeDepMembers ms d = .ok d1 := by
  induction ms generalizing d with
  | nil => exact ⟨d, rfl⟩
  | cons kv rest ih =>
    obtain ⟨k, v⟩ := kv
    simp only [fitsDepMembers, List.all_cons, Bool.and_eq_true] at h
    have hrest : fitsDepMembers rest = true := h.2
    rw [decodeDepMembers]
    cases hf : findField depFields k with
    | none => exact ih hrest d
    | some f =>
      have hv : fitsString v = true := by simpa [hf] using h.1
      obtain ⟨d1, hd1⟩ := setDepField_ok f hv d
      simp only [hd1]
      exact ih hrest d1

theorem decodeDepPtr_ok {v : JSON} (h : fitsDepPtr v = true) (old : Option Dependency) :
    ∃ r, decodeDepPtr v old = .ok r := by
  cases v with
  | null => exact ⟨none, rfl⟩
  | obj ms =>
    obtain ⟨d, hd⟩ := decodeDepMembers_ok ms h (old.getD {})
    exact ⟨some d, by rw [decodeDepPtr, hd]; rfl⟩
  | bool _ => simp [fitsDepPtr] at h
  | num _ => simp [fitsDepPtr] at h
  | str _ => simp [fitsDepPtr] at h
  | arr _ => simp [fitsDepPtr] at h

theorem decodeDepElems_ok (xs : List JSON) (h : ∀ x ∈ xs, fitsDepPtr x = true)
    (old : List (Option Dependency)) : ∃ r, decodeDepElems xs old = .ok r := by
  induction xs generalizing old with
  | nil => exact ⟨[], rfl⟩
  | cons x xs ih =>
    obtain ⟨s, hs⟩ := decodeDepPtr_ok (h x (List.mem_cons_self _ _)) (old.headD none)
    obtain ⟨r, hr⟩ := ih (fun y hy => h y (List.mem_cons_of_mem _ hy)) old.tail
    exact ⟨s :: r, by rw [decodeDepElems, hs, hr]⟩

theorem decodeDeps_ok {v : JSON} (h : fitsDeps v = true) (old : List (Option Dependency)) :
    ∃ r, decodeDeps v old = .ok r := by
  cases v with
  | null => exact ⟨[], rfl⟩
  | arr xs =>
    simp only [fitsDeps, List.all_eq_true] at h
    exact decodeDepElems_ok xs h old
  | bool _ => simp [fitsDeps] at h
  | num _ => simp [fitsDeps] at h
  | str _ => simp [fitsDeps] at h
  | obj _ => simp [fitsDeps] at h

theorem decodeBugsMembers_ok (ms : Members)
    (h : ms.all (fun kv => match findField bugsFields kv.1 with
      | none => true
      | some _ => fitsString kv.2) = true) (b : BugsObj) :
    ∃ b1, decodeBugsMembers ms b = .ok b1 := by
  induction ms generalizing b with
  | nil => exact ⟨b, rfl⟩
  | cons kv rest ih =>
    obtain ⟨k, v⟩ := kv
    simp only [List.all_cons, Bool.and_eq_true] at h
    rw [decodeBugsMembers]
    cases hf : findField bugsFields k with
    | none => exact ih h.2 b
    | some f =>
      have hv : fitsString v = true := by simpa [hf] using h.1
      obtain ⟨u, hu⟩ := decodeString_ok hv b.Url
      simp only [hu]
      exact ih h.2 _

theorem decodeBugs_ok {v : JSON} (h : fitsBugs v = true) (old : BugsObj) :
    ∃ r, decodeBugs v old = .ok r := by
  cases v with
  | null => exact ⟨old, rfl⟩
  | obj ms => exact decodeBugsMembers_ok ms h old
  | bool _ => simp [fitsBugs] at h
  | num _ => simp [fitsBugs] at h
  | str _ => simp [fitsBugs] at h
  | arr _ => simp [fitsBugs] at h

theorem except_map_ok {ε α β : Type} {x : Except ε α} {f : α → β} {a : α} (h : x = .ok a) :
    x.map f = .ok (f a) := by
  rw [h]; rfl

theorem except_map_eq_ok {ε α β : Type} {x : Except ε α} {f : α → β} {b : β}
    (h : x.map f = .ok b) : ∃ a, x = .ok a ∧ b = f a := by
  cases x with
  | error e => cases h
  | ok a =>
    refine ⟨a, rfl, ?_⟩
    have : Except.ok (f a) = (Except.ok b : Except ε β) := h
    injection this with h1
    exact h1.symm

theorem setField_ok (f : PkgField) {v : JSON} (h : fitsField f v = true) (p : Package) :
    ∃ p1, setField f v p = .ok p1 := by
  cases f <;> simp only [fitsField] at h <;> simp only [setField]
  case keywords =>
    obtain ⟨s, hs⟩ := decodeStrings_ok h p.Keywords
    exact ⟨_, except_map_ok hs⟩
  case gxDependencies =>
    obtain ⟨s, hs⟩ := decodeDeps_ok h p.Dependencies
    exact ⟨_, except_map_ok hs⟩
  case subtoolRequired =>
    obtain ⟨s, hs⟩ := decodeBool_ok h p.SubtoolRequired
    exact ⟨_, except_map_ok hs⟩
  case bugs =>
    obtain ⟨s, hs⟩ := decodeBugs_ok h p.Bugs
    exact ⟨_, except_map_ok hs⟩
  case gx => exact ⟨_, rfl⟩
  all_goals
    first
    | (obtain ⟨s, hs⟩ := decodeString_ok h p.Name; exact ⟨_, except_map_ok hs⟩)
    | (obtain ⟨s, hs⟩ := decodeString_ok h p.Author; exact ⟨_, except_map_ok hs⟩)
    | (obtain ⟨s, hs⟩ := decodeString_ok h p.Description; exact ⟨_, except_map_ok hs⟩)
    | (obtain ⟨s, hs⟩ := decodeString_ok h p.Version; exact ⟨_, except_map_ok hs⟩)
    | (obtain ⟨s, hs⟩ := decodeString_ok h p.Bin; exact ⟨_, except_map_ok hs⟩)
    | (obtain ⟨s, hs⟩ := decodeString_ok h p.Build; exact ⟨_, except_map_ok hs⟩)
    | (obtain ⟨s, hs⟩ := decodeString_ok h p.Test; exact ⟨_, except_map_ok hs⟩)
    | (obtain ⟨s, hs⟩ := decodeString_ok h p.ReleaseCmd; exact ⟨_, except_map_ok hs⟩)
    | (obtain ⟨s, hs⟩ := decodeString_ok h p.TagCmd; exact ⟨_, except_map_ok hs⟩)
    | (obtain ⟨s, hs⟩ := decodeString_ok h p.Language; exact ⟨_, except_map_ok hs⟩)
    | (obtain ⟨s, hs⟩ := decodeString_ok h p.License; exact ⟨_, except_map_ok hs⟩)
    | (obtain ⟨s, hs⟩ := decodeString_ok h p.GxVersion; exact ⟨_, except_map_ok hs⟩)

theorem setField_keeps_bugs {f : PkgField} {v : JSON} {p p1 : Package}
    (h : setField f v p = .ok p1) (hf : f ≠ .bugs) : p1.Bugs = p.Bugs := by
  cases f <;> simp only [setField] at h
  case bugs => exact absurd rfl hf
  case gx =>
    injection h with h
    rw [← h]
  all_goals
    obtain ⟨a, _, ha⟩ := except_map_eq_ok h
    rw [ha]

theorem setField_keeps_deps {f : PkgField} {v : JSON} {p p1 : Package}
    (h : setField f v p = .ok p1) (hf : f ≠ .gxDependencies) :
    p1.Dependencies = p.Dependencies := by
  cases f <;> simp only [setField] at h
  case gxDependencies => exact absurd rfl hf
  case gx =>
    injection h with h
    rw [← h]
  all_goals
    obtain ⟨a, _, ha⟩ := except_map_eq_ok h
    rw [ha]

theorem decodeMembers_cons_none {k : String} (v : JSON) (rest : Members) (p : Package)
    (hf : findField packageFields k = none) :
    decodeMembers ((k, v) :: rest) p = decodeMembers rest p := by
  rw [decodeMembers, hf]

theorem decodeMembers_cons_ok {k : String} {v : JSON} (rest : Members) {p p1 : Package}
    {f : PkgField} (hf : findField packageFields k = some f) (hs : setField f v p = .ok p1) :
    decodeMembers ((k, v) :: rest) p = decodeMembers rest p1 := by
  rw [decodeMembers, hf]
  simp only [hs]

theorem decodeMembers_cons_error {k : String} {v : JSON} (rest : Members) {p : Package}
    {f : PkgField} {e : GoError} (hf : findField packageFields k = some f)
    (hs : setField f v p = .error e) :
    decodeMembers ((k, v) :: rest) p = .error e := by
  rw [decodeMembers, hf]
  simp only [hs]

theorem decodeMembers_append (a b : Members) (p : Package) :
    decodeMembers (a ++ b) p =
      match decodeMembers a p with
      | .error e => .error e
      | .ok p1 => decodeMembers b p1 := by
  induction a generalizing p with
  | nil => rfl
  | cons kv rest ih =>
    obtain ⟨k, v⟩ := kv
    show decodeMembers ((k, v) :: (rest ++ b)) p = _
    cases hf : findField packageFields k with
    | none =>
      rw [decodeMembers_cons_none v _ p hf, decodeMembers_cons_none v _ p hf]
      exact ih p
    | some f =>
      cases hs : setField f v p with
      | error e =>
        rw [decodeMembers_cons_error _ hf hs, decodeMembers_cons_error _ hf hs]
      | ok p1 =>
        rw [decodeMembers_cons_ok _ hf hs, decodeMembers_cons_ok _ hf hs]
        exact ih p1

/-- Members that all fit the schema are decoded without error. -/
theorem decodeMembers_ok (ms : Members) (h : ∀ x ∈ ms, memberFits x = true) (p : Package) :
    ∃ p1, decodeMembers ms p = .ok p1 := by
  induction ms generalizing p with
  | nil => exact ⟨p, rfl⟩
  | cons kv rest ih =>
    obtain ⟨k, v⟩ := kv
    have hkv := h (k, v) (List.mem_cons_self _ _)
    have hrest := fun x hx => h x (List.mem_cons_of_mem _ hx)
    cases hf : findField packageFields k with
    | none =>
      rw [decodeMembers_cons_none v _ p hf]
      exact ih hrest p
    | some f =>
      have hv : fitsField f v = true := by simpa [memberFits, hf] using hkv
      obtain ⟨p1, hp1⟩ := setField_ok f hv p
      rw [decodeMembers_cons_ok _ hf hp1]
      exact ih hrest p1

/-- Members that fit the schema and do not reach the field Bugs are decoded
without error and leave Bugs as it was. -/
theorem decodeMembers_keeps_bugs (ms : Members)
    (h : ∀ x ∈ ms, memberFits x = true ∧ findField packageFields x.1 ≠ some .bugs)
    (p : Package) : ∃ p1, decodeMembers ms p = .ok p1 ∧ p1.Bugs = p.Bugs := by
  induction ms generalizing p with
  | nil => exact ⟨p, rfl, rfl⟩
  | cons kv rest ih =>
    obtain ⟨k, v⟩ := kv
    have hkv := h (k, v) (List.mem_cons_self _ _)
    have hrest := fun x hx => h x (List.mem_cons_of_mem _ hx)
    cases hf : findField packageFields k with
    | none =>
      rw [decodeMembers_cons_none v _ p hf]
      exact ih hrest p
    | some f =>
      have hv : fitsField f v = true := by simpa [memberFits, hf] using hkv.1
      have hfb : f ≠ .bugs := fun e => hkv.2 (by rw [hf, e])
      obtain ⟨p1, hp1⟩ := setField_ok f hv p
      rw [decodeMembers_cons_ok _ hf hp1]
      obtain ⟨p2, hp2, hb⟩ := ih hrest p1
      exact ⟨p2, hp2, by rw [hb, setField_keeps_bugs hp1 hfb]⟩

theorem findField_bugs : findField packageFields "bugs" = some .bugs := by decide

theorem setField_bugs_url (s : String) (p : Package) :
    setField .bugs (.obj [("url", .str s)]) p = .ok { p with Bugs := { p.Bugs with Url := s } } := by
  have h : findField bugsFields "url" = some () := by decide
  simp only [setField, decodeBugs, decodeBugsMembers, h, decodeString]
  rfl

/-- Members that fit the schema and do not reach the field Dependencies are
decoded without error and leave Dependencies as it was. -/
theorem decodeMembers_keeps_deps (ms : Members)
    (h : ∀ x ∈ ms, memberFits x = true ∧ findField packageFields x.1 ≠ some .gxDependencies)
    (p : Package) :
    ∃ p1, decodeMembers ms p = .ok p1 ∧ p1.Dependencies = p.Dependencies := by
  induction ms generalizing p with
  | nil => exact ⟨p, rfl, rfl⟩
  | cons kv rest ih =>
    obtain ⟨k, v⟩ := kv
    have hkv := h (k, v) (List.mem_cons_self _ _)
    have hrest := fun x hx => h x (List.mem_cons_of_mem _ hx)
    cases hf : findField packageFields k with
    | none =>
      rw [decodeMembers_cons_none v _ p hf]
      exact ih hrest p
    | some f =>
      have hv : fitsField f v = true := by simpa [memberFits, hf] using hkv.1
      have hfb : f ≠ .gxDependencies := fun e => hkv.2 (by rw [hf, e])
      obtain ⟨p1, hp1⟩ := setField_ok f hv p
      rw [decodeMembers_cons_ok _ hf hp1]
      obtain ⟨p2, hp2, hb⟩ := ih hrest p1
      exact ⟨p2, hp2, by rw [hb, setField_keeps_deps hp1 hfb]⟩

theorem setDepField_keeps_hash {f : DepField} {v : JSON} {d d1 : Dependency}
    (h : setDepField f v d = .ok d1) (hf : f ≠ .hash) : d1.Hash = d.Hash := by
  cases f <;> simp only [setDepField] at h
  case hash => exact absurd rfl hf
  all_goals
    obtain ⟨a, _, ha⟩ := except_map_eq_ok h
    rw [ha]

/-- An object none of whose keys names the field Hash leaves Hash as it
was. -/
theorem decodeDepMembers_keeps_hash (ms : Members)
    (h : ∀ x ∈ ms, findField depFields x.1 ≠ some .hash) {d d1 : Dependency}
    (hd : decodeDepMembers ms d = .ok d1) : d1.Hash = d.Hash := by
  induction ms generalizing d with
  | nil =>
    simp only [decodeDepMembers, Except.ok.injEq] at hd
    rw [hd]
  | cons kv rest ih =>
    obtain ⟨k, v⟩ := kv
    have hkv := h (k, v) (List.mem_cons_self _ _)
    have hrest := fun x hx => h x (List.mem_cons_of_mem _ hx)
    rw [decodeDepMembers] at hd
    cases hf : findField depFields k with
    | none =>
      simp only [hf] at hd
      exact ih hrest hd
    | some f =>
      simp only [hf] at hd
      cases hs : setDepField f v d with
      | error e => simp [hs] at hd
      | ok d2 =>
        simp only [hs] at hd
        have hfb : f ≠ .hash := fun e => hkv (by rw [hf, e])
        rw [ih hrest hd, setDepField_keeps_hash hs hfb]

theorem decodeDepElems_cons_ok {x : JSON} {xs : List JSON} {old r : List (Option Dependency)}
    (h : decodeDepElems (x :: xs) old = .ok r) :
    ∃ y rest, decodeDepPtr x (old.headD none) = .ok y ∧
      decodeDepElems xs old.tail = .ok rest ∧ r = y :: rest := by
  rw [decodeDepElems] at h
  cases hx : decodeDepPtr x (old.headD none) with
  | error e =>
    rw [hx] at h
    cases h
  | ok y =>
    rw [hx] at h
    cases hr : decodeDepElems xs old.tail with
    | error e =>
      simp only [hr] at h
      cases h
    | ok rest =>
      simp only [hr] at h
      injection h with h
      exact ⟨y, rest, rfl, rfl, h.symm⟩

/-- Decoding an array into an empty slice: the element at the position of an
object is the Dependency that object decodes to, starting from a new one. -/
theorem decodeDepElems_at (E1 : List JSON) (em : Members) (E2 : List JSON)
    {r : List (Option Dependency)}
    (h : decodeDepElems (E1 ++ .obj em :: E2) [] = .ok r) :
    ∃ d, decodeDepMembers em {} = .ok d ∧ r.get? E1.length = some (some d) := by
  induction E1 generalizing r with
  | nil =>
    have h1 : decodeDepElems (.obj em :: E2) [] = .ok r := h
    obtain ⟨y, rest, hy, _, hr⟩ := decodeDepElems_cons_ok h1
    simp only [decodeDepPtr, List.headD_nil, Option.getD_none] at hy
    obtain ⟨d, hd, hyd⟩ := except_map_eq_ok hy
    exact ⟨d, hd, by rw [hr, hyd]; rfl⟩
  | cons x xs ih =>
    have h1 : decodeDepElems (x :: (xs ++ .obj em :: E2)) [] = .ok r := h
    obtain ⟨y, rest, _, hrest, hr⟩ := decodeDepElems_cons_ok h1
    obtain ⟨d, hd, hget⟩ := ih hrest
    exact ⟨d, hd, by rw [hr]; simpa using hget⟩

/-! ### Merging a map over itself -/

theorem mergeValue_none (v : JSON) : mergeValue none v = v := by
  cases v <;> rfl

theorem mergeMaps_self_of_members {b : Members} (hs : KeySorted b) (hn : NormalMembers b)
    (h : ∀ x ∈ b, mergeValue (some x.2) x.2 = x.2) : mergeMaps b b = b := by
  apply members_ext (mergeMaps_normal b b hn hs hn).1 hs
  intro k
  rw [objLookup_mergeMaps k b b hs]
  cases hl : objLookup k b with
  | none => rfl
  | some v =>
    have := h (k, v) (mem_of_objLookup hl)
    simp only [this]

mutual
theorem mergeValue_self : ∀ v : JSON, Normal v → mergeValue (some v) v = v
  | .null, _ => rfl
  | .bool _, _ => rfl
  | .num _, _ => rfl
  | .str _, _ => rfl
  | .arr _, _ => rfl
  | .obj b, h => by
    rw [Normal] at h
    rw [mergeValue, mergeMaps_self_of_members h.1 h.2 (mergeValue_self_members b h.2)]
theorem mergeValue_self_members : ∀ ms : Members, NormalMembers ms →
    ∀ x ∈ ms, mergeValue (some x.2) x.2 = x.2
  | [], _, x, hx => by cases hx
  | (k, v) :: rest, h, x, hx => by
    rw [NormalMembers] at h
    rcases List.mem_cons.1 hx with h1 | h1
    · rw [h1]
      exact mergeValue_self v h.1
    · exact mergeValue_self_members rest h.2 x h1
end

/-- Merging the same incoming map a second time changes nothing, when the
first current map had none of its keys. -/
theorem mergeMaps_absorb {E S : Members} (hE : KeySorted E) (hEn : NormalMembers E)
    (hS : KeySorted S) (hSn : NormalMembers S)
    (hdisj : ∀ x ∈ S, objLookup x.1 E = none) :
    mergeMaps (mergeMaps E S) S = mergeMaps E S := by
  have h1 := mergeMaps_normal S E hSn hE hEn
  have h2 := mergeMaps_normal S (mergeMaps E S) hSn h1.1 h1.2
  apply members_ext h2.1 h1.1
  intro k
  rw [objLookup_mergeMaps k S (mergeMaps E S) hS, objLookup_mergeMaps k S E hS]
  cases hl : objLookup k S with
  | none => rfl
  | some v =>
    have hk := hdisj (k, v) (mem_of_objLookup hl)
    have hv : Normal v := (normalMembers_iff S).1 hSn (k, v) (mem_of_objLookup hl)
    simp only [hk, mergeValue_none, mergeValue_self v hv]

/-! ### One field at a time -/

theorem findField_fieldName (f : PkgField) : findField packageFields (fieldName f) = some f := by
  cases f <;> decide

theorem fieldName_injective {f g : PkgField} (h : fieldName f = fieldName g) : f = g := by
  have hf := findField_fieldName f
  rw [h, findField_fieldName g] at hf
  injection hf with hf
  exact hf.symm

theorem fieldName_of_schemaKey {k : String} (hk : k ∈ schemaKeys) :
    ∃ f, k = fieldName f := by
  simp only [schemaKeys, packageFields, List.map_cons, List.map_nil, List.mem_cons,
    List.mem_singleton, List.not_mem_nil, or_false] at hk
  rcases hk with h | h | h | h | h | h | h | h | h | h | h | h | h | h | h | h | h
  · exact ⟨.name, h⟩
  · exact ⟨.author, h⟩
  · exact ⟨.description, h⟩
  · exact ⟨.keywords, h⟩
  · exact ⟨.version, h⟩
  · exact ⟨.gxDependencies, h⟩
  · exact ⟨.bin, h⟩
  · exact ⟨.build, h⟩
  · exact ⟨.test, h⟩
  · exact ⟨.releaseCmd, h⟩
  · exact ⟨.tagCmd, h⟩
  · exact ⟨.subtoolRequired, h⟩
  · exact ⟨.language, h⟩
  · exact ⟨.license, h⟩
  · exact ⟨.bugs, h⟩
  · exact ⟨.gxVersion, h⟩
  · exact ⟨.gx, h⟩

theorem sameAt_refl (f : PkgField) (p : Package) : sameAt f p p := by
  cases f <;> exact rfl

theorem sameAt_symm {f : PkgField} {p q : Package} (h : sameAt f p q) : sameAt f q p := by
  cases f <;> exact Eq.symm h

theorem sameAt_trans {f : PkgField} {p q r : Package} (h1 : sameAt f p q)
    (h2 : sameAt f q r) : sameAt f p r := by
  cases f <;> exact Eq.trans h1 h2

/-- Two Packages that agree in every field are equal. -/
theorem package_ext {p q : Package} (h : ∀ f, sameAt f p q) : p = q := by
  obtain ⟨⟨n1, a1, d1, k1, v1, g1, b1, u1, t1, r1, c1, s1, l1, i1, x1, y1⟩, z1⟩ := p
  obtain ⟨⟨n2, a2, d2, k2, v2, g2, b2, u2, t2, r2, c2, s2, l2, i2, x2, y2⟩, z2⟩ := q
  have h1 : n1 = n2 := h .name
  have h2 : a1 = a2 := h .author
  have h3 : d1 = d2 := h .description
  have h4 : k1 = k2 := h .keywords
  have h5 : v1 = v2 := h .version
  have h6 : g1 = g2 := h .gxDependencies
  have h7 : b1 = b2 := h .bin
  have h8 : u1 = u2 := h .build
  have h9 : t1 = t2 := h .test
  have h10 : r1 = r2 := h .releaseCmd
  have h11 : c1 = c2 := h .tagCmd
  have h12 : s1 = s2 := h .subtoolRequired
  have h13 : l1 = l2 := h .language
  have h14 : i1 = i2 := h .license
  have h15 : x1 = x2 := h .bugs
  have h16 : y1 = y2 := h .gxVersion
  have h17 : z1 = z2 := h .gx
  subst h1 h2 h3 h4 h5 h6 h7 h8 h9 h10 h11 h12 h13 h14 h15 h16 h17
  rfl

/-- Decoding into one field leaves every other field as it was. -/
theorem setField_frame {g : PkgField} {v : JSON} {p p1 : Package}
    (h : setField g v p = .ok p1) {f : PkgField} (hf : f ≠ g) : sameAt f p1 p := by
  cases g <;> simp only [setField] at h
  case gx =>
    injection h with h
    rw [← h]
    cases f <;> first | exact absurd rfl hf | exact rfl
  all_goals
    obtain ⟨a, _, ha⟩ := except_map_eq_ok h
    rw [ha]
    cases f <;> first | exact absurd rfl hf | exact rfl

/-- Decoding into one field looks only at what that field holds. -/
theorem setField_local {f : PkgField} {v : JSON} {p q p1 : Package}
    (h : setField f v p = .ok p1) (hpq : sameAt f p q) :
    ∃ q1, setField f v q = .ok q1 ∧ sameAt f q1 p1 := by
  cases f <;> simp only [setField, sameAt] at h hpq ⊢
  case gx => exact ⟨_, rfl, by injection h with h; rw [← h]⟩
  all_goals
    obtain ⟨a, ha, hp⟩ := except_map_eq_ok h
    rw [hpq] at ha
    exact ⟨_, except_map_ok ha, by rw [hp]⟩

/-! ### Decoding a document with one member per field -/

theorem lastValue_none_of_not_mem {k : String} {ms : Members}
    (h : ∀ x ∈ ms, x.1 ≠ k) : lastValue k ms = none := by
  induction ms with
  | nil => rfl
  | cons kv rest ih =>
    obtain ⟨k1, v1⟩ := kv
    have hne : k ≠ k1 := fun e => h (k1, v1) (List.mem_cons_self _ _) e.symm
    rw [lastValue, ih (fun x hx => h x (List.mem_cons_of_mem _ hx))]
    simp [hne]

theorem mem_of_lastValue {k : String} {v : JSON} {ms : Members}
    (h : lastValue k ms = some v) : (k, v) ∈ ms := by
  induction ms with
  | nil => simp [lastValue] at h
  | cons kv rest ih =>
    obtain ⟨k1, v1⟩ := kv
    rw [lastValue] at h
    cases hl : lastValue k rest with
    | some w =>
      simp only [hl, Option.some.injEq] at h
      subst h
      exact List.mem_cons_of_mem _ (ih hl)
    | none =>
      simp only [hl] at h
      by_cases hk : k = k1
      · simp only [hk, if_true, Option.some.injEq] at h
        rw [hk, h]
        exact List.mem_cons_self _ _
      · simp [hk] at h

theorem lastValue_of_mem {k : String} {v : JSON} {ms : Members}
    (hnd : (ms.map Prod.fst).Nodup) (h : (k, v) ∈ ms) : lastValue k ms = some v := by
  induction ms with
  | nil => cases h
  | cons kv rest ih =>
    obtain ⟨k1, v1⟩ := kv
    simp only [List.map_cons, List.nodup_cons, List.mem_map, not_exists, not_and] at hnd
    rcases List.mem_cons.1 h with h1 | h1
    · injection h1 with hk hv
      subst hk hv
      have hnone : lastValue k rest = none :=
        lastValue_none_of_not_mem (fun x hx e => hnd.1 x hx e)
      rw [lastValue, hnone]
      simp
    · rw [lastValue, ih hnd.2 h1]

/-- Decoding a document in which no key occurs twice and every key is either
unknown to the schema or the exact name of a field whose value that field
takes: the decode succeeds, and each field ends as if its own member alone
had been decoded. -/
theorem decodeMembers_by_key (ms : Members) (p0 : Package)
    (hnd : (ms.map Prod.fst).Nodup)
    (hms : ∀ x ∈ ms, findField packageFields x.1 = none ∨
      ∃ f q, x.1 = fieldName f ∧ setField f x.2 p0 = .ok q) :
    ∃ p1, decodeMembers ms p0 = .ok p1 ∧
      ∀ f, (lastValue (fieldName f) ms = none → sameAt f p1 p0) ∧
        (∀ v, lastValue (fieldName f) ms = some v →
          ∃ q, setField f v p0 = .ok q ∧ sameAt f p1 q) := by
  induction ms generalizing p0 with
  | nil =>
    refine ⟨p0, rfl, fun f => ⟨fun _ => sameAt_refl f p0, ?_⟩⟩
    intro v hv
    simp [lastValue] at hv
  | cons kv rest ih =>
    obtain ⟨k, v⟩ := kv
    have hnd1 := hnd
    simp only [List.map_cons, List.nodup_cons, List.mem_map, not_exists, not_and] at hnd1
    have hknot : ∀ x ∈ rest, x.1 ≠ k := fun x hx e => hnd1.1 x hx e
    rcases hms (k, v) (List.mem_cons_self _ _) with hnone | ⟨g, q, hkg, hq⟩
    · -- a key the schema does not know
      obtain ⟨p1, hp1, hf⟩ := ih p0 hnd1.2 (fun x hx => hms x (List.mem_cons_of_mem _ hx))
      refine ⟨p1, by rw [decodeMembers_cons_none v _ p0 hnone]; exact hp1, ?_⟩
      intro f
      have hfk : fieldName f ≠ k := by
        intro e
        rw [← e, findField_fieldName] at hnone
        cases hnone
      have hl : lastValue (fieldName f) ((k, v) :: rest) = lastValue (fieldName f) rest := by
        rw [lastValue]
        cases lastValue (fieldName f) rest <;> simp [hfk]
      rw [hl]
      exact hf f
    · -- the member of field g
      simp only at hkg hq
      have hfind : findField packageFields k = some g := by rw [hkg, findField_fieldName]
      have hrest : ∀ x ∈ rest, findField packageFields x.1 = none ∨
          ∃ f q1, x.1 = fieldName f ∧ setField f x.2 q = .ok q1 := by
        intro x hx
        rcases hms x (List.mem_cons_of_mem _ hx) with h | ⟨f, q1, hxf, hq1⟩
        · exact Or.inl h
        · have hfg : f ≠ g := by
            intro e
            apply hknot x hx
            rw [hxf, hkg, e]
          obtain ⟨q2, hq2, _⟩ := setField_local hq1 (sameAt_symm (setField_frame hq hfg))
          exact Or.inr ⟨f, q2, hxf, hq2⟩
      obtain ⟨p1, hp1, hf⟩ := ih q hnd1.2 hrest
      refine ⟨p1, by rw [decodeMembers_cons_ok _ hfind hq]; exact hp1, ?_⟩
      intro f
      cases hl : lastValue (fieldName f) rest with
      | some w =>
        have hmem := mem_of_lastValue hl
        have hfg : f ≠ g := by
          intro e
          apply hknot _ hmem
          show fieldName f = k
          rw [hkg, e]
        have hl2 : lastValue (fieldName f) ((k, v) :: rest) = some w := by
          rw [lastValue, hl]
        rw [hl2]
        refine ⟨fun h => (by cases h), ?_⟩
        intro w2 hw2
        injection hw2 with hw2
        subst hw2
        obtain ⟨q1, hq1, hs1⟩ := (hf f).2 w hl
        obtain ⟨q2, hq2, hs2⟩ := setField_local hq1 (setField_frame hq hfg)
        exact ⟨q2, hq2, sameAt_trans hs1 (sameAt_symm hs2)⟩
      | none =>
        by_cases hfk : fieldName f = k
        · have hfg : f = g := fieldName_injective (by rw [hfk, hkg])
          subst hfg
          have hl2 : lastValue (fieldName f) ((k, v) :: rest) = some v := by
            rw [lastValue, hl]
            simp [hfk]
          rw [hl2]
          refine ⟨fun h => (by cases h), ?_⟩
          intro w2 hw2
          injection hw2 with hw2
          subst hw2
          exact ⟨q, hq, (hf f).1 hl⟩
        · have hfg : f ≠ g := by
            intro e
            apply hfk
            rw [hkg, e]
          have hl2 : lastValue (fieldName f) ((k, v) :: rest) = none := by
            rw [lastValue, hl]
            simp [hfk]
          rw [hl2]
          refine ⟨fun _ => sameAt_trans ((hf f).1 hl) (setField_frame hq hfg), ?_⟩
          intro w2 hw2
          cases hw2

/-! ### The members the encoder writes, field by field -/

theorem lastValue_append (k : String) (a b : Members) :
    lastValue k (a ++ b) =
      match lastValue k b with
      | some v => some v
      | none => lastValue k a := by
  induction a with
  | nil =>
    simp only [List.nil_append, lastValue]
    cases lastValue k b <;> rfl
  | cons kv rest ih =>
    obtain ⟨k1, v1⟩ := kv
    show lastValue k ((k1, v1) :: (rest ++ b)) = _
    rw [lastValue, ih, lastValue]
    cases lastValue k b with
    | some v => rfl
    | none => rfl

theorem encodedMember_string (f : PkgField) (p : Package) (s : String)
    (h : encodedField f p = if s = "" then none else some (.str s)) :
    encodedMember f p = optString (fieldName f) s := by
  unfold encodedMember optString
  rw [h]
  by_cases hs : s = ""
  · simp only [hs, if_true]
  · simp only [hs, if_false]

theorem encodeBase_eq_fields (p : Package) {gx : Members} (hgx : encodeRaw p.Gx = .ok gx) :
    encodeBase p.toPackageBase ++ gx = encodeFields p allFields := by
  have hraw : gx = encodedMember .gx p := by
    cases hg : p.Gx with
    | empty =>
      rw [hg] at hgx
      simp only [encodeRaw, Except.ok.injEq] at hgx
      simp only [encodedMember, encodedField, hg]
      exact hgx.symm
    | valid v =>
      rw [hg] at hgx
      simp only [encodeRaw, Except.ok.injEq] at hgx
      simp only [encodedMember, encodedField, hg]
      exact hgx.symm
    | invalid b =>
      rw [hg] at hgx
      simp [encodeRaw] at hgx
  have hkw : encodedMember .keywords p =
      if p.Keywords = [] then [] else [("keywords", .arr (p.Keywords.map .str))] := by
    by_cases hc : p.Keywords = []
    · simp only [encodedMember, encodedField, hc, if_true]
    · simp only [encodedMember, encodedField, hc, if_false, fieldName]
  have hdeps : encodedMember .gxDependencies p =
      if p.Dependencies = [] then []
      else [("gxDependencies", .arr (p.Dependencies.map encodeDepPtr))] := by
    by_cases hc : p.Dependencies = []
    · simp only [encodedMember, encodedField, hc, if_true]
    · simp only [encodedMember, encodedField, hc, if_false, fieldName]
  have hsub : encodedMember .subtoolRequired p =
      if p.SubtoolRequired then [("subtoolRequired", .bool true)] else [] := by
    cases hc : p.SubtoolRequired with
    | true => simp only [encodedMember, encodedField, hc, if_true, fieldName]
    | false => simp [encodedMember, encodedField, hc]
  have hlic : encodedMember .license p = [("license", .str p.License)] := rfl
  have hbugs : encodedMember .bugs p = [("bugs", encodeBugs p.Bugs)] := rfl
  have hgxv : encodedMember .gxVersion p = [("gxVersion", .str p.GxVersion)] := rfl
  simp only [allFields, encodeFields, hkw, hdeps, hsub, hlic, hbugs, hgxv, ← hraw,
    encodedMember_string .name p p.Name rfl, encodedMember_string .author p p.Author rfl,
    encodedMember_string .description p p.Description rfl,
    encodedMember_string .version p p.Version rfl, encodedMember_string .bin p p.Bin rfl,
    encodedMember_string .build p p.Build rfl, encodedMember_string .test p p.Test rfl,
    encodedMember_string .releaseCmd p p.ReleaseCmd rfl,
    encodedMember_string .tagCmd p p.TagCmd rfl,
    encodedMember_string .language p p.Language rfl, fieldName, encodeBase,
    List.append_assoc, List.append_nil, List.cons_append, List.nil_append]

theorem lastValue_encodedMember (f g : PkgField) (p : Package) :
    lastValue (fieldName f) (encodedMember g p) = if f = g then encodedField g p else none := by
  unfold encodedMember
  by_cases h : f = g
  · subst h
    cases encodedField f p <;> simp [lastValue]
  · have hne : fieldName f ≠ fieldName g := fun e => h (fieldName_injective e)
    cases encodedField g p <;> simp [lastValue, h, hne]

theorem lastValue_encodeFields (p : Package) (f : PkgField) (fs : List PkgField)
    (hnd : fs.Nodup) :
    lastValue (fieldName f) (encodeFields p fs) = if f ∈ fs then encodedField f p else none := by
  induction fs with
  | nil => simp [encodeFields, lastValue]
  | cons g rest ih =>
    rw [List.nodup_cons] at hnd
    rw [encodeFields, lastValue_append, ih hnd.2, lastValue_encodedMember]
    by_cases hf : f ∈ rest
    · have hfg : f ≠ g := fun e => hnd.1 (e ▸ hf)
      simp only [hf, if_true, List.mem_cons, hfg, false_or, if_false]
      cases encodedField f p <;> rfl
    · by_cases hfg : f = g
      · subst hfg
        simp [hf]
      · simp [hf, hfg]

theorem allFields_nodup : allFields.Nodup := by decide

theorem mem_allFields (f : PkgField) : f ∈ allFields := by
  cases f <;> decide

/-- Read by key, the document the encoder writes holds for each field the
value encodedField names. -/
theorem lastValue_encoded (f : PkgField) (p : Package) {gx : Members}
    (hgx : encodeRaw p.Gx = .ok gx) :
    lastValue (fieldName f) (encodeBase p.toPackageBase ++ gx) = encodedField f p := by
  rw [encodeBase_eq_fields p hgx, lastValue_encodeFields p f allFields allFields_nodup]
  simp [mem_allFields]

theorem keys_encodeFields_nodup (p : Package) (fs : List PkgField) (hnd : fs.Nodup) :
    ((encodeFields p fs).map Prod.fst).Nodup ∧
      ∀ x ∈ encodeFields p fs, ∃ f ∈ fs, x.1 = fieldName f ∧ encodedField f p = some x.2 := by
  induction fs with
  | nil => simp [encodeFields]
  | cons g rest ih =>
    rw [List.nodup_cons] at hnd
    obtain ⟨ih1, ih2⟩ := ih hnd.2
    have hmem : ∀ x ∈ encodedMember g p, x.1 = fieldName g ∧ encodedField g p = some x.2 := by
      intro x hx
      unfold encodedMember at hx
      cases he : encodedField g p with
      | none => rw [he] at hx; cases hx
      | some v =>
        rw [he] at hx
        rw [List.mem_singleton] at hx
        rw [hx]
        exact ⟨rfl, rfl⟩
    constructor
    · rw [encodeFields, List.map_append, List.nodup_append]
      refine ⟨?_, ih1, ?_⟩
      · unfold encodedMember
        cases encodedField g p <;> simp
      · intro k hk1 hk2
        rw [List.mem_map] at hk1 hk2
        obtain ⟨x, hx, hxk⟩ := hk1
        obtain ⟨y, hy, hyk⟩ := hk2
        obtain ⟨f, hf, hyf, _⟩ := ih2 y hy
        have := (hmem x hx).1
        have hfg : f = g := fieldName_injective (by rw [← hyf, hyk, ← hxk, this])
        exact hnd.1 (hfg ▸ hf)
    · intro x hx
      rw [encodeFields, List.mem_append] at hx
      rcases hx with hx | hx
      · exact ⟨g, List.mem_cons_self _ _, hmem x hx⟩
      · obtain ⟨f, hf, h1, h2⟩ := ih2 x hx
        exact ⟨f, List.mem_cons_of_mem _ hf, h1, h2⟩

/-! ### Decoding what the encoder wrote -/

theorem decodeStringElems_encoded (ks : List String) (old : List String) :
    decodeStringElems (ks.map .str) old = .ok ks := by
  induction ks generalizing old with
  | nil => rfl
  | cons k ks ih =>
    show decodeStringElems (.str k :: ks.map .str) old = _
    rw [decodeStringElems, ih]
    rfl

theorem genericList_strings (ks : List String) :
    genericList (ks.map .str) = ks.map .str := by
  induction ks with
  | nil => rfl
  | cons k ks ih =>
    show genericList (.str k :: ks.map .str) = _
    rw [genericList, ih]
    rfl

theorem genericList_map {α : Type} (f : α → JSON) (xs : List α) :
    genericList (xs.map f) = xs.map (fun x => generic (f x)) := by
  induction xs with
  | nil => rfl
  | cons x xs ih =>
    show genericList (f x :: xs.map f) = _
    rw [genericList, ih]
    rfl

theorem decodeDepPtr_encoded (d : Option Dependency) :
    decodeDepPtr (encodeDepPtr d) none = .ok d := by
  cases d with
  | none => rfl
  | some d =>
    obtain ⟨a, n, h, v⟩ := d
    by_cases ha : a = "" <;> by_cases hn : n = "" <;> by_cases hv : v = "" <;>
      simp only [encodeDepPtr, encodeDependency, optString, ha, hn, hv, if_true, if_false,
        List.nil_append, List.cons_append, List.append_nil] <;> rfl

theorem decodeDepPtr_encoded_generic (d : Option Dependency) :
    decodeDepPtr (generic (encodeDepPtr d)) none = .ok d := by
  cases d with
  | none => rfl
  | some d =>
    obtain ⟨a, n, h, v⟩ := d
    by_cases ha : a = "" <;> by_cases hn : n = "" <;> by_cases hv : v = "" <;>
      simp only [encodeDepPtr, encodeDependency, optString, ha, hn, hv, if_true, if_false,
        List.nil_append, List.cons_append, List.append_nil] <;> rfl

theorem decodeDepElems_of_each (t : Option Dependency → JSON)
    (ht : ∀ d, decodeDepPtr (t d) none = .ok d) (ds : List (Option Dependency)) :
    decodeDepElems (ds.map t) [] = .ok ds := by
  induction ds with
  | nil => rfl
  | cons d ds ih =>
    show decodeDepElems (t d :: ds.map t) [] = _
    rw [decodeDepElems]
    simp only [List.headD_nil, List.tail_nil, ht d, ih]

theorem decodeBugs_encoded (b old : BugsObj) (hold : old.Url = "") :
    decodeBugs (encodeBugs b) old = .ok b := by
  obtain ⟨u⟩ := b
  obtain ⟨o⟩ := old
  simp only at hold
  subst hold
  by_cases hu : u = ""
  · subst hu
    rfl
  · simp only [encodeBugs, optString, hu, if_false]
    rfl

theorem generic_encodeBugs (b : BugsObj) : generic (encodeBugs b) = encodeBugs b := by
  obtain ⟨u⟩ := b
  by_cases hu : u = ""
  · subst hu
    rfl
  · simp only [encodeBugs, optString, hu, if_false]
    rfl

theorem optional_string_none {s : String}
    (h : (if s = "" then none else some (JSON.str s)) = none) : "" = s := by
  by_cases hs : s = ""
  · exact hs.symm
  · simp [hs] at h

theorem optional_string_some {s : String} {v : JSON}
    (h : (if s = "" then none else some (JSON.str s)) = some v) : v = .str s := by
  by_cases hs : s = ""
  · simp [hs] at h
  · simp only [hs, if_false, Option.some.injEq] at h
    exact h.symm

/-- Field by field, decoding what the encoder wrote for p into a new Package
gives back the field of p, when the text passes through a t that leaves the
encoded fields readable. -/
theorem roundtrip_field (t : JSON → JSON)
    (hstr : ∀ s, t (.str s) = .str s) (hbool : ∀ b, t (.bool b) = .bool b)
    (hkw : ∀ ks : List String, t (.arr (ks.map .str)) = .arr (ks.map .str))
    (hdeps : ∀ ds : List (Option Dependency),
      decodeDeps (t (.arr (ds.map encodeDepPtr))) [] = .ok ds)
    (hbugs : ∀ b, t (encodeBugs b) = encodeBugs b)
    (p : Package) (hvalid : ∀ b, p.Gx ≠ .invalid b) (f : PkgField) :
    (encodedField f p = none → sameAt f ({} : Package) (reloaded t p)) ∧
    (∀ v, encodedField f p = some v →
      ∃ q, setField f (t v) ({} : Package) = .ok q ∧ sameAt f q (reloaded t p)) := by
  cases f
  case keywords =>
    simp only [encodedField, sameAt, reloaded]
    by_cases hk : p.Keywords = []
    · rw [if_pos hk]
      exact ⟨fun _ => hk.symm, fun v hv => (by cases hv)⟩
    · rw [if_neg hk]
      refine ⟨fun h => (by cases h), fun v hv => ?_⟩
      injection hv with hv
      subst hv
      rw [hkw]
      exact ⟨_, except_map_ok (decodeStringElems_encoded p.Keywords []), rfl⟩
  case gxDependencies =>
    simp only [encodedField, sameAt, reloaded]
    by_cases hk : p.Dependencies = []
    · rw [if_pos hk]
      exact ⟨fun _ => hk.symm, fun v hv => (by cases hv)⟩
    · rw [if_neg hk]
      refine ⟨fun h => (by cases h), fun v hv => ?_⟩
      injection hv with hv
      subst hv
      exact ⟨_, except_map_ok (hdeps p.Dependencies), rfl⟩
  case subtoolRequired =>
    simp only [encodedField, sameAt, reloaded]
    cases hs : p.SubtoolRequired with
    | false => exact ⟨fun _ => rfl, fun v hv => (by simp at hv)⟩
    | true =>
      refine ⟨fun h => (by simp at h), fun v hv => ?_⟩
      simp only [if_true, Option.some.injEq] at hv
      subst hv
      rw [hbool]
      exact ⟨_, rfl, rfl⟩
  case license =>
    simp only [encodedField, sameAt, reloaded]
    refine ⟨fun h => (by cases h), fun v hv => ?_⟩
    injection hv with hv
    subst hv
    rw [hstr]
    exact ⟨_, rfl, rfl⟩
  case gxVersion =>
    simp only [encodedField, sameAt, reloaded]
    refine ⟨fun h => (by cases h), fun v hv => ?_⟩
    injection hv with hv
    subst hv
    rw [hstr]
    exact ⟨_, rfl, rfl⟩
  case bugs =>
    simp only [encodedField, sameAt, reloaded]
    refine ⟨fun h => (by cases h), fun v hv => ?_⟩
    injection hv with hv
    subst hv
    rw [hbugs]
    exact ⟨_, except_map_ok (decodeBugs_encoded p.Bugs {} rfl), rfl⟩
  case gx =>
    simp only [encodedField, sameAt, reloaded]
    cases hg : p.Gx with
    | empty => exact ⟨fun _ => rfl, fun v hv => (by cases hv)⟩
    | invalid b => exact absurd hg (hvalid b)
    | valid w =>
      refine ⟨fun h => (by cases h), fun v hv => ?_⟩
      injection hv with hv
      subst hv
      exact ⟨_, rfl, rfl⟩
  all_goals
    simp only [encodedField, sameAt, reloaded]
    refine ⟨optional_string_none, ?_⟩
    intro v hv
    rw [optional_string_some hv, hstr]
    exact ⟨_, rfl, rfl⟩

/-! ### Loading a file the writer produced -/

theorem keySorted_nodup {ms : Members} (h : KeySorted ms) : (ms.map Prod.fst).Nodup := by
  induction ms with
  | nil => simp
  | cons kv rest ih =>
    rw [keySorted_cons] at h
    rw [List.map_cons, List.nodup_cons]
    refine ⟨?_, ih h.2⟩
    intro hmem
    rw [List.mem_map] at hmem
    obtain ⟨x, hx, hxk⟩ := hmem
    exact keyLt_ne (h.1 x hx) hxk.symm

theorem not_mem_of_objLookup_none {k : String} {ms : Members} (h : objLookup k ms = none) :
    ∀ x ∈ ms, x.1 ≠ k := by
  induction ms with
  | nil => intro x hx; cases hx
  | cons kv rest ih =>
    obtain ⟨k1, v1⟩ := kv
    by_cases hk : k = k1
    · simp [objLookup, hk] at h
    · simp only [objLookup, hk, if_false] at h
      intro x hx
      rcases List.mem_cons.1 hx with h1 | h1
      · rw [h1]
        exact fun e => hk e.symm
      · exact ih h x h1

theorem lastValue_eq_objLookup {ms : Members} (hnd : (ms.map Prod.fst).Nodup) (k : String) :
    lastValue k ms = objLookup k ms := by
  cases h : objLookup k ms with
  | none => exact lastValue_none_of_not_mem (not_mem_of_objLookup_none h)
  | some v => exact lastValue_of_mem hnd (mem_of_objLookup h)

theorem genericMembers_append (a b acc : Members) :
    genericMembers (a ++ b) acc = genericMembers b (genericMembers a acc) := by
  induction a generalizing acc with
  | nil => rfl
  | cons kv rest ih =>
    obtain ⟨k, v⟩ := kv
    show genericMembers ((k, v) :: (rest ++ b)) acc = _
    rw [genericMembers, genericMembers, ih]

/-- A document in which no key occurs twice, every member is unknown to the
schema or is what the encoder wrote for a field of p (passed through t), and
every field the encoder wrote is present: decoded into a new Package it
gives p back. -/
theorem decodeMembers_written (t : JSON → JSON)
    (hstr : ∀ s, t (.str s) = .str s) (hbool : ∀ b, t (.bool b) = .bool b)
    (hkw : ∀ ks : List String, t (.arr (ks.map .str)) = .arr (ks.map .str))
    (hdeps : ∀ ds : List (Option Dependency),
      decodeDeps (t (.arr (ds.map encodeDepPtr))) [] = .ok ds)
    (hbugs : ∀ b, t (encodeBugs b) = encodeBugs b)
    (p : Package) (hvalid : ∀ b, p.Gx ≠ .invalid b) (D : Members)
    (hnd : (D.map Prod.fst).Nodup)
    (hmem : ∀ x ∈ D, findField packageFields x.1 = none ∨
      ∃ f v, x.1 = fieldName f ∧ encodedField f p = some v ∧ x.2 = t v)
    (hlast : ∀ f, lastValue (fieldName f) D = (encodedField f p).map t) :
    decodeMembers D {} = .ok (reloaded t p) := by
  have hrt := roundtrip_field t hstr hbool hkw hdeps hbugs p hvalid
  have hms : ∀ x ∈ D, findField packageFields x.1 = none ∨
      ∃ f q, x.1 = fieldName f ∧ setField f x.2 ({} : Package) = .ok q := by
    intro x hx
    rcases hmem x hx with h | ⟨f, v, hxf, hv, hxv⟩
    · exact Or.inl h
    · obtain ⟨q, hq, _⟩ := (hrt f).2 v hv
      exact Or.inr ⟨f, q, hxf, by rw [hxv]; exact hq⟩
  obtain ⟨p1, hp1, hf⟩ := decodeMembers_by_key D {} hnd hms
  have hsame : ∀ f, sameAt f p1 (reloaded t p) := by
    intro f
    cases he : encodedField f p with
    | none =>
      have hl : lastValue (fieldName f) D = none := by rw [hlast, he]; rfl
      exact sameAt_trans ((hf f).1 hl) ((hrt f).1 he)
    | some v =>
      have hl : lastValue (fieldName f) D = some (t v) := by rw [hlast, he]; rfl
      obtain ⟨q, hq, hs⟩ := (hf f).2 (t v) hl
      obtain ⟨q2, hq2, hs2⟩ := (hrt f).2 v he
      rw [hq] at hq2
      injection hq2 with hq2
      subst hq2
      exact sameAt_trans hs hs2
  rw [hp1, package_ext hsame]

theorem reloaded_id (p : Package) : reloaded id p = p := by
  obtain ⟨b, g⟩ := p
  cases g <;> rfl

theorem hdeps_id (ds : List (Option Dependency)) :
    decodeDeps (id (.arr (ds.map encodeDepPtr))) [] = .ok ds :=
  decodeDepElems_of_each encodeDepPtr decodeDepPtr_encoded ds

theorem hdeps_generic (ds : List (Option Dependency)) :
    decodeDeps (generic (.arr (ds.map encodeDepPtr))) [] = .ok ds := by
  rw [generic, genericList_map]
  exact decodeDepElems_of_each (fun d => generic (encodeDepPtr d)) decodeDepPtr_encoded_generic ds

theorem hkw_generic (ks : List String) :
    generic (.arr (ks.map .str)) = .arr (ks.map .str) := by
  rw [generic, genericList_strings]

/-- LoadPackageFile on a file holding such a document gives p back. -/
theorem LoadPackageFile_written (t : JSON → JSON)
    (hstr : ∀ s, t (.str s) = .str s) (hbool : ∀ b, t (.bool b) = .bool b)
    (hkw : ∀ ks : List String, t (.arr (ks.map .str)) = .arr (ks.map .str))
    (hdeps : ∀ ds : List (Option Dependency),
      decodeDeps (t (.arr (ds.map encodeDepPtr))) [] = .ok ds)
    (hbugs : ∀ b, t (encodeBugs b) = encodeBugs b)
    (p : Package) (hvalid : ∀ b, p.Gx ≠ .invalid b) (D : Members)
    (hnd : (D.map Prod.fst).Nodup)
    (hmem : ∀ x ∈ D, findField packageFields x.1 = none ∨
      ∃ f v, x.1 = fieldName f ∧ encodedField f p = some v ∧ x.2 = t v)
    (hlast : ∀ f, lastValue (fieldName f) D = (encodedField f p).map t) :
    LoadPackageFile {} (.file (.json (.obj D))) = .ok (reloaded t p) := by
  have hb : objLookup "bugs" (genericMembers D []) = some (encodeBugs p.Bugs) := by
    have h1 := hlast .bugs
    simp only [fieldName, encodedField, Option.map_some'] at h1
    rw [objLookup_genericMembers, h1, hbugs]
    simp only [generic_encodeBugs]
  have hload : LoadPackageFile {} (.file (.json (.obj D))) = decodeMembers D {} := by
    simp only [LoadPackageFile, readFile, unmarshalMap, migrateBugs, Option.getD_some, hb,
      encodeBugs, unmarshalPackage]
  rw [hload]
  exact decodeMembers_written t hstr hbool hkw hdeps hbugs p hvalid D hnd hmem hlast

theorem encodeRaw_valid {p : Package} {gx : Members} (h : encodeRaw p.Gx = .ok gx) :
    ∀ b, p.Gx ≠ .invalid b := by
  intro b hb
  rw [hb] at h
  simp [encodeRaw] at h

/-- Loading the file a save to a new location writes. -/
theorem LoadPackageFile_new_file (p : Package) {gx : Members}
    (hgx : encodeRaw p.Gx = .ok gx) :
    LoadPackageFile {} (.file (.json (.obj (encodeBase p.toPackageBase ++ gx)))) = .ok p := by
  have h := LoadPackageFile_written id (fun _ => rfl) (fun _ => rfl) (fun _ => rfl) hdeps_id
    (fun _ => rfl) p (encodeRaw_valid hgx) (encodeBase p.toPackageBase ++ gx)
    (by rw [encodeBase_eq_fields p hgx]
        exact (keys_encodeFields_nodup p allFields allFields_nodup).1)
    (by
      intro x hx
      rw [encodeBase_eq_fields p hgx] at hx
      obtain ⟨f, _, h1, h2⟩ := (keys_encodeFields_nodup p allFields allFields_nodup).2 x hx
      exact Or.inr ⟨f, x.2, h1, h2, rfl⟩)
    (by
      intro f
      rw [lastValue_encoded f p hgx]
      cases encodedField f p <;> rfl)
  rw [reloaded_id] at h
  exact h

theorem objLookup_unknown_none {E : Members}
    (hunk : ∀ x ∈ E, findField packageFields x.1 = none) (f : PkgField) :
    objLookup (fieldName f) E = none := by
  cases h : objLookup (fieldName f) E with
  | none => rfl
  | some v =>
    have := hunk _ (mem_of_objLookup h)
    rw [findField_fieldName] at this
    cases this

theorem objLookup_serialized (f : PkgField) (p : Package) {gx : Members}
    (hgx : encodeRaw p.Gx = .ok gx) :
    objLookup (fieldName f) (genericMembers (encodeBase p.toPackageBase ++ gx) []) =
      (encodedField f p).map generic := by
  rw [objLookup_genericMembers, lastValue_encoded f p hgx]
  cases encodedField f p <;> rfl

/-- Loading the file a save over a file of unknown keys writes. -/
theorem LoadPackageFile_merged_file (p : Package) {gx : Members}
    (hgx : encodeRaw p.Gx = .ok gx) (E : Members) (hE : KeySorted E) (hEn : NormalMembers E)
    (hunk : ∀ x ∈ E, findField packageFields x.1 = none) :
    LoadPackageFile {} (.file (.json (.obj
      (mergeMaps E (genericMembers (encodeBase p.toPackageBase ++ gx) []))))) =
      .ok (reloaded generic p) := by
  generalize hS : genericMembers (encodeBase p.toPackageBase ++ gx) [] = S
  have hSwf : KeySorted S ∧ NormalMembers S := by
    rw [← hS]
    exact generic_members_wf _
  have hlookS : ∀ f, objLookup (fieldName f) S = (encodedField f p).map generic := by
    intro f
    rw [← hS]
    exact objLookup_serialized f p hgx
  have hkeyS : ∀ x ∈ S, ∃ f, x.1 = fieldName f := by
    intro x hx
    rw [← hS] at hx
    rcases key_of_mem_genericMembers _ _ hx with ⟨y, hy, hxy⟩ | h1
    · rw [← hxy]
      rcases List.mem_append.1 hy with h2 | h2
      · exact fieldName_of_schemaKey (key_of_mem_encodeBase _ h2)
      · exact fieldName_of_schemaKey (key_of_mem_encodeRaw hgx h2)
    · cases h1
  have hD := mergeMaps_normal S E hSwf.2 hE hEn
  have hlookD : ∀ f, objLookup (fieldName f) (mergeMaps E S) =
      (encodedField f p).map generic := by
    intro f
    rw [objLookup_mergeMaps _ S E hSwf.1, hlookS f, objLookup_unknown_none hunk f]
    cases encodedField f p with
    | none => rfl
    | some v => simp only [Option.map_some', mergeValue_none]
  apply LoadPackageFile_written generic (fun _ => rfl) (fun _ => rfl) hkw_generic hdeps_generic
    generic_encodeBugs p (encodeRaw_valid hgx) (mergeMaps E S) (keySorted_nodup hD.1)
  · intro x hx
    have hx1 := objLookup_of_mem hD.1 (show (x.1, x.2) ∈ mergeMaps E S from hx)
    rw [objLookup_mergeMaps _ S E hSwf.1] at hx1
    cases hl : objLookup x.1 S with
    | none =>
      rw [hl] at hx1
      exact Or.inl (hunk _ (mem_of_objLookup hx1))
    | some w =>
      obtain ⟨f, hf⟩ := hkeyS _ (mem_of_objLookup hl)
      simp only at hf
      have h2 := hlookD f
      rw [← hf, objLookup_of_mem hD.1 (show (x.1, x.2) ∈ mergeMaps E S from hx)] at h2
      cases he : encodedField f p with
      | none =>
        rw [he] at h2
        cases h2
      | some v =>
        rw [he] at h2
        simp only [Option.map_some', Option.some.injEq] at h2
        exact Or.inr ⟨f, v, hf, he, h2⟩
  · intro f
    rw [lastValue_eq_objLookup (keySorted_nodup hD.1), hlookD f]

theorem serializedMap_reloaded (t : JSON → JSON) (ht : ∀ v, generic (t v) = generic v)
    (p : Package) : serializedMap (reloaded t p) = serializedMap p := by
  obtain ⟨b, g⟩ := p
  cases g with
  | empty => rfl
  | invalid s => rfl
  | valid v =>
    have h1 : ∀ w, serializedMap { toPackageBase := b, Gx := .valid w } =
        .ok (some (objInsert "gx" (generic w) (genericMembers (encodeBase b) []))) := by
      intro w
      show Except.ok (some (genericMembers (encodeBase b ++ [("gx", w)]) [])) = _
      rw [genericMembers_append]
      rfl
    show serializedMap { toPackageBase := b, Gx := .valid (t v) } = _
    rw [h1, h1, ht]

theorem SavePackageFile_no_faults {pkg : Package} {slot : Slot} {cur : Members}
    {m : Option Members} (hcur : decodedContent slot = some (.obj cur))
    (hser : serializedMap pkg = .ok m) : (SavePackageFile {} pkg slot).1 = none := by
  obtain ⟨ms, hslot, _⟩ := decodedContent_obj hcur
  subst hslot
  simp only [SavePackageFile, readFile, unmarshalMap, hser, writeJson, encode]

theorem mergeMaps_self {S : Members} (hS : KeySorted S) (hSn : NormalMembers S) :
    mergeMaps S S = S :=
  mergeMaps_self_of_members hS hSn (mergeValue_self_members S hSn)

theorem SavePackageFile_new_ok {io : Faults} {p : Package}
    (hsave : (SavePackageFile io p .absent).1 = none) :
    ∃ gx, encodeRaw p.Gx = .ok gx ∧
      (SavePackageFile io p .absent).2 =
        .file (.json (.obj (encodeBase p.toPackageBase ++ gx))) := by
  have hrun : SavePackageFile io p .absent = writeJson io (.package p) .absent := rfl
  rw [hrun] at hsave ⊢
  unfold writeJson at hsave ⊢
  cases hc : io.create with
  | some e => simp [hc] at hsave
  | none =>
    simp only [hc] at hsave ⊢
    cases hg : encodeRaw p.Gx with
    | error e =>
      have he : encode (.package p) = .error e := by
        simp only [encode, encodePackage, hg]
      simp [he] at hsave
    | ok gx =>
      have he : encode (.package p) = .ok (.obj (encodeBase p.toPackageBase ++ gx)) := by
        simp only [encode, encodePackage, hg]
      simp only [he] at hsave ⊢
      cases hw : io.write with
      | some e => simp [hw] at hsave
      | none => exact ⟨gx, rfl, rfl⟩

/-! ### Loading and saving back -/

theorem LoadPackageFile_eq_decode (pkg0 : Package) (ms : Members) :
    LoadPackageFile pkg0 (.file (.json (.obj ms))) = decodeMembers (loadedMembers ms) pkg0 := by
  simp only [LoadPackageFile, readFile, unmarshalMap, migrateBugs, Option.getD_some,
    loadedMembers]
  cases objLookup "bugs" (genericMembers ms []) with
  | none => rfl
  | some v => cases v <;> rfl

theorem setField_gx_valid {f : PkgField} {v : JSON} {p p1 : Package}
    (h : setField f v p = .ok p1) (hp : ∀ b, p.Gx ≠ .invalid b) : ∀ b, p1.Gx ≠ .invalid b := by
  by_cases hf : f = .gx
  · subst hf
    simp only [setField, Except.ok.injEq] at h
    rw [← h]
    intro b hb
    cases hb
  · have hs : sameAt .gx p1 p := setField_frame h (fun e => hf e.symm)
    have hs2 : p1.Gx = p.Gx := hs
    rw [hs2]
    exact hp

theorem decodeMembers_gx_valid (ms : Members) {p p1 : Package}
    (h : decodeMembers ms p = .ok p1) (hp : ∀ b, p.Gx ≠ .invalid b) :
    ∀ b, p1.Gx ≠ .invalid b := by
  induction ms generalizing p with
  | nil =>
    simp only [decodeMembers, Except.ok.injEq] at h
    rw [← h]
    exact hp
  | cons kv rest ih =>
    obtain ⟨k, v⟩ := kv
    cases hf : findField packageFields k with
    | none =>
      rw [decodeMembers_cons_none v _ p hf] at h
      exact ih h hp
    | some f =>
      cases hs : setField f v p with
      | error e =>
        rw [decodeMembers_cons_error _ hf hs] at h
        cases h
      | ok p2 =>
        rw [decodeMembers_cons_ok _ hf hs] at h
        exact ih h (setField_gx_valid hs hp)

/-- A manifest that was loaded into a new Package can be serialized. -/
theorem serializedMap_of_valid {pkg : Package} (hp : ∀ b, pkg.Gx ≠ .invalid b) :
    ∃ inc, serializedMap pkg = .ok (some inc) := by
  cases hg : encodeRaw pkg.Gx with
  | error e =>
    cases hx : pkg.Gx with
    | invalid b => exact absurd hx (hp b)
    | empty => rw [hx] at hg; simp [encodeRaw] at hg
    | valid v => rw [hx] at hg; simp [encodeRaw] at hg
  | ok gx =>
    exact ⟨genericMembers (encodeBase pkg.toPackageBase ++ gx) [],
      by simp only [serializedMap, encodePackage, hg, unmarshalMap]⟩

theorem gx_valid_of_load {ms : Members} {pkg : Package}
    (h : LoadPackageFile {} (.file (.json (.obj ms))) = .ok pkg) :
    ∀ b, pkg.Gx ≠ .invalid b := by
  rw [LoadPackageFile_eq_decode] at h
  exact decodeMembers_gx_valid _ h (by intro b hb; cases hb)

/-- Loading a legacy file: the statement of the load for a bugs string, kept
for the properties of a load followed by a save. -/
theorem LoadPackageFile_legacy (pkg0 : Package) (ms : Members) (s : String)
    (hbugs : objLookup "bugs" (genericMembers ms []) = some (.str s))
    (hfit : ∀ x ∈ genericMembers ms [], x.1 ≠ "bugs" →
      memberFits x = true ∧ findField packageFields x.1 ≠ some .bugs) :
    ∃ pkg, LoadPackageFile pkg0 (.file (.json (.obj ms))) = .ok pkg ∧ pkg.Bugs.Url = s := by
  generalize hcur : genericMembers ms [] = cur at hbugs hfit
  have hsorted : KeySorted (objInsert "bugs" (.obj [("url", .str s)]) cur) := by
    rw [← hcur]
    exact objInsert_sorted _ _ _ (generic_members_wf ms).1
  have hload : LoadPackageFile pkg0 (.file (.json (.obj ms))) =
      decodeMembers (objInsert "bugs" (.obj [("url", .str s)]) cur) pkg0 := by
    rw [LoadPackageFile_eq_decode]
    simp only [loadedMembers, hcur, hbugs]
  rw [hload]
  have hmem : (("bugs", JSON.obj [("url", .str s)]) : String × JSON) ∈
      objInsert "bugs" (.obj [("url", .str s)]) cur :=
    mem_of_objLookup (objLookup_objInsert_self _ _ _)
  obtain ⟨A, C, hM⟩ := List.append_of_mem hmem
  have hother : ∀ x, x ∈ A ∨ x ∈ C → x.1 ≠ "bugs" → x ∈ cur := by
    intro x hx hne
    have hxM : x ∈ objInsert "bugs" (.obj [("url", .str s)]) cur := by
      rw [hM]
      rcases hx with hx | hx
      · exact List.mem_append_left _ hx
      · exact List.mem_append_right _ (List.mem_cons_of_mem _ hx)
    rcases mem_objInsert hxM with h | h
    · exact absurd (by rw [h]) hne
    · exact h
  rw [hM] at hsorted
  have hsplit := List.pairwise_append.1 hsorted
  have hA : ∀ x ∈ A, memberFits x = true ∧ findField packageFields x.1 ≠ some .bugs := by
    intro x hx
    have hne : x.1 ≠ "bugs" :=
      keyLt_ne (hsplit.2.2 x hx ("bugs", _) (List.mem_cons_self _ _))
    exact hfit x (hother x (Or.inl hx) hne) hne
  have hC : ∀ x ∈ C, memberFits x = true ∧ findField packageFields x.1 ≠ some .bugs := by
    intro x hx
    have hlt := (keySorted_cons.1 hsplit.2.1).1 x hx
    have hne : x.1 ≠ "bugs" := fun e => keyLt_ne hlt e.symm
    exact hfit x (hother x (Or.inr hx) hne) hne
  obtain ⟨p1, hp1, _⟩ := decodeMembers_keeps_bugs A hA pkg0
  obtain ⟨p2, hp2, hb2⟩ := decodeMembers_keeps_bugs C hC
    { p1 with Bugs := { p1.Bugs with Url := s } }
  refine ⟨p2, ?_, by rw [hb2]⟩
  rw [hM, decodeMembers_append, hp1]
  simp only []
  rw [decodeMembers_cons_ok _ findField_bugs (setField_bugs_url s p1), hp2]

/-- The bugs value after saving a manifest over a file whose bugs is not an
object: the object the encoder writes for Bugs. -/
theorem objLookup_bugs_after_save {io : Faults} {pkg : Package} {slot : Slot} {cur : Members}
    {s : String} (hcur : decodedContent slot = some (.obj cur))
    (hbugs : objLookup "bugs" cur = some (.str s))
    (hsave : (SavePackageFile io pkg slot).1 = none) :
    ∃ out, decodedContent (SavePackageFile io pkg slot).2 = some (.obj out) ∧
      objLookup "bugs" out = some (encodeBugs pkg.Bugs) := by
  obtain ⟨inc, hser, _, hout⟩ := SavePackageFile_merge_ok hcur hsave
  obtain ⟨gx, hgx, hinc⟩ := serializedMap_ok hser
  simp only [Option.some.injEq] at hinc
  refine ⟨mergeMaps cur inc, hout, ?_⟩
  have hl : objLookup "bugs" inc = some (encodeBugs pkg.Bugs) := by
    have := objLookup_serialized .bugs pkg hgx
    rw [← hinc] at this
    simpa only [fieldName, encodedField, Option.map_some', generic_encodeBugs] using this
  rw [objLookup_mergeMaps _ inc cur (serializedMap_normal hser).1, hl, hbugs]
  rfl

theorem bugsObj_of_url {b : BugsObj} {s : String} (h : b.Url = s) : b = { Url := s } := by
  obtain ⟨u⟩ := b
  simp only at h
  rw [h]

/-! ### The gx payload through a load and a save -/

theorem lastValue_cons_ne {k k1 : String} (v1 : JSON) (rest : Members) (h : k ≠ k1) :
    lastValue k ((k1, v1) :: rest) = lastValue k rest := by
  rw [lastValue]
  cases lastValue k rest <;> simp [h]

/-- What the strict decode leaves in Gx: the text of the last member named gx,
when gx is the only spelling of that key in the document. -/
theorem decodeMembers_gx (ms : Members) {p p1 : Package}
    (h : decodeMembers ms p = .ok p1)
    (halias : ∀ x ∈ ms, findField packageFields x.1 = some .gx → x.1 = "gx") :
    p1.Gx = match lastValue "gx" ms with
      | some w => .valid w
      | none => p.Gx := by
  induction ms generalizing p with
  | nil =>
    simp only [decodeMembers, Except.ok.injEq] at h
    rw [← h]
    rfl
  | cons kv rest ih =>
    obtain ⟨k, v⟩ := kv
    have hrest : ∀ x ∈ rest, findField packageFields x.1 = some .gx → x.1 = "gx" :=
      fun x hx => halias x (List.mem_cons_of_mem _ hx)
    have hk := halias (k, v) (List.mem_cons_self _ _)
    cases hf : findField packageFields k with
    | none =>
      rw [decodeMembers_cons_none v _ p hf] at h
      have hne : "gx" ≠ k := by
        intro e
        rw [← e] at hf
        have : findField packageFields "gx" = some .gx := by decide
        rw [this] at hf
        cases hf
      rw [lastValue_cons_ne v rest hne]
      exact ih h hrest
    | some f =>
      cases hs : setField f v p with
      | error e =>
        rw [decodeMembers_cons_error _ hf hs] at h
        cases h
      | ok p2 =>
        rw [decodeMembers_cons_ok _ hf hs] at h
        have ih1 := ih h hrest
        by_cases hfg : f = .gx
        · subst hfg
          have hkgx : k = "gx" := hk hf
          subst hkgx
          have hp2 : p2.Gx = .valid v := by
            simp only [setField, Except.ok.injEq] at hs
            rw [← hs]
          rw [ih1, lastValue]
          cases lastValue "gx" rest with
          | some w => rfl
          | none => simp [hp2]
        · have hne : "gx" ≠ k := by
            intro e
            rw [← e] at hf
            have : findField packageFields "gx" = some .gx := by decide
            rw [this] at hf
            injection hf with hf
            exact hfg hf.symm
          have hp2 : p2.Gx = p.Gx := (setField_frame hs (fun e => hfg e.symm) : sameAt .gx p2 p)
          rw [lastValue_cons_ne v rest hne, ih1, hp2]

theorem lastValue_isSome_of_mem {k : String} {ms : Members} (h : ∃ x ∈ ms, x.1 = k) :
    ∃ w, lastValue k ms = some w := by
  induction ms with
  | nil =>
    obtain ⟨x, hx, _⟩ := h
    cases hx
  | cons kv rest ih =>
    obtain ⟨k1, v1⟩ := kv
    rw [lastValue]
    cases hl : lastValue k rest with
    | some w => exact ⟨w, rfl⟩
    | none =>
      obtain ⟨x, hx, hxk⟩ := h
      rcases List.mem_cons.1 hx with h1 | h1
      · have : k = k1 := by rw [← hxk, h1]
        exact ⟨v1, by simp [this]⟩
      · obtain ⟨w, hw⟩ := ih ⟨x, h1, hxk⟩
        rw [hl] at hw
        cases hw

/-- Every key of a document is a key of the map it decodes to. -/
theorem key_in_genericMembers {ms : Members} {x : String × JSON} (hx : x ∈ ms) :
    ∃ y ∈ genericMembers ms [], y.1 = x.1 := by
  obtain ⟨w, hw⟩ := lastValue_isSome_of_mem ⟨x, hx, rfl⟩
  have h := objLookup_genericMembers x.1 ms []
  rw [hw] at h
  exact ⟨(x.1, generic w), mem_of_objLookup h, rfl⟩

/-- The raw payload a load leaves in Gx, when the file has a gx key and no
other spelling of it: a text that decodes to the value the file has under
gx. -/
theorem gx_of_load {ms : Members} {pkg : Package} {v : JSON}
    (hgx : objLookup "gx" (genericMembers ms []) = some v)
    (halias : ∀ x ∈ genericMembers ms [], findField packageFields x.1 = some .gx → x.1 = "gx")
    (hload : LoadPackageFile {} (.file (.json (.obj ms))) = .ok pkg) :
    ∃ w, pkg.Gx = .valid w ∧ generic w = v := by
  rw [LoadPackageFile_eq_decode] at hload
  have hwf := generic_members_wf ms
  generalize hcur : genericMembers ms [] = cur at hgx halias hwf
  have hvn : Normal v := (normalMembers_iff cur).1 hwf.2 ("gx", v) (mem_of_objLookup hgx)
  unfold loadedMembers at hload
  rw [hcur] at hload
  have hdirect : decodeMembers ms {} = .ok pkg → ∃ w, pkg.Gx = .valid w ∧ generic w = v := by
    intro hd
    have hal : ∀ x ∈ ms, findField packageFields x.1 = some .gx → x.1 = "gx" := by
      intro x hx hf
      obtain ⟨y, hy, hyx⟩ := key_in_genericMembers hx
      rw [hcur] at hy
      rw [← hyx] at hf ⊢
      exact halias y hy hf
    have hg := decodeMembers_gx ms hd hal
    have hl := objLookup_genericMembers "gx" ms []
    rw [hcur, hgx] at hl
    cases hlast : lastValue "gx" ms with
    | none => rw [hlast] at hl; cases hl
    | some w =>
      rw [hlast] at hl hg
      simp only [Option.some.injEq] at hl
      exact ⟨w, hg, hl.symm⟩
  cases hb : objLookup "bugs" cur with
  | none =>
    rw [hb] at hload
    exact hdirect hload
  | some b =>
    rw [hb] at hload
    cases b with
    | str u =>
      simp only [] at hload
      have hsorted : KeySorted (objInsert "bugs" (.obj [("url", .str u)]) cur) :=
        objInsert_sorted _ _ _ hwf.1
      have hal : ∀ x ∈ objInsert "bugs" (.obj [("url", .str u)]) cur,
          findField packageFields x.1 = some .gx → x.1 = "gx" := by
        intro x hx hf
        rcases mem_objInsert hx with h1 | h1
        · rw [h1] at hf
          have : findField packageFields "bugs" = some .bugs := by decide
          simp only [this, Option.some.injEq] at hf
          cases hf
        · exact halias x h1 hf
      have hg := decodeMembers_gx _ hload hal
      have hl : lastValue "gx" (objInsert "bugs" (.obj [("url", .str u)]) cur) = some v := by
        rw [lastValue_eq_objLookup (keySorted_nodup hsorted),
          objLookup_objInsert_other _ _ (by decide), hgx]
      rw [hl] at hg
      exact ⟨v, hg, generic_of_normal v hvn⟩
    | null => exact hdirect hload
    | bool _ => exact hdirect hload
    | num _ => exact hdirect hload
    | arr _ => exact hdirect hload
    | obj _ => exact hdirect hload

/-! ### The bytes writeJson writes -/

theorem writeJsonBytes_of_ok (layout : JSON → String) {io : Faults} {i : Encodable}
    {slot : Slot} (h : (writeJson io i slot).1 = none) :
    ∃ doc, (writeJson io i slot).2 = .file (.json doc) ∧
      writeJsonBytes layout io i = some (layout doc ++ "\n" ++ "\n") := by
  unfold writeJson at h ⊢
  unfold writeJsonBytes encoderEncode
  cases hc : io.create with
  | some e => simp [hc] at h
  | none =>
    simp only [hc] at h ⊢
    cases he : encode i with
    | error e => simp [he] at h
    | ok doc =>
      simp only [he] at h ⊢
      cases hw : io.write with
      | some e => simp [hw] at h
      | none => exact ⟨doc, rfl, rfl⟩

/-- Every successful SavePackageFile leaves in the file the laid-out document
followed by two newline characters: the one Encode appends, which Indent
copies, and the one writeJson writes itself. -/
theorem SavePackageFileBytes_of_ok (layout : JSON → String) {io : Faults} {pkg : Package}
    {slot : Slot} (h : (SavePackageFile io pkg slot).1 = none) :
    ∃ doc, (SavePackageFile io pkg slot).2 = .file (.json doc) ∧
      SavePackageFileBytes layout io pkg slot = some (layout doc ++ "\n" ++ "\n") := by
  unfold SavePackageFile at h ⊢
  unfold SavePackageFileBytes
  cases hr : readFile slot with
  | error err =>
    simp only [hr] at h ⊢
    cases hn : err.isNotExist with
    | false => simp [hn] at h
    | true =>
      simp only [hn, if_true] at h ⊢
      exact writeJsonBytes_of_ok layout h
  | ok data =>
    simp only [hr] at h ⊢
    cases hu : unmarshalMap data with
    | error e => simp [hu] at h
    | ok cur =>
      simp only [hu] at h ⊢
      cases hs : serializedMap pkg with
      | error e => simp [hs] at h
      | ok inc =>
        simp only [hs] at h ⊢
        exact writeJsonBytes_of_ok layout h

theorem append_newline_ne (t : String) : t ++ "\n" ++ "\n" ≠ t ++ "\n" := by
  intro h
  have hl := congrArg String.length h
  simp only [String.length_append] at hl
  have : ("\n" : String).length = 1 := by decide
  omega

/-! # The claims -/

/-! ## C1. FindDep -/

/-- C1: on a manifest whose dependency entries are all non-nil, FindDep(ref)
returns the first entry in declared order whose hash or name equals ref when
there is one, and returns absent when no entry matches. -/
theorem FindDep_first_match (pkg : PackageBase) (ref : String)
    (hnil : ∀ e ∈ pkg.Dependencies, e ≠ none) :
    (∀ pre d post, pkg.Dependencies = pre ++ some d :: post →
      (d.Hash = ref ∨ d.Name = ref) →
      (∀ d0, some d0 ∈ pre → ¬(d0.Hash = ref ∨ d0.Name = ref)) →
      FindDep pkg ref = .returned (some d)) ∧
    ((∃ d0, some d0 ∈ pkg.Dependencies ∧ (d0.Hash = ref ∨ d0.Name = ref)) →
      ∃ pre d post, pkg.Dependencies = pre ++ some d :: post ∧
        (d.Hash = ref ∨ d.Name = ref) ∧
        (∀ d0, some d0 ∈ pre → ¬(d0.Hash = ref ∨ d0.Name = ref)) ∧
        FindDep pkg ref = .returned (some d)) ∧
    ((∀ d0, some d0 ∈ pkg.Dependencies → ¬(d0.Hash = ref ∨ d0.Name = ref)) →
      FindDep pkg ref = .returned none) := by
  have hfirst : ∀ pre d post, pkg.Dependencies = pre ++ some d :: post →
      (d.Hash = ref ∨ d.Name = ref) →
      (∀ d0, some d0 ∈ pre → ¬(d0.Hash = ref ∨ d0.Name = ref)) →
      FindDep pkg ref = .returned (some d) := by
    intro pre d post hsplit hd hno
    have hpre : ∀ e ∈ pre, e ≠ none := fun e he =>
      hnil e (by rw [hsplit]; exact List.mem_append_left _ he)
    unfold FindDep
    rw [hsplit, findDepLoop_skip ref pre _ hpre hno]
    simp only [findDepLoop, if_pos hd]
  refine ⟨hfirst, ?_, ?_⟩
  · rintro ⟨d0, hmem, hmatch⟩
    rcases split_first_match ref pkg.Dependencies hnil with hno | ⟨pre, d, post, hs, hm, _, hno⟩
    · exact absurd hmatch (hno d0 hmem)
    · exact ⟨pre, d, post, hs, hm, hno, hfirst pre d post hs hm hno⟩
  · intro hno
    exact findDepLoop_none ref _ hnil hno

/-- C1 at the example of the specification: with dependencies a (H1) and
b (H2), FindDep of H2 and of b return the second entry, FindDep of zzz
returns absent. -/
theorem FindDep_first_match_witness :
    (∀ e ∈ exampleDeps.Dependencies, e ≠ none) ∧
    FindDep exampleDeps "H2" = .returned (some { Name := "b", Hash := "H2" }) ∧
    FindDep exampleDeps "b" = .returned (some { Name := "b", Hash := "H2" }) ∧
    FindDep exampleDeps "zzz" = .returned none :=
  ⟨by decide,
   (FindDep_first_match exampleDeps "H2" (by decide)).1
     [some { Name := "a", Hash := "H1" }] { Name := "b", Hash := "H2" } [] rfl (by decide)
     (by simp),
   (FindDep_first_match exampleDeps "b" (by decide)).1
     [some { Name := "a", Hash := "H1" }] { Name := "b", Hash := "H2" } [] rfl (by decide)
     (by simp),
   (FindDep_first_match exampleDeps "zzz" (by decide)).2.2 (by simp [exampleDeps])⟩

/-! ## C2. FindDep, hash and name -/

/-- C2, refuted as stated: in collidingDeps the second dependency has hash X,
yet FindDep of X returns the first dependency, matched by its name, whose
hash is H1. -/
theorem FindDep_hash_not_authoritative :
    (∀ e ∈ collidingDeps.Dependencies, e ≠ none) ∧
    (∃ d, some d ∈ collidingDeps.Dependencies ∧ d.Hash = "X") ∧
    FindDep collidingDeps "X" = .returned (some { Name := "X", Hash := "H1" }) ∧
    ¬ ∃ d, FindDep collidingDeps "X" = .returned (some d) ∧ d.Hash = "X" := by
  refine ⟨by decide, ⟨{ Name := "b", Hash := "X" }, by decide, rfl⟩, by decide, ?_⟩
  rintro ⟨d, hd, hh⟩
  have h1 : FindDep collidingDeps "X" = .returned (some { Name := "X", Hash := "H1" }) := by
    decide
  rw [h1] at hd
  injection hd with hd
  injection hd with hd
  rw [← hd] at hh
  exact absurd hh (by decide)

/-- C2, amended: when some dependency has hash ref, FindDep(ref) returns the
first entry in declared order whose hash or name equals ref; no entry before
it has hash ref, and its own hash is ref whenever no dependency is named ref
without also having hash ref. -/
theorem FindDep_hash_match (pkg : PackageBase) (ref : String)
    (hnil : ∀ e ∈ pkg.Dependencies, e ≠ none)
    (hex : ∃ d, some d ∈ pkg.Dependencies ∧ d.Hash = ref) :
    ∃ pre d post, pkg.Dependencies = pre ++ some d :: post ∧
      FindDep pkg ref = .returned (some d) ∧
      (d.Hash = ref ∨ d.Name = ref) ∧
      (∀ d0, some d0 ∈ pre → d0.Hash ≠ ref ∧ d0.Name ≠ ref) ∧
      ((∀ d0, some d0 ∈ pkg.Dependencies → d0.Name = ref → d0.Hash = ref) → d.Hash = ref) := by
  rcases split_first_match ref pkg.Dependencies hnil with hno | ⟨pre, d, post, hs, hm, hn, hno⟩
  · rcases hex with ⟨d, hd, hh⟩
    exact absurd (Or.inl hh) (hno d hd)
  · refine ⟨pre, d, post, hs, ?_, hm, ?_, ?_⟩
    · unfold FindDep
      rw [hs, findDepLoop_skip ref pre _ hn hno]
      simp only [findDepLoop, if_pos hm]
    · intro d0 h0
      have := hno d0 h0
      exact ⟨fun h => this (Or.inl h), fun h => this (Or.inr h)⟩
    · intro hname
      rcases hm with h | h
      · exact h
      · exact hname d (by rw [hs]; exact List.mem_append_right _ (List.mem_cons_self _ _)) h

/-- C2 amended, at the example manifest and the identifier H2. -/
theorem FindDep_hash_match_witness :
    (∀ e ∈ exampleDeps.Dependencies, e ≠ none) ∧
    (∃ d, some d ∈ exampleDeps.Dependencies ∧ d.Hash = "H2") ∧
    ∃ pre d post, exampleDeps.Dependencies = pre ++ some d :: post ∧
      FindDep exampleDeps "H2" = .returned (some d) ∧
      (d.Hash = "H2" ∨ d.Name = "H2") ∧
      (∀ d0, some d0 ∈ pre → d0.Hash ≠ "H2" ∧ d0.Name ≠ "H2") ∧
      ((∀ d0, some d0 ∈ exampleDeps.Dependencies → d0.Name = "H2" → d0.Hash = "H2") →
        d.Hash = "H2") :=
  ⟨by decide, ⟨{ Name := "b", Hash := "H2" }, by decide, rfl⟩,
   FindDep_hash_match exampleDeps "H2" (by decide) ⟨{ Name := "b", Hash := "H2" }, by decide, rfl⟩⟩

/-! ## C3. ForEachDep: not found -/

/-- C3: when Resolver and callback succeed on the entries before index i and
the Resolver reports not-found for entry i, ForEachDep returns the error
"package NAME (HASH) not found" built from that entry, and its trace is the
successful steps on entries 0..i-1 followed by the one failed Resolver call:
the callback ran exactly on entries 0..i-1, in order, and on nothing else. -/
theorem ForEachDep_not_found {σ : Type} (loadPackage : LoadPackageFn σ) (cb : DepCallback σ)
    (pkg : PackageBase) (pre : List Dependency) (d : Dependency)
    (post : List (Option Dependency)) (s s1 s2 : σ) (pkgs : List Package) (err : GoError)
    (hdeps : pkg.Dependencies = pre.map some ++ some d :: post)
    (hpre : AllSucceed loadPackage cb pkg.Language (pre.map some) s s1 pkgs)
    (hload : loadPackage s1 pkg.Language d.Hash = (.error err, s2))
    (hne : err.isNotExist = true) :
    (ForEachDep loadPackage pkg cb s).result =
      .returned (some (.errorf ("package " ++ d.Name ++ " (" ++ d.Hash ++ ") not found"))) ∧
    (ForEachDep loadPackage pkg cb s).world = s2 ∧
    (ForEachDep loadPackage pkg cb s).trace =
      successTrace pkg.Language pre pkgs ++ [.resolve pkg.Language d.Hash (.error err)] ∧
    callbackArgs (ForEachDep loadPackage pkg cb s).trace = pre.zip pkgs ∧
    pkgs.length = pre.length := by
  have h := forEachDepLoop_after_success loadPackage cb pkg.Language pre (some d :: post) s s1
    pkgs hpre
  have hstep : forEachDepLoop loadPackage cb pkg.Language (some d :: post) s1 =
      ⟨.returned (some (.errorf ("package " ++ d.Name ++ " (" ++ d.Hash ++ ") not found"))),
        s2, [.resolve pkg.Language d.Hash (.error err)]⟩ := by
    simp only [forEachDepLoop, hload, hne, if_true]
  unfold ForEachDep
  rw [hdeps, h.2, hstep]
  refine ⟨rfl, rfl, rfl, ?_, h.1⟩
  simp [callbackArgs_append, callbackArgs_successTrace, callbackArgs]

/-- C3 at threeDeps: the Resolver does not find b (H2); the error names b and
H2, and the callback ran on a only. -/
theorem ForEachDep_not_found_witness :
    (ForEachDep exampleResolver threeDeps exampleCallback 0).result =
      .returned (some (.errorf "package b (H2) not found")) ∧
    callbackArgs (ForEachDep exampleResolver threeDeps exampleCallback 0).trace =
      [({ Name := "a", Hash := "H1" }, { Name := "H1" })] :=
  have h := ForEachDep_not_found exampleResolver exampleCallback threeDeps
    [{ Name := "a", Hash := "H1" }] { Name := "b", Hash := "H2" }
    [some { Name := "c", Hash := "H4" }] 0 11 12 [{ Name := "H1" }] (.notExist "no such file")
    rfl (.cons rfl rfl (.nil 11)) rfl rfl
  ⟨h.1, h.2.2.2.1⟩

/-! ## C4. ForEachDep: other failures -/

/-- C4: when Resolver and callback succeed on the entries before index i and
step i fails, either by a Resolver error that is not a not-found signal or by
a callback error, ForEachDep returns exactly that error value, and its trace
ends with the failing step: the Resolver was called on entries 0..i only and
the callback on no entry after i. -/
theorem ForEachDep_error_unchanged {σ : Type} (loadPackage : LoadPackageFn σ)
    (cb : DepCallback σ) (pkg : PackageBase) (pre : List Dependency) (d : Dependency)
    (post : List (Option Dependency)) (s s1 s2 : σ) (pkgs : List Package) (err : GoError)
    (hdeps : pkg.Dependencies = pre.map some ++ some d :: post)
    (hpre : AllSucceed loadPackage cb pkg.Language (pre.map some) s s1 pkgs)
    (hfail : (loadPackage s1 pkg.Language d.Hash = (.error err, s2) ∧ err.isNotExist = false) ∨
      ∃ p sm, loadPackage s1 pkg.Language d.Hash = (.ok p, sm) ∧ cb sm d p = (some err, s2)) :
    (ForEachDep loadPackage pkg cb s).result = .returned (some err) ∧
    (ForEachDep loadPackage pkg cb s).world = s2 ∧
    ((ForEachDep loadPackage pkg cb s).trace =
        successTrace pkg.Language pre pkgs ++ [.resolve pkg.Language d.Hash (.error err)] ∨
      ∃ p, (ForEachDep loadPackage pkg cb s).trace =
        successTrace pkg.Language pre pkgs ++
          [.resolve pkg.Language d.Hash (.ok p), .callback d p (some err)]) ∧
    resolveArgs (ForEachDep loadPackage pkg cb s).trace =
      (pre ++ [d]).map (fun x => (pkg.Language, x.Hash)) ∧
    (callbackArgs (ForEachDep loadPackage pkg cb s).trace = pre.zip pkgs ∨
      ∃ p, callbackArgs (ForEachDep loadPackage pkg cb s).trace = pre.zip pkgs ++ [(d, p)]) := by
  have h := forEachDepLoop_after_success loadPackage cb pkg.Language pre (some d :: post) s s1
    pkgs hpre
  have hr := resolveArgs_successTrace pkg.Language pre pkgs h.1
  have hc := callbackArgs_successTrace pkg.Language pre pkgs
  unfold ForEachDep
  rw [hdeps, h.2]
  rcases hfail with ⟨hload, hne⟩ | ⟨p, sm, hload, hcb⟩
  · have hstep : forEachDepLoop loadPackage cb pkg.Language (some d :: post) s1 =
        ⟨.returned (some err), s2, [.resolve pkg.Language d.Hash (.error err)]⟩ := by
      simp [forEachDepLoop, hload, hne]
    rw [hstep]
    refine ⟨rfl, rfl, Or.inl rfl, ?_, Or.inl ?_⟩
    · simp [resolveArgs_append, hr, resolveArgs]
    · simp [callbackArgs_append, hc, callbackArgs]
  · have hstep : forEachDepLoop loadPackage cb pkg.Language (some d :: post) s1 =
        ⟨.returned (some err), s2,
          [.resolve pkg.Language d.Hash (.ok p), .callback d p (some err)]⟩ := by
      simp only [forEachDepLoop, hload, hcb]
    rw [hstep]
    refine ⟨rfl, rfl, Or.inr ⟨p, rfl⟩, ?_, Or.inr ⟨p, ?_⟩⟩
    · simp [resolveArgs_append, hr, resolveArgs]
    · simp [callbackArgs_append, hc, callbackArgs]

/-- C4 at badCallbackDeps: the callback fails on the second dependency; that
error comes back unchanged and the Resolver was never asked for c (H4). -/
theorem ForEachDep_error_unchanged_witness :
    (ForEachDep exampleResolver badCallbackDeps exampleCallback 0).result =
      .returned (some (.failure "callback failed")) ∧
    resolveArgs (ForEachDep exampleResolver badCallbackDeps exampleCallback 0).trace =
      [("go", "H1"), ("go", "H5")] :=
  have h := ForEachDep_error_unchanged exampleResolver exampleCallback badCallbackDeps
    [{ Name := "a", Hash := "H1" }] { Name := "bad", Hash := "H5" }
    [some { Name := "c", Hash := "H4" }] 0 11 22 [{ Name := "H1" }] (.failure "callback failed")
    rfl (.cons rfl rfl (.nil 11)) (Or.inr ⟨{ Name := "H5" }, 12, rfl, rfl⟩)
  ⟨h.1, h.2.2.2.1⟩

/-! ## C5. ForEachDep: success -/

/-- C5: when Resolver and callback succeed on every entry d_0..d_(n-1),
ForEachDep returns success; its trace is, per entry in declared order, one
Resolver call with the manifest's language tag and that entry's hash followed
by one callback call with that entry and the manifest the Resolver just
produced: n Resolver calls and n callback calls, equal hashes included. -/
theorem ForEachDep_success {σ : Type} (loadPackage : LoadPackageFn σ) (cb : DepCallback σ)
    (pkg : PackageBase) (ds : List Dependency) (s s1 : σ) (pkgs : List Package)
    (hdeps : pkg.Dependencies = ds.map some)
    (hall : AllSucceed loadPackage cb pkg.Language (ds.map some) s s1 pkgs) :
    (ForEachDep loadPackage pkg cb s).result = .returned none ∧
    (ForEachDep loadPackage pkg cb s).world = s1 ∧
    pkgs.length = ds.length ∧
    (ForEachDep loadPackage pkg cb s).trace = successTrace pkg.Language ds pkgs ∧
    resolveArgs (ForEachDep loadPackage pkg cb s).trace =
      ds.map (fun d => (pkg.Language, d.Hash)) ∧
    callbackArgs (ForEachDep loadPackage pkg cb s).trace = ds.zip pkgs := by
  have h := forEachDepLoop_after_success loadPackage cb pkg.Language ds [] s s1 pkgs hall
  have hr := resolveArgs_successTrace pkg.Language ds pkgs h.1
  have hc := callbackArgs_successTrace pkg.Language ds pkgs
  have hrun : ForEachDep loadPackage pkg cb s = ⟨.returned none, s1,
      successTrace pkg.Language ds pkgs⟩ := by
    unfold ForEachDep
    have h2 := h.2
    rw [List.append_nil] at h2
    rw [hdeps, h2]
    simp [forEachDepLoop]
  rw [hrun]
  exact ⟨rfl, rfl, h.1, rfl, hr, hc⟩

/-- C5 at diamondDeps: two dependencies share the hash H1 and the Resolver is
called once for each of them. -/
theorem ForEachDep_success_witness :
    (ForEachDep exampleResolver diamondDeps exampleCallback 0).result = .returned none ∧
    resolveArgs (ForEachDep exampleResolver diamondDeps exampleCallback 0).trace =
      [("go", "H1"), ("go", "H1")] ∧
    callbackArgs (ForEachDep exampleResolver diamondDeps exampleCallback 0).trace =
      [({ Name := "a", Hash := "H1" }, { Name := "H1" }),
       ({ Name := "c", Hash := "H1" }, { Name := "H1" })] :=
  have h := ForEachDep_success exampleResolver exampleCallback diamondDeps
    [{ Name := "a", Hash := "H1" }, { Name := "c", Hash := "H1" }] 0 22
    [{ Name := "H1" }, { Name := "H1" }] rfl (.cons rfl rfl (.cons rfl rfl (.nil 22)))
  ⟨h.1, h.2.2.2.2.1, h.2.2.2.2.2⟩

/-! ## C6. LoadPackageFile: legacy bugs -/

/-- C6: a file that decodes to a JSON object whose bugs value is the plain
string s, and whose other keys fit the schema (each has a value its field
takes and none is another spelling of bugs), is loaded without error and the
loaded manifest has Bugs.Url equal to s. -/
theorem LoadPackageFile_bugs_string (pkg0 : Package) (slot : Slot) (cur : Members)
    (s : String)
    (hcur : decodedContent slot = some (.obj cur))
    (hbugs : objLookup "bugs" cur = some (.str s))
    (hfit : ∀ x ∈ cur, x.1 ≠ "bugs" →
      memberFits x = true ∧ findField packageFields x.1 ≠ some .bugs) :
    ∃ pkg, LoadPackageFile pkg0 slot = .ok pkg ∧ pkg.Bugs.Url = s := by
  obtain ⟨ms, hslot, hms⟩ := decodedContent_obj hcur
  subst hslot
  have hsorted : KeySorted (objInsert "bugs" (.obj [("url", .str s)]) cur) := by
    rw [hms]
    exact objInsert_sorted _ _ _ (generic_members_wf ms).1
  have hload : LoadPackageFile pkg0 (.file (.json (.obj ms))) =
      decodeMembers (objInsert "bugs" (.obj [("url", .str s)]) cur) pkg0 := by
    simp only [LoadPackageFile, readFile, unmarshalMap, migrateBugs, Option.getD_some, ← hms,
      hbugs, unmarshalPackage]
  rw [hload]
  have hmem : (("bugs", JSON.obj [("url", .str s)]) : String × JSON) ∈
      objInsert "bugs" (.obj [("url", .str s)]) cur :=
    mem_of_objLookup (objLookup_objInsert_self _ _ _)
  obtain ⟨A, C, hM⟩ := List.append_of_mem hmem
  have hother : ∀ x, x ∈ A ∨ x ∈ C → x.1 ≠ "bugs" → x ∈ cur := by
    intro x hx hne
    have hxM : x ∈ objInsert "bugs" (.obj [("url", .str s)]) cur := by
      rw [hM]
      rcases hx with hx | hx
      · exact List.mem_append_left _ hx
      · exact List.mem_append_right _ (List.mem_cons_of_mem _ hx)
    rcases mem_objInsert hxM with h | h
    · exact absurd (by rw [h]) hne
    · exact h
  rw [hM] at hsorted
  have hsplit := List.pairwise_append.1 hsorted
  have hA : ∀ x ∈ A, memberFits x = true ∧ findField packageFields x.1 ≠ some .bugs := by
    intro x hx
    have hne : x.1 ≠ "bugs" :=
      keyLt_ne (hsplit.2.2 x hx ("bugs", _) (List.mem_cons_self _ _))
    exact hfit x (hother x (Or.inl hx) hne) hne
  have hC : ∀ x ∈ C, memberFits x = true ∧ findField packageFields x.1 ≠ some .bugs := by
    intro x hx
    have hlt := (keySorted_cons.1 hsplit.2.1).1 x hx
    have hne : x.1 ≠ "bugs" := fun e => keyLt_ne hlt e.symm
    exact hfit x (hother x (Or.inr hx) hne) hne
  obtain ⟨p1, hp1, _⟩ := decodeMembers_keeps_bugs A hA pkg0
  obtain ⟨p2, hp2, hb2⟩ := decodeMembers_keeps_bugs C hC
    { p1 with Bugs := { p1.Bugs with Url := s } }
  refine ⟨p2, ?_, by rw [hb2]⟩
  rw [hM, decodeMembers_append, hp1]
  simp only []
  rw [decodeMembers_cons_ok _ findField_bugs (setField_bugs_url s p1), hp2]

/-- C6 at the example of the specification: bugs given as the bare string
http://example.com is loaded as Bugs.Url. -/
theorem LoadPackageFile_bugs_string_witness :
    ∃ pkg, LoadPackageFile {} legacyFile = .ok pkg ∧ pkg.Bugs.Url = "http://example.com" :=
  LoadPackageFile_bugs_string {} legacyFile
    [("bugs", .str "http://example.com"), ("gxVersion", .str "0.12.1"),
     ("license", .str "MIT"), ("name", .str "pkg")]
    "http://example.com" (by decide) (by decide) (by decide)

/-- Why C6 asks that no other key be a spelling of bugs: encoding/json matches
keys to fields up to case folding, so a second member whose key folds to bugs
(here written with the long s, which sorts after bugs) is decoded into Bugs
as well, after the migrated one. -/
theorem LoadPackageFile_bugs_spelling_variant :
    ∃ pkg, LoadPackageFile {} aliasFile = .ok pkg ∧ pkg.Bugs.Url = "http://other.example" :=
  ⟨{ Bugs := { Url := "http://other.example" } }, by decide, rfl⟩

/-! ## C7. LoadPackageFile: a dependency without hash -/

/-- C7, refuted as stated: noHashFile is a JSON object with a gxDependencies
entry that has no hash key, and LoadPackageFile returns a manifest for it, in
which that dependency has the empty hash. -/
theorem LoadPackageFile_accepts_missing_hash :
    LoadPackageFile {} noHashFile =
      .ok { Name := "pkg", Dependencies := [some { Name := "a", Version := "1.0.0", Hash := "" }],
            License := "MIT", GxVersion := "0.12.1" } ∧
    ∀ e, LoadPackageFile {} noHashFile ≠ .error e := by
  have h : LoadPackageFile {} noHashFile =
      .ok { Name := "pkg", Dependencies := [some { Name := "a", Version := "1.0.0", Hash := "" }],
            License := "MIT", GxVersion := "0.12.1" } := by decide
  refine ⟨h, ?_⟩
  intro e he
  rw [h] at he
  cases he

/-- C7, amended: a gxDependencies entry without a hash key does not make
LoadPackageFile fail.  For a file that is a JSON object whose members all fit
the schema, whose bugs value is not a bare string, with one member for the
field Dependencies, decoded into a manifest that has no dependencies yet: the
load succeeds and an entry none of whose keys names hash is loaded as a
dependency with the empty hash. -/
theorem LoadPackageFile_missing_hash_empty (pkg0 : Package) (A C : Members) (k : String)
    (E1 E2 : List JSON) (em : Members)
    (hk : findField packageFields k = some .gxDependencies)
    (hA : ∀ x ∈ A, findField packageFields x.1 ≠ some .gxDependencies)
    (hC : ∀ x ∈ C, findField packageFields x.1 ≠ some .gxDependencies)
    (hfit : ∀ x ∈ A ++ (k, .arr (E1 ++ .obj em :: E2)) :: C, memberFits x = true)
    (hnohash : ∀ x ∈ em, findField depFields x.1 ≠ some .hash)
    (hbugs : ∀ s, objLookup "bugs"
      (genericMembers (A ++ (k, .arr (E1 ++ .obj em :: E2)) :: C) []) ≠ some (.str s))
    (hfresh : pkg0.Dependencies = []) :
    ∃ pkg d,
      LoadPackageFile pkg0 (.file (.json (.obj (A ++ (k, .arr (E1 ++ .obj em :: E2)) :: C)))) =
        .ok pkg ∧
      pkg.Dependencies.get? E1.length = some (some d) ∧ d.Hash = "" := by
  have hload : LoadPackageFile pkg0
      (.file (.json (.obj (A ++ (k, .arr (E1 ++ .obj em :: E2)) :: C)))) =
      decodeMembers (A ++ (k, .arr (E1 ++ .obj em :: E2)) :: C) pkg0 := by
    simp only [LoadPackageFile, readFile, unmarshalMap, migrateBugs, Option.getD_some]
    generalize hg : objLookup "bugs"
      (genericMembers (A ++ (k, .arr (E1 ++ .obj em :: E2)) :: C) []) = b at hbugs
    cases b with
    | none => rfl
    | some v =>
      cases v with
      | str s => exact absurd rfl (hbugs s)
      | null => rfl
      | bool _ => rfl
      | num _ => rfl
      | arr _ => rfl
      | obj _ => rfl
  rw [hload]
  have hAfit : ∀ x ∈ A, memberFits x = true ∧
      findField packageFields x.1 ≠ some .gxDependencies :=
    fun x hx => ⟨hfit x (List.mem_append_left _ hx), hA x hx⟩
  have hCfit : ∀ x ∈ C, memberFits x = true ∧
      findField packageFields x.1 ≠ some .gxDependencies :=
    fun x hx => ⟨hfit x (List.mem_append_right _ (List.mem_cons_of_mem _ hx)), hC x hx⟩
  have hdep : fitsField .gxDependencies (.arr (E1 ++ .obj em :: E2)) = true := by
    have := hfit (k, .arr (E1 ++ .obj em :: E2))
      (List.mem_append_right _ (List.mem_cons_self _ _))
    simpa [memberFits, hk] using this
  obtain ⟨p1, hp1, hd1⟩ := decodeMembers_keeps_deps A hAfit pkg0
  obtain ⟨p2, hp2⟩ := setField_ok .gxDependencies hdep p1
  obtain ⟨p3, hp3, hd3⟩ := decodeMembers_keeps_deps C hCfit p2
  have hp2deps : ∃ d, p2.Dependencies.get? E1.length = some (some d) ∧ d.Hash = "" := by
    simp only [setField, decodeDeps] at hp2
    obtain ⟨r, hr, hp⟩ := except_map_eq_ok hp2
    rw [hd1, hfresh] at hr
    obtain ⟨d, hd, hget⟩ := decodeDepElems_at E1 em E2 hr
    refine ⟨d, by rw [hp]; exact hget, ?_⟩
    exact decodeDepMembers_keeps_hash em hnohash hd
  obtain ⟨d, hget, hhash⟩ := hp2deps
  refine ⟨p3, d, ?_, by rw [hd3]; exact hget, hhash⟩
  rw [decodeMembers_append, hp1]
  simp only []
  rw [decodeMembers_cons_ok _ hk hp2, hp3]

/-- C7 amended, at noHashFile. -/
theorem LoadPackageFile_missing_hash_empty_witness :
    ∃ pkg d, LoadPackageFile {} noHashFile = .ok pkg ∧
      pkg.Dependencies.get? 0 = some (some d) ∧ d.Hash = "" :=
  LoadPackageFile_missing_hash_empty {} [("name", .str "pkg")]
    [("license", .str "MIT"), ("gxVersion", .str "0.12.1")] "gxDependencies" []
    [] [("name", .str "a"), ("version", .str "1.0.0")]
    (by decide) (by decide) (by decide) (by decide) (by decide)
    (fun s h => by change none = some _ at h; cases h) rfl

/-! ## C8. Load then save -/

/-- C8, refuted as stated: legacyFile and noBugsFile are valid manifest files;
each loads, the loaded manifest saves back without error, and the decoded
content of the file is no longer what it was (bugs has become an object,
respectively has been added). -/
theorem load_save_changes_content :
    (∃ pkg, LoadPackageFile {} legacyFile = .ok pkg ∧
      (SavePackageFile {} pkg legacyFile).1 = none ∧
      decodedContent (SavePackageFile {} pkg legacyFile).2 ≠ decodedContent legacyFile) ∧
    (∃ pkg, LoadPackageFile {} noBugsFile = .ok pkg ∧
      (SavePackageFile {} pkg noBugsFile).1 = none ∧
      decodedContent (SavePackageFile {} pkg noBugsFile).2 ≠ decodedContent noBugsFile) :=
  ⟨⟨{ Name := "pkg", License := "MIT", Bugs := { Url := "http://example.com" },
      GxVersion := "0.12.1" }, by decide, by decide, by decide⟩,
   ⟨{ Name := "pkg", License := "MIT", GxVersion := "0.12.1" }, by decide, by decide,
    by decide⟩⟩

/-- C8, amended: a file that SavePackageFile wrote for a manifest, to a new
location or over a JSON object whose top-level keys are all unknown to the
schema, is loaded into a new manifest without error; the loaded manifest has
the fields that were saved, saving it back unchanged succeeds when no I/O
fault occurs, and every successful save of it leaves the decoded content of
the file equal to what it was. -/
theorem load_save_round_trip (io : Faults) (p : Package) (slot0 : Slot)
    (hprior : slot0 = .absent ∨ ∃ E, decodedContent slot0 = some (.obj E) ∧
      ∀ x ∈ E, findField packageFields x.1 = none)
    (hsave : (SavePackageFile io p slot0).1 = none) :
    ∃ p1, LoadPackageFile {} (SavePackageFile io p slot0).2 = .ok p1 ∧
      p1.toPackageBase = p.toPackageBase ∧
      (SavePackageFile {} p1 (SavePackageFile io p slot0).2).1 = none ∧
      ∀ io2, (SavePackageFile io2 p1 (SavePackageFile io p slot0).2).1 = none →
        decodedContent (SavePackageFile io2 p1 (SavePackageFile io p slot0).2).2 =
          decodedContent (SavePackageFile io p slot0).2 := by
  rcases hprior with habs | ⟨E, hE, hunk⟩
  · -- the file was written to a new location
    subst habs
    obtain ⟨gx, hgx, hslot⟩ := SavePackageFile_new_ok hsave
    rw [hslot]
    have hser : serializedMap p =
        .ok (some (genericMembers (encodeBase p.toPackageBase ++ gx) [])) := by
      simp only [serializedMap, encodePackage, hgx, unmarshalMap]
    generalize hS : genericMembers (encodeBase p.toPackageBase ++ gx) [] = S at hser
    have hSwf : KeySorted S ∧ NormalMembers S := by
      rw [← hS]
      exact generic_members_wf _
    have hcur : decodedContent (.file (.json (.obj (encodeBase p.toPackageBase ++ gx)))) =
        some (.obj S) := by
      simp only [decodedContent, generic, hS]
    refine ⟨p, LoadPackageFile_new_file p hgx, rfl, SavePackageFile_no_faults hcur hser, ?_⟩
    intro io2 h2
    obtain ⟨inc, hinc, _, hout⟩ := SavePackageFile_merge_ok hcur h2
    rw [hser] at hinc
    simp only [Except.ok.injEq, Option.some.injEq] at hinc
    subst hinc
    rw [hout, hcur, mergeMaps_self hSwf.1 hSwf.2]
  · -- the file was written over a file of unknown keys
    obtain ⟨inc, hser, hslot, hcur1⟩ := SavePackageFile_merge_ok hE hsave
    obtain ⟨gx, hgx, hinc⟩ := serializedMap_ok hser
    simp only [Option.some.injEq] at hinc
    obtain ⟨ms0, _, hms0⟩ := decodedContent_obj hE
    have hEwf : KeySorted E ∧ NormalMembers E := by
      rw [hms0]
      exact generic_members_wf ms0
    have hload := LoadPackageFile_merged_file p hgx E hEwf.1 hEwf.2 hunk
    rw [← hinc] at hload
    have hSwf := serializedMap_normal hser
    have hser1 : serializedMap (reloaded generic p) = .ok (some inc) := by
      rw [serializedMap_reloaded generic
        (fun v => generic_of_normal (generic v) (generic_normal v)) p]
      exact hser
    rw [hslot] at hcur1 ⊢
    refine ⟨reloaded generic p, hload, rfl, SavePackageFile_no_faults hcur1 hser1, ?_⟩
    intro io2 h2
    obtain ⟨inc2, hinc2, _, hout⟩ := SavePackageFile_merge_ok hcur1 h2
    rw [hser1] at hinc2
    simp only [Except.ok.injEq, Option.some.injEq] at hinc2
    subst hinc2
    rw [hout, hcur1, mergeMaps_absorb hEwf.1 hEwf.2 hSwf.1 hSwf.2]
    intro x hx
    obtain ⟨f, hf⟩ := fieldName_of_schemaKey (serializedMap_keys hser hx)
    rw [hf]
    exact objLookup_unknown_none hunk f

/-- C8 amended, at extraEdited saved over unknownOnlyFile. -/
theorem load_save_round_trip_witness :
    ∃ p1, LoadPackageFile {} (SavePackageFile {} extraEdited unknownOnlyFile).2 = .ok p1 ∧
      p1.toPackageBase = extraEdited.toPackageBase ∧
      (SavePackageFile {} p1 (SavePackageFile {} extraEdited unknownOnlyFile).2).1 = none ∧
      ∀ io2, (SavePackageFile io2 p1 (SavePackageFile {} extraEdited unknownOnlyFile).2).1 =
          none →
        decodedContent
            (SavePackageFile io2 p1 (SavePackageFile {} extraEdited unknownOnlyFile).2).2 =
          decodedContent (SavePackageFile {} extraEdited unknownOnlyFile).2 :=
  load_save_round_trip {} extraEdited unknownOnlyFile
    (Or.inr ⟨[("extra", .obj [("x", .num 1)])], by decide, by decide⟩) (by decide)

/-! ## C9. SavePackageFile: unknown keys -/

/-- C9: after a successful SavePackageFile over a file that decodes to a JSON
object, every top-level key of the previous content that is not a key of the
manifest schema is in the resulting content with exactly its previous
value. -/
theorem SavePackageFile_keeps_unknown_keys (io : Faults) (pkg : Package) (slot : Slot)
    (cur : Members) (k : String) (v : JSON)
    (hcur : decodedContent slot = some (.obj cur))
    (hsave : (SavePackageFile io pkg slot).1 = none)
    (hk : k ∉ schemaKeys)
    (hv : objLookup k cur = some v) :
    ∃ out, decodedContent (SavePackageFile io pkg slot).2 = some (.obj out) ∧
      objLookup k out = some v := by
  obtain ⟨inc, hser, _, hout⟩ := SavePackageFile_merge_ok hcur hsave
  refine ⟨mergeMaps cur inc, hout, ?_⟩
  rw [objLookup_mergeMaps_absent k inc cur, hv]
  intro x hx hxk
  exact hk (by rw [← hxk]; exact serializedMap_keys hser hx)

/-- C9 at the example of the specification: extra survives a save that changes
the version. -/
theorem SavePackageFile_keeps_unknown_keys_witness :
    ∃ out, decodedContent (SavePackageFile {} extraEdited extraFile).2 = some (.obj out) ∧
      objLookup "extra" out = some (.obj [("x", .num 1)]) :=
  SavePackageFile_keeps_unknown_keys {} extraEdited extraFile
    [("bugs", .obj []), ("extra", .obj [("x", .num 1)]), ("gxVersion", .str "0.12.1"),
     ("license", .str "MIT"), ("name", .str "pkg"), ("version", .str "1.0.0")]
    "extra" (.obj [("x", .num 1)]) (by decide) (by decide) (by decide) (by decide)

/-! ## C10. SavePackageFile: precedence -/

/-- C10: after a successful SavePackageFile over a file that decodes to a JSON
object, every top-level key that the manifest serializes with a value that is
not an object holds exactly that value in the resulting content, whatever the
file held under the key before. -/
theorem SavePackageFile_incoming_wins (io : Faults) (pkg : Package) (slot : Slot)
    (cur inc : Members) (k : String) (v : JSON)
    (hcur : decodedContent slot = some (.obj cur))
    (hsave : (SavePackageFile io pkg slot).1 = none)
    (hser : serializedMap pkg = .ok (some inc))
    (hv : objLookup k inc = some v)
    (hobj : ∀ ms, v ≠ .obj ms) :
    ∃ out, decodedContent (SavePackageFile io pkg slot).2 = some (.obj out) ∧
      objLookup k out = some v := by
  obtain ⟨inc2, hser2, _, hout⟩ := SavePackageFile_merge_ok hcur hsave
  rw [hser] at hser2
  simp only [Except.ok.injEq, Option.some.injEq] at hser2
  subst hser2
  refine ⟨mergeMaps cur inc, hout, ?_⟩
  rw [objLookup_mergeMaps k inc cur (serializedMap_normal hser).1, hv]
  cases v with
  | obj ms => exact absurd rfl (hobj ms)
  | null => rfl
  | bool _ => rfl
  | num _ => rfl
  | str _ => rfl
  | arr _ => rfl

/-- C10 at the example of the specification: current license MIT, incoming
license Apache-2.0, saved license Apache-2.0. -/
theorem SavePackageFile_incoming_wins_witness :
    ∃ out, decodedContent (SavePackageFile {} { License := "Apache-2.0" } licenseFile).2 =
        some (.obj out) ∧
      objLookup "license" out = some (.str "Apache-2.0") :=
  SavePackageFile_incoming_wins {} { License := "Apache-2.0" } licenseFile
    [("license", .str "MIT")]
    [("bugs", .obj []), ("gxVersion", .str ""), ("license", .str "Apache-2.0")]
    "license" (.str "Apache-2.0") (by decide) (by decide) (by decide) (by decide)
    (by intro ms; exact nofun)

/-! ## C11. SavePackageFile: a new file -/

/-- C11: a successful SavePackageFile to a location that holds no file leaves
there the manifest's own document, so the decoded content of the file is
exactly the decoded serialized form of the manifest. -/
theorem SavePackageFile_new_file_content (io : Faults) (pkg : Package)
    (hsave : (SavePackageFile io pkg .absent).1 = none) :
    ∃ doc inc, encodePackage pkg = .ok doc ∧
      (SavePackageFile io pkg .absent).2 = .file (.json doc) ∧
      serializedMap pkg = .ok (some inc) ∧
      decodedContent (SavePackageFile io pkg .absent).2 = some (.obj inc) := by
  obtain ⟨gx, hgx, hslot⟩ := SavePackageFile_new_ok hsave
  have henc : encodePackage pkg = .ok (.obj (encodeBase pkg.toPackageBase ++ gx)) := by
    simp only [encodePackage, hgx]
  refine ⟨_, genericMembers (encodeBase pkg.toPackageBase ++ gx) [], henc, hslot, ?_, ?_⟩
  · simp only [serializedMap, henc, unmarshalMap]
  · rw [hslot]
    simp only [decodedContent, generic]

/-- C11 at noDepsManifest. -/
theorem SavePackageFile_new_file_content_witness :
    ∃ doc inc, encodePackage noDepsManifest = .ok doc ∧
      (SavePackageFile {} noDepsManifest .absent).2 = .file (.json doc) ∧
      serializedMap noDepsManifest = .ok (some inc) ∧
      decodedContent (SavePackageFile {} noDepsManifest .absent).2 = some (.obj inc) :=
  SavePackageFile_new_file_content {} noDepsManifest (by decide)

/-! ## C12. SavePackageFile: a failed save -/

/-- C12, refuted as stated: with the disk full the write fails after the file
has been created or truncated; SavePackageFile returns the error, and a
location that held no file now holds one, while a file that held a manifest
no longer holds it. -/
theorem SavePackageFile_failed_write_changes_file :
    ((SavePackageFile diskFull noDepsManifest .absent).1 =
        some (.failure "write: no space left on device") ∧
      (SavePackageFile diskFull noDepsManifest .absent).2 ≠ .absent) ∧
    ((SavePackageFile diskFull extraEdited extraFile).1 =
        some (.failure "write: no space left on device") ∧
      (SavePackageFile diskFull extraEdited extraFile).2 ≠ extraFile) := by
  decide

/-- C12, amended: when SavePackageFile returns an error and the write itself
did not fail (the error comes from reading the existing file, from decoding
it, from serializing the manifest for the merge, or from creating the file),
the location holds what it held before.  The case of a manifest that cannot
be encoded saved to a location without a file is left aside. -/
theorem SavePackageFile_error_before_write (io : Faults) (pkg : Package) (slot : Slot)
    (err : GoError)
    (herr : (SavePackageFile io pkg slot).1 = some err)
    (hw : io.write = none)
    (hgx : slot = .absent → ∀ b, pkg.Gx ≠ .invalid b) :
    (SavePackageFile io pkg slot).2 = slot := by
  have hwrite : ∀ (i : Encodable) (doc : JSON), encode i = .ok doc →
      (writeJson io i slot).1 ≠ none → (writeJson io i slot).2 = slot := by
    intro i doc hi hne
    unfold writeJson at hne ⊢
    cases hc : io.create with
    | some e => rfl
    | none =>
      simp only [hc, hi, hw] at hne
      exact absurd rfl hne
  cases slot with
  | absent =>
    have hrun : SavePackageFile io pkg .absent = writeJson io (.package pkg) .absent := rfl
    rw [hrun] at herr ⊢
    cases hg : encodeRaw pkg.Gx with
    | error e =>
      cases hp : pkg.Gx with
      | invalid b => exact absurd hp (hgx rfl b)
      | empty => rw [hp] at hg; simp [encodeRaw] at hg
      | valid v => rw [hp] at hg; simp [encodeRaw] at hg
    | ok gx =>
      have he : encode (.package pkg) = .ok (.obj (encodeBase pkg.toPackageBase ++ gx)) := by
        simp only [encode, encodePackage, hg]
      exact hwrite _ _ he (by rw [herr]; exact nofun)
  | unreadable d => rfl
  | file data =>
    cases hu : unmarshalMap data with
    | error e => simp only [SavePackageFile, readFile, hu]
    | ok cur =>
      cases hs : serializedMap pkg with
      | error e => simp only [SavePackageFile, readFile, hu, hs]
      | ok inc =>
        have hrun : SavePackageFile io pkg (.file data) =
            writeJson io (.map (mergeMaps (cur.getD []) (inc.getD []))) (.file data) := by
          simp only [SavePackageFile, readFile, hu, hs]
        rw [hrun] at herr ⊢
        exact hwrite _ _ rfl (by rw [herr]; exact nofun)

/-- C12 amended, at a corrupt existing file. -/
theorem SavePackageFile_error_before_write_witness :
    (SavePackageFile {} noDepsManifest corruptFile).1 = some .syntaxError ∧
    (SavePackageFile {} noDepsManifest corruptFile).2 = corruptFile :=
  ⟨by decide,
   SavePackageFile_error_before_write {} noDepsManifest corruptFile .syntaxError (by decide) rfl
     (by intro h; cases h)⟩

/-! ## C13. SavePackageFile: a corrupt existing file -/

/-- C13, refuted as stated: the text null is valid JSON that does not decode to
a JSON object; decoding it into the map reports no error and leaves the map
nil, so SavePackageFile returns no error, and the file is replaced. -/
theorem SavePackageFile_null_file_overwritten :
    decodedContent nullFile = some .null ∧
    unmarshalMap (.json .null) = .ok none ∧
    (SavePackageFile {} noDepsManifest nullFile).1 = none ∧
    (SavePackageFile {} noDepsManifest nullFile).2 ≠ nullFile := by
  decide

/-- C13, amended: when the existing file is not valid JSON, or is valid JSON
that is neither an object nor null, SavePackageFile returns an error and the
file is left as it was. -/
theorem SavePackageFile_blocked (io : Faults) (pkg : Package) (data : FileData)
    (hbad : (∃ b, data = .malformed b) ∨
      ∃ doc, data = .json doc ∧ doc ≠ .null ∧ ∀ ms, doc ≠ .obj ms) :
    ∃ err, (SavePackageFile io pkg (.file data)).1 = some err ∧
      (SavePackageFile io pkg (.file data)).2 = .file data := by
  have hu : ∃ err, unmarshalMap data = .error err := by
    rcases hbad with ⟨b, hb⟩ | ⟨doc, hd, hnull, hobj⟩
    · exact ⟨.syntaxError, by rw [hb]; rfl⟩
    · rw [hd]
      cases doc with
      | null => exact absurd rfl hnull
      | obj ms => exact absurd rfl (hobj ms)
      | bool _ => exact ⟨_, rfl⟩
      | num _ => exact ⟨_, rfl⟩
      | str _ => exact ⟨_, rfl⟩
      | arr _ => exact ⟨_, rfl⟩
  obtain ⟨err, herr⟩ := hu
  exact ⟨err, by simp only [SavePackageFile, readFile, herr],
    by simp only [SavePackageFile, readFile, herr]⟩

/-- C13 amended, at a corrupt existing file. -/
theorem SavePackageFile_blocked_witness :
    ∃ err, (SavePackageFile {} noDepsManifest corruptFile).1 = some err ∧
      (SavePackageFile {} noDepsManifest corruptFile).2 = corruptFile :=
  SavePackageFile_blocked {} noDepsManifest (.malformed "\x7b\"name\": ") (Or.inl ⟨_, rfl⟩)

/-! ## C14. Load then save: legacy bugs -/

/-- C14, refuted as stated: for the bare string "" the reloaded and saved file
holds the empty object under bugs, not the object with url "". -/
theorem load_save_empty_bugs :
    decodedContent emptyBugsFile =
      some (.obj [("bugs", .str ""), ("gxVersion", .str "0.12.1"), ("license", .str "MIT"),
        ("name", .str "pkg")]) ∧
    ∃ pkg, LoadPackageFile {} emptyBugsFile = .ok pkg ∧
      (SavePackageFile {} pkg emptyBugsFile).1 = none ∧
      decodedContent (SavePackageFile {} pkg emptyBugsFile).2 =
        some (.obj [("bugs", .obj []), ("gxVersion", .str "0.12.1"), ("license", .str "MIT"),
          ("name", .str "pkg")]) ∧
      JSON.obj [] ≠ JSON.obj [("url", .str "")] :=
  ⟨by decide, { Name := "pkg", License := "MIT", GxVersion := "0.12.1" }, by decide, by decide,
    by decide, by decide⟩

/-- C14, amended: a file that decodes to a JSON object whose bugs value is the
bare string s, and whose other keys fit the schema, is loaded into a new
manifest without error; saving that manifest back succeeds when no I/O fault
occurs, and after every successful save the bugs value of the file is the
object the encoder writes for it: url s when s is not empty, the empty
object when s is empty, and never a bare string. -/
theorem load_save_bugs_object (slot : Slot) (cur : Members) (s : String)
    (hcur : decodedContent slot = some (.obj cur))
    (hbugs : objLookup "bugs" cur = some (.str s))
    (hfit : ∀ x ∈ cur, x.1 ≠ "bugs" →
      memberFits x = true ∧ findField packageFields x.1 ≠ some .bugs) :
    ∃ pkg, LoadPackageFile {} slot = .ok pkg ∧
      (SavePackageFile {} pkg slot).1 = none ∧
      ∀ io, (SavePackageFile io pkg slot).1 = none →
        ∃ out, decodedContent (SavePackageFile io pkg slot).2 = some (.obj out) ∧
          (s ≠ "" → objLookup "bugs" out = some (.obj [("url", .str s)])) ∧
          (s = "" → objLookup "bugs" out = some (.obj [])) ∧
          ∀ u, objLookup "bugs" out ≠ some (.str u) := by
  obtain ⟨ms, hslot, hms⟩ := decodedContent_obj hcur
  subst hslot
  rw [hms] at hbugs hfit
  obtain ⟨pkg, hload, hurl⟩ := LoadPackageFile_legacy {} ms s hbugs hfit
  obtain ⟨inc, hser⟩ := serializedMap_of_valid (gx_valid_of_load hload)
  refine ⟨pkg, hload, SavePackageFile_no_faults hcur hser, ?_⟩
  intro io hsave
  rw [← hms] at hbugs
  obtain ⟨out, hout, hb⟩ := objLookup_bugs_after_save hcur hbugs hsave
  rw [bugsObj_of_url hurl] at hb
  refine ⟨out, hout, ?_, ?_, ?_⟩
  · intro hs
    rw [hb]
    simp only [encodeBugs, optString, hs, if_false]
  · intro hs
    rw [hb]
    simp only [encodeBugs, optString, hs, if_true]
  · intro u hu
    rw [hb] at hu
    simp only [encodeBugs] at hu
    cases hu

/-- C14 amended, at the example of the specification. -/
theorem load_save_bugs_object_witness :
    ∃ pkg, LoadPackageFile {} legacyFile = .ok pkg ∧
      (SavePackageFile {} pkg legacyFile).1 = none ∧
      ∀ io, (SavePackageFile io pkg legacyFile).1 = none →
        ∃ out, decodedContent (SavePackageFile io pkg legacyFile).2 = some (.obj out) ∧
          ("http://example.com" ≠ "" →
            objLookup "bugs" out = some (.obj [("url", .str "http://example.com")])) ∧
          ("http://example.com" = "" → objLookup "bugs" out = some (.obj [])) ∧
          ∀ u, objLookup "bugs" out ≠ some (.str u) :=
  load_save_bugs_object legacyFile
    [("bugs", .str "http://example.com"), ("gxVersion", .str "0.12.1"),
     ("license", .str "MIT"), ("name", .str "pkg")]
    "http://example.com" (by decide) (by decide) (by decide)

/-! ## C15. Load then save: the gx payload -/

/-- C15: for a manifest file (one that LoadPackageFile accepts) that decodes
to a JSON object with the value v under gx, gx being the only spelling of
that key in the file, whether or not bugs needs the legacy migration: the
loaded manifest can be saved back, and after every successful save the
decoded content of the file has the same v under gx. -/
theorem load_save_keeps_gx (slot : Slot) (cur : Members) (v : JSON) (pkg : Package)
    (hcur : decodedContent slot = some (.obj cur))
    (hgx : objLookup "gx" cur = some v)
    (halias : ∀ x ∈ cur, findField packageFields x.1 = some .gx → x.1 = "gx")
    (hload : LoadPackageFile {} slot = .ok pkg) :
    (SavePackageFile {} pkg slot).1 = none ∧
    ∀ io, (SavePackageFile io pkg slot).1 = none →
      ∃ out, decodedContent (SavePackageFile io pkg slot).2 = some (.obj out) ∧
        objLookup "gx" out = some v := by
  obtain ⟨ms, hslot, hms⟩ := decodedContent_obj hcur
  subst hslot
  obtain ⟨inc0, hser0⟩ := serializedMap_of_valid (gx_valid_of_load hload)
  refine ⟨SavePackageFile_no_faults hcur hser0, ?_⟩
  intro io hsave
  obtain ⟨w, hw, hwv⟩ := gx_of_load (by rw [← hms]; exact hgx) (by rw [← hms]; exact halias) hload
  obtain ⟨inc, hser, _, hout⟩ := SavePackageFile_merge_ok hcur hsave
  obtain ⟨gx, hgxm, hinc⟩ := serializedMap_ok hser
  simp only [Option.some.injEq] at hinc
  have hwf : KeySorted cur ∧ NormalMembers cur := by
    rw [hms]
    exact generic_members_wf ms
  have hvn : Normal v := (normalMembers_iff cur).1 hwf.2 ("gx", v) (mem_of_objLookup hgx)
  have hl : objLookup "gx" inc = some v := by
    have := objLookup_serialized .gx pkg hgxm
    rw [← hinc] at this
    simpa only [fieldName, encodedField, hw, Option.map_some', hwv] using this
  refine ⟨mergeMaps cur inc, hout, ?_⟩
  rw [objLookup_mergeMaps _ inc cur (serializedMap_normal hser).1, hl, hgx]
  simp only [mergeValue_self v hvn]

/-- C15 at a legacy file with a nested gx payload, and at a file in the
current form. -/
theorem load_save_keeps_gx_witness :
    ((SavePackageFile {} legacyGxLoaded legacyGxFile).1 = none ∧
      ∀ io, (SavePackageFile io legacyGxLoaded legacyGxFile).1 = none →
        ∃ out, decodedContent (SavePackageFile io legacyGxLoaded legacyGxFile).2 =
            some (.obj out) ∧
          objLookup "gx" out = some gxPayload) ∧
    ((SavePackageFile {} currentGxLoaded currentGxFile).1 = none ∧
      ∀ io, (SavePackageFile io currentGxLoaded currentGxFile).1 = none →
        ∃ out, decodedContent (SavePackageFile io currentGxLoaded currentGxFile).2 =
            some (.obj out) ∧
          objLookup "gx" out = some (.obj [("dvcsimport", .str "example.com/pkg")])) :=
  ⟨load_save_keeps_gx legacyGxFile
      [("bugs", .str "http://example.com"), ("gx", gxPayload),
       ("gxVersion", .str "0.12.1"), ("license", .str "MIT"), ("name", .str "pkg")]
      gxPayload legacyGxLoaded (by decide) (by decide) (by decide) (by decide),
   load_save_keeps_gx currentGxFile
      [("bugs", .obj [("url", .str "http://example.com")]),
       ("gx", .obj [("dvcsimport", .str "example.com/pkg")]),
       ("gxVersion", .str "0.12.1"), ("license", .str "MIT"), ("name", .str "pkg")]
      (.obj [("dvcsimport", .str "example.com/pkg")])
      currentGxLoaded (by decide) (by decide) (by decide) (by decide)⟩

/-! ## C16. SavePackageFile: the trailing newline -/

/-- C16, the code at a manifest saved to a new location and at a manifest saved
over an existing file: the bytes written are the laid-out document followed
by two newline characters (the one Encode appends, which Indent copies, and
the one writeJson writes itself), not by one. -/
theorem SavePackageFile_writes_two_newlines (layout : JSON → String) :
    SavePackageFileBytes layout {} noDepsManifest .absent =
      some (layout (.obj [("name", .str "pkg"), ("license", .str "MIT"), ("bugs", .obj []),
        ("gxVersion", .str "0.12.1")]) ++ "\n" ++ "\n") ∧
    SavePackageFileBytes layout {} noDepsManifest .absent ≠
      some (layout (.obj [("name", .str "pkg"), ("license", .str "MIT"), ("bugs", .obj []),
        ("gxVersion", .str "0.12.1")]) ++ "\n") ∧
    ∃ doc, (SavePackageFile {} extraEdited extraFile).2 = .file (.json doc) ∧
      SavePackageFileBytes layout {} extraEdited extraFile =
        some (layout doc ++ "\n" ++ "\n") ∧
      SavePackageFileBytes layout {} extraEdited extraFile ≠ some (layout doc ++ "\n") := by
  have h : SavePackageFileBytes layout {} noDepsManifest .absent =
      some (layout (.obj [("name", .str "pkg"), ("license", .str "MIT"), ("bugs", .obj []),
        ("gxVersion", .str "0.12.1")]) ++ "\n" ++ "\n") := rfl
  refine ⟨h, ?_, ?_⟩
  · rw [h]
    intro he
    injection he with he
    exact append_newline_ne _ he
  · obtain ⟨doc, hdoc, hbytes⟩ :=
      SavePackageFileBytes_of_ok layout (by decide : (SavePackageFile {} extraEdited extraFile).1 = none)
    refine ⟨doc, hdoc, hbytes, ?_⟩
    rw [hbytes]
    intro he
    injection he with he
    exact append_newline_ne _ he

/-! ## C17. SavePackageFile: omitted fields -/

/-- C17: after a successful SavePackageFile over a file that decodes to a JSON
object, every schema key whose field the encoder omits for this manifest (a
field tagged omitempty at its zero value) has in the resulting content what
it had, or did not have, before; so for an empty dependency list, empty
keywords, an empty name or version, and subtoolRequired false. -/
theorem SavePackageFile_keeps_omitted (io : Faults) (pkg : Package) (slot : Slot)
    (cur : Members)
    (hcur : decodedContent slot = some (.obj cur))
    (hsave : (SavePackageFile io pkg slot).1 = none) :
    ∃ out, decodedContent (SavePackageFile io pkg slot).2 = some (.obj out) ∧
      (∀ f, encodedField f pkg = none →
        objLookup (fieldName f) out = objLookup (fieldName f) cur) ∧
      (pkg.Dependencies = [] →
        objLookup "gxDependencies" out = objLookup "gxDependencies" cur) ∧
      (pkg.Keywords = [] → objLookup "keywords" out = objLookup "keywords" cur) ∧
      (pkg.Name = "" → objLookup "name" out = objLookup "name" cur) ∧
      (pkg.Version = "" → objLookup "version" out = objLookup "version" cur) ∧
      (pkg.SubtoolRequired = false →
        objLookup "subtoolRequired" out = objLookup "subtoolRequired" cur) := by
  obtain ⟨inc, hser, _, hout⟩ := SavePackageFile_merge_ok hcur hsave
  obtain ⟨gx, hgx, hinc⟩ := serializedMap_ok hser
  simp only [Option.some.injEq] at hinc
  have hgen : ∀ f, encodedField f pkg = none →
      objLookup (fieldName f) (mergeMaps cur inc) = objLookup (fieldName f) cur := by
    intro f hf
    have hl : objLookup (fieldName f) inc = none := by
      rw [hinc, objLookup_serialized f pkg hgx, hf]
      rfl
    rw [objLookup_mergeMaps _ inc cur (serializedMap_normal hser).1, hl]
  refine ⟨mergeMaps cur inc, hout, hgen, ?_, ?_, ?_, ?_, ?_⟩
  · intro h
    exact hgen .gxDependencies (by simp only [encodedField, h, if_true])
  · intro h
    exact hgen .keywords (by simp only [encodedField, h, if_true])
  · intro h
    exact hgen .name (by simp only [encodedField, h, if_true])
  · intro h
    exact hgen .version (by simp only [encodedField, h, if_true])
  · intro h
    exact hgen .subtoolRequired (by simp [encodedField, h])

/-- C17 at the example: a manifest without dependencies saved over a file with
two dependencies leaves both in the file. -/
theorem SavePackageFile_keeps_omitted_witness :
    ∃ out, decodedContent (SavePackageFile {} noDepsManifest depsFile).2 = some (.obj out) ∧
      objLookup "gxDependencies" out =
        some (.arr [.obj [("hash", .str "H1"), ("name", .str "a")],
          .obj [("hash", .str "H2"), ("name", .str "b")]]) := by
  obtain ⟨out, hout, _, hdeps, _⟩ := SavePackageFile_keeps_omitted {} noDepsManifest depsFile
    [("bugs", .obj []),
     ("gxDependencies", .arr [.obj [("hash", .str "H1"), ("name", .str "a")],
       .obj [("hash", .str "H2"), ("name", .str "b")]]),
     ("gxVersion", .str "0.12.1"), ("license", .str "MIT"), ("name", .str "pkg")]
    (by decide) (by decide)
  exact ⟨out, hout, by rw [hdeps rfl]; decide⟩

end Gx
